import Mathlib

/-! TinyJAMBU-192 (`encrypt.c`): a shallow embedding and its properties

The C program works on `unsigned char` buffers and an `unsigned int state[4]`.
Here a byte buffer is a `List Nat` (every entry below `256`), a 32-bit word is
a `Nat` (below `2 ^ 32`), and the places where C arithmetic wraps carry an
explicit `% 2 ^ 32`.  Reinterpreting a byte buffer as words
(`((unsigned int*)p)[i]`) is little-endian, as on the machines the program
targets.  A function that contains the loop of `state_update` returns an
`Option`: `none` stands for a run that does not return.
-/

namespace TinyJambu

/-! ## Constants -/

def FrameBitsIV : Nat := 0x10
def FrameBitsAD : Nat := 0x30
def FrameBitsPC : Nat := 0x50
def FrameBitsFinalization : Nat := 0x70

def NROUND1 : Nat := 128 * 5
def NROUND2 : Nat := 128 * 9

/-! ## Data model -/

/-- The four 32-bit registers `state[0..3]`. -/
structure State where
  w0 : Nat
  w1 : Nat
  w2 : Nat
  w3 : Nat
deriving DecidableEq

/-- Every register holds a 32-bit value. -/
def State.wf (s : State) : Prop :=
  s.w0 < 2 ^ 32 ∧ s.w1 < 2 ^ 32 ∧ s.w2 < 2 ^ 32 ∧ s.w3 < 2 ^ 32

instance (s : State) : Decidable s.wf := by
  unfold State.wf; exact inferInstance

/-- Every entry of the buffer is an `unsigned char`. -/
def is_bytes (p : List Nat) : Prop := ∀ b ∈ p, b < 256

instance (p : List Nat) : Decidable (is_bytes p) := by
  unfold is_bytes; exact inferInstance

/-- The read `((unsigned int*)p)[i]`: four bytes from offset `4 * i`, least significant first. -/
def load32 (p : List Nat) (i : Nat) : Nat :=
  p.getD (4 * i) 0 ||| (p.getD (4 * i + 1) 0 <<< 8) |||
    (p.getD (4 * i + 2) 0 <<< 16) ||| (p.getD (4 * i + 3) 0 <<< 24)

/-- The four bytes of a 32-bit word in memory order (least significant first). -/
def word_bytes (w : Nat) : List Nat :=
  [w % 256, (w >>> 8) % 256, (w >>> 16) % 256, (w >>> 24) % 256]

/-- The write `((unsigned int*)p)[i] = w`. -/
def store32 (p : List Nat) (i : Nat) (w : Nat) : List Nat :=
  (((p.set (4 * i) (w % 256)).set (4 * i + 1) ((w >>> 8) % 256)).set
    (4 * i + 2) ((w >>> 16) % 256)).set (4 * i + 3) ((w >>> 24) % 256)

/-- The sixteen bytes of `state` as seen through `(unsigned char*)state`. -/
def state_bytes (s : State) : List Nat :=
  word_bytes s.w0 ++ word_bytes s.w1 ++ word_bytes s.w2 ++ word_bytes s.w3

/-- The state whose memory image is the given sixteen bytes. -/
def state_of_bytes (b : List Nat) : State :=
  ⟨load32 b 0, load32 b 1, load32 b 2, load32 b 3⟩

/-- The complement `~x` of a 32-bit value. -/
def not32 (x : Nat) : Nat := x ^^^ 0xFFFFFFFF

/-! ## `state_update` -/

/-- One pass through the body of the loop of `state_update`: 128 rounds, as four
32-round steps.  The pair is the state and the key index `j` at the end of the pass. -/
def state_update_body (key : List Nat) (state : State) (j : Nat) : State × Nat :=
  let t1 : Nat := (state.w1 >>> 15) ||| ((state.w2 <<< 17) % 2 ^ 32)
  let t2 : Nat := (state.w2 >>> 6) ||| ((state.w3 <<< 26) % 2 ^ 32)
  let t3 : Nat := (state.w2 >>> 21) ||| ((state.w3 <<< 11) % 2 ^ 32)
  let t4 : Nat := (state.w2 >>> 27) ||| ((state.w3 <<< 5) % 2 ^ 32)
  let state : State := { state with w0 := state.w0 ^^^ (t1 ^^^ not32 (t2 &&& t3) ^^^ t4 ^^^ load32 key j) }
  let j : Nat := j + 1
  let t1 : Nat := (state.w2 >>> 15) ||| ((state.w3 <<< 17) % 2 ^ 32)
  let t2 : Nat := (state.w3 >>> 6) ||| ((state.w0 <<< 26) % 2 ^ 32)
  let t3 : Nat := (state.w3 >>> 21) ||| ((state.w0 <<< 11) % 2 ^ 32)
  let t4 : Nat := (state.w3 >>> 27) ||| ((state.w0 <<< 5) % 2 ^ 32)
  let state : State := { state with w1 := state.w1 ^^^ (t1 ^^^ not32 (t2 &&& t3) ^^^ t4 ^^^ load32 key j) }
  let j : Nat := if j + 1 = 6 then 0 else j + 1
  let t1 : Nat := (state.w3 >>> 15) ||| ((state.w0 <<< 17) % 2 ^ 32)
  let t2 : Nat := (state.w0 >>> 6) ||| ((state.w1 <<< 26) % 2 ^ 32)
  let t3 : Nat := (state.w0 >>> 21) ||| ((state.w1 <<< 11) % 2 ^ 32)
  let t4 : Nat := (state.w0 >>> 27) ||| ((state.w1 <<< 5) % 2 ^ 32)
  let state : State := { state with w2 := state.w2 ^^^ (t1 ^^^ not32 (t2 &&& t3) ^^^ t4 ^^^ load32 key j) }
  let j : Nat := j + 1
  let t1 : Nat := (state.w0 >>> 15) ||| ((state.w1 <<< 17) % 2 ^ 32)
  let t2 : Nat := (state.w1 >>> 6) ||| ((state.w2 <<< 26) % 2 ^ 32)
  let t3 : Nat := (state.w1 >>> 21) ||| ((state.w2 <<< 11) % 2 ^ 32)
  let t4 : Nat := (state.w1 >>> 27) ||| ((state.w2 <<< 5) % 2 ^ 32)
  let state : State := { state with w3 := state.w3 ^^^ (t1 ^^^ not32 (t2 &&& t3) ^^^ t4 ^^^ load32 key j) }
  let j : Nat := if j + 1 = 6 then 0 else j + 1
  (state, j)

/-- The loop `for (i = 0, j = 0; i < number_of_steps; i = i + 128)` from the loop
variables `i`, `j`; the counter `i` is an `unsigned int` and wraps.  `fuel` bounds the
number of passes; `none` means the loop has not ended within them. -/
def state_update_loop (key : List Nat) (number_of_steps : Nat) :
    Nat → Nat → Nat → State → Option State
  | 0, _, _, _ => none
  | fuel + 1, i, j, state =>
    if i < number_of_steps then
      let r := state_update_body key state j
      state_update_loop key number_of_steps fuel ((i + 128) % 2 ^ 32) r.2 r.1
    else some state

/-- The function `state_update(state, key, number_of_steps)`.  The loop either ends
within `number_of_steps / 128 + 1` passes or its counter wraps to `0` and it never
ends, so this fuel decides the outcome. -/
def state_update (state : State) (key : List Nat) (number_of_steps : Nat) : Option State :=
  state_update_loop key number_of_steps (number_of_steps / 128 + 2) 0 0 state

/-! ## Loops with a counter -/

/-- The loop `for (i = i0; i < i0 + n; i++) body` whose body may fail to return. -/
def for_loopM {σ : Type} (body : Nat → σ → Option σ) : Nat → Nat → σ → Option σ
  | 0, _, s => some s
  | n + 1, i, s => (body i s).bind (for_loopM body n (i + 1))

/-- The loop `for (i = i0; i < i0 + n; i++) body` with a body that always returns. -/
def for_loop {σ : Type} (body : Nat → σ → σ) : Nat → Nat → σ → σ
  | 0, _, s => s
  | n + 1, i, s => for_loop body n (i + 1) (body i s)

/-! ## `initialization` -/

/-- The body of the loop of `initialization` that introduces IV word `i`. -/
def initialization_body (key iv : List Nat) (i : Nat) (state : State) : Option State := do
  let state : State := { state with w1 := state.w1 ^^^ FrameBitsIV }
  let state ← state_update state key NROUND1
  pure { state with w3 := state.w3 ^^^ load32 iv i }

/-- The function `initialization(key, iv, state)`; the argument is the content of the
state buffer at entry. -/
def initialization (key iv : List Nat) (state : State) : Option State := do
  let state : State := { state with w0 := 0, w1 := 0, w2 := 0, w3 := 0 }
  let state ← state_update state key NROUND2
  for_loopM (initialization_body key iv) 3 0 state

/-! ## `process_ad` -/

/-- The statement `((unsigned char*)state)[n] ^= b`. -/
def xor_state_byte (state : State) (n : Nat) (b : Nat) : State :=
  state_of_bytes ((state_bytes state).set n ((state_bytes state).getD n 0 ^^^ b))

/-- The body of the first loop of `process_ad`: one full block of associated data. -/
def process_ad_body (k ad : List Nat) (i : Nat) (state : State) : Option State := do
  let state : State := { state with w1 := state.w1 ^^^ FrameBitsAD }
  let state ← state_update state k NROUND1
  pure { state with w3 := state.w3 ^^^ load32 ad i }

/-- The function `process_ad(k, ad, adlen, state)` with `adlen` the length of `ad`. -/
def process_ad (k ad : List Nat) (state : State) : Option State := do
  let adlen : Nat := ad.length
  let state ← for_loopM (process_ad_body k ad) (adlen >>> 2) 0 state
  let i : Nat := adlen >>> 2
  if (adlen &&& 3) > 0 then
    let state : State := { state with w1 := state.w1 ^^^ FrameBitsAD }
    let state ← state_update state k NROUND1
    let state : State :=
      for_loop (fun j state => xor_state_byte state (12 + j) (ad.getD ((i <<< 2) + j) 0))
        (adlen &&& 3) 0 state
    pure { state with w1 := state.w1 ^^^ (adlen &&& 3) }
  else pure state

/-! ## `crypto_aead_encrypt` -/

/-- The body of the first loop of `crypto_aead_encrypt`: one full block of plaintext.
The loop carries the state and the output buffer `c`. -/
def encrypt_body (k m : List Nat) (i : Nat) (sc : State × List Nat) :
    Option (State × List Nat) := do
  let state : State := { sc.1 with w1 := sc.1.w1 ^^^ FrameBitsPC }
  let state ← state_update state k NROUND2
  let state : State := { state with w3 := state.w3 ^^^ load32 m i }
  let c : List Nat := store32 sc.2 i (state.w2 ^^^ load32 m i)
  pure (state, c)

/-- The body of the byte loop of `crypto_aead_encrypt` for the remaining bytes; `i` is
the number of full blocks before them. -/
def encrypt_tail_body (m : List Nat) (i : Nat) (j : Nat) (sc : State × List Nat) :
    State × List Nat :=
  let state : State := xor_state_byte sc.1 (12 + j) (m.getD ((i <<< 2) + j) 0)
  let c : List Nat :=
    sc.2.set ((i <<< 2) + j) ((state_bytes state).getD (8 + j) 0 ^^^ m.getD ((i <<< 2) + j) 0)
  (state, c)

/-- The stage "process the plaintext" of `crypto_aead_encrypt` (the loop over the full
blocks and the treatment of the remaining bytes), from the state and the buffer `c`
it starts with. -/
def encrypt_message (k m : List Nat) (sc : State × List Nat) : Option (State × List Nat) := do
  let mlen : Nat := m.length
  let sc ← for_loopM (encrypt_body k m) (mlen >>> 2) 0 sc
  let i : Nat := mlen >>> 2
  if (mlen &&& 3) > 0 then
    let state : State := { sc.1 with w1 := sc.1.w1 ^^^ FrameBitsPC }
    let state ← state_update state k NROUND2
    let sc : State × List Nat := for_loop (encrypt_tail_body m i) (mlen &&& 3) 0 (state, sc.2)
    pure ({ sc.1 with w1 := sc.1.w1 ^^^ (mlen &&& 3) }, sc.2)
  else pure sc

/-- What `crypto_aead_encrypt` hands back: the return value, `*clen` and the buffer `c`. -/
structure EncryptResult where
  ret : Int
  clen : Nat
  c : List Nat
deriving DecidableEq

/-- The stage "finalization" of `crypto_aead_encrypt` up to its `return`: the two tag
words go to the local `mac` (written before it is read, here zeros at the start),
`*clen` is set and `mac` is copied behind the `mlen` bytes of `c`.  The lengths are
those of buffers in memory, so `mlen + 8` does not wrap. -/
def encrypt_finalization (k : List Nat) (mlen : Nat) (sc : State × List Nat) :
    Option EncryptResult := do
  let mac : List Nat := List.replicate 8 0
  let state : State := { sc.1 with w1 := sc.1.w1 ^^^ FrameBitsFinalization }
  let state ← state_update state k NROUND2
  let mac : List Nat := store32 mac 0 state.w2
  let state : State := { state with w1 := state.w1 ^^^ FrameBitsFinalization }
  let state ← state_update state k NROUND1
  let mac : List Nat := store32 mac 1 state.w2
  let clen : Nat := mlen + 8
  let c : List Nat := for_loop (fun j c => c.set (mlen + j) (mac.getD j 0)) 8 0 sc.2
  pure ⟨0, clen, c⟩

/-- The function `crypto_aead_encrypt(c, clen, m, mlen, ad, adlen, nsec, npub, k)` with
`mlen` and `adlen` the lengths of `m` and `ad`; `c` is the content of the output buffer
at entry and `nsec` is not used.  The local `state` is zeroed by `initialization`
before it is read and starts here as zeros. -/
def crypto_aead_encrypt (c m ad nsec npub k : List Nat) : Option EncryptResult := do
  let _ := nsec
  let state : State := ⟨0, 0, 0, 0⟩
  let state ← initialization k npub state
  let state ← process_ad k ad state
  let sc ← encrypt_message k m (state, c)
  encrypt_finalization k m.length sc

/-! ## Total descriptions used in the statements -/

/-- The state with `x` xored into word 1. -/
def xor_w1 (s : State) (x : Nat) : State := { s with w1 := s.w1 ^^^ x }

/-- The state with `x` xored into word 3. -/
def xor_w3 (s : State) (x : Nat) : State := { s with w3 := s.w3 ^^^ x }

/-- The result of `n` consecutive passes through the body of the loop of `state_update`,
the first with key index `j`. -/
def state_update_passes (key : List Nat) : Nat → Nat → State → State
  | 0, _, s => s
  | n + 1, j, s =>
    state_update_passes key n (state_update_body key s j).2 (state_update_body key s j).1

/-- The state after `n` passes that start with key index `0`. -/
def perm (key : List Nat) (n : Nat) (s : State) : State := state_update_passes key n 0 s

/-- The first `n` 4-byte blocks of a buffer, in order. -/
def take_blocks : Nat → List Nat → List (List Nat)
  | 0, _ => []
  | n + 1, p => p.take 4 :: take_blocks n (p.drop 4)

/-- The full 4-byte blocks of a buffer, in order. -/
def full_blocks (p : List Nat) : List (List Nat) := take_blocks (p.length / 4) p

/-- The treatment of one full block of associated data as the specification words it:
xor `0x30` into word 1, `state_update` with 640 steps, xor the block read as a
little-endian word into word 3. -/
def ad_block (k : List Nat) (s : State) (b : List Nat) : Option State :=
  (state_update (xor_w1 s 0x30) k 640).map fun u => xor_w3 u (load32 b 0)

/-- The treatment of the full plaintext blocks as the specification words it, block by
block: xor `0x50` into word 1, `state_update` with 1152 steps, xor the plaintext word
into word 3, and emit word 2 of the updated state xor the plaintext word, least
significant byte first.  The result is the final state and the bytes emitted. -/
def enc_blocks (k : List Nat) : State → List (List Nat) → Option (State × List Nat)
  | s, [] => some (s, [])
  | s, b :: bs =>
    (state_update (xor_w1 s 0x50) k 1152).bind fun u =>
      (enc_blocks k (xor_w3 u (load32 b 0)) bs).map fun r =>
        (r.1, word_bytes (u.w2 ^^^ load32 b 0) ++ r.2)

/-! ## Decryption, from the specification

`encrypt.c` has no `crypto_aead_decrypt`; the header declares it and the
specification defines it as the mirror of encryption followed by the
verification of the tag. -/

/-- What decryption hands back. -/
inductive DecryptResult where
  | ok (plaintext : List Nat)
  | authentication_failure
deriving DecidableEq

/-- Modelled from the spec: the Finalizer (§4.5) as a function from the state to the
8 tag bytes; `encrypt.c` has it only inline in `crypto_aead_encrypt`. -/
def finalize (k : List Nat) (s : State) : Option (List Nat) :=
  (state_update (xor_w1 s 0x70) k 1152).bind fun a =>
    (state_update (xor_w1 a 0x70) k 640).map fun b =>
      word_bytes a.w2 ++ word_bytes b.w2

/-- Modelled from the spec: the decryption direction of the Message Transducer (§4.4)
on the full blocks, which `encrypt.c` does not have.  The ciphertext word xor word 2
of the updated state is the plaintext word, and the plaintext word goes into word 3. -/
def dec_blocks (k : List Nat) : State → List (List Nat) → Option (State × List Nat)
  | s, [] => some (s, [])
  | s, b :: bs =>
    (state_update (xor_w1 s 0x50) k 1152).bind fun u =>
      (dec_blocks k (xor_w3 u (load32 b 0 ^^^ u.w2)) bs).map fun r =>
        (r.1, word_bytes (load32 b 0 ^^^ u.w2) ++ r.2)

/-- Modelled from the spec: the decryption direction of the Message Transducer (§4.4)
on the trailing 1 to 3 ciphertext bytes `t`, which `encrypt.c` does not have.  Byte `j`
of the plaintext is ciphertext byte `j` xor byte `j` of word 2; it is folded into byte
`j` of word 3, and the number of trailing bytes goes into word 1. -/
def dec_trailing (k : List Nat) (s : State) (t : List Nat) : Option (State × List Nat) :=
  if t.length = 0 then some (s, [])
  else
    (state_update (xor_w1 s 0x50) k 1152).map fun u =>
      let sp : State × List Nat :=
        for_loop (fun j sp =>
            let p : Nat := t.getD j 0 ^^^ (state_bytes sp.1).getD (8 + j) 0
            (xor_state_byte sp.1 (12 + j) p, sp.2 ++ [p]))
          t.length 0 (u, [])
      (xor_w1 sp.1 t.length, sp.2)

/-- Modelled from the spec: `crypto_aead_decrypt` (§4.6), declared in `crypto_aead.h`
and absent from `encrypt.c`.  The last 8 bytes of `c` are the received tag; the rest is
decrypted along the trajectory of encryption, and the plaintext is released only when
the computed tag equals the received one.  An input shorter than a tag is refused. -/
def crypto_aead_decrypt (c ad npub k : List Nat) : Option DecryptResult :=
  if c.length < 8 then some DecryptResult.authentication_failure
  else
    let body : List Nat := c.take (c.length - 8)
    let received_tag : List Nat := c.drop (c.length - 8)
    (initialization k npub ⟨0, 0, 0, 0⟩).bind fun s =>
    (process_ad k ad s).bind fun s =>
    (dec_blocks k s (full_blocks body)).bind fun r =>
    (dec_trailing k r.1 (body.drop (4 * (body.length / 4)))).bind fun r2 =>
    (finalize k r2.1).map fun tag =>
      if tag = received_tag then DecryptResult.ok (r.2 ++ r2.2)
      else DecryptResult.authentication_failure

/-- The 32 feedback bits of one step of `state_update`, `t1 ^ (~(t2 & t3)) ^ t4`, from
the three words the step reads. -/
def feedback (b c d : Nat) : Nat :=
  ((b >>> 15) ||| ((c <<< 17) % 2 ^ 32)) ^^^
    not32 (((c >>> 6) ||| ((d <<< 26) % 2 ^ 32)) &&& ((c >>> 21) ||| ((d <<< 11) % 2 ^ 32))) ^^^
    ((c >>> 27) ||| ((d <<< 5) % 2 ^ 32))

/-- Four bytes, least significant first, as one word. -/
def pack (b0 b1 b2 b3 : Nat) : Nat := b0 ||| (b1 <<< 8) ||| (b2 <<< 16) ||| (b3 <<< 24)

/-! ## The steps of `state_update`, one at a time -/

/-- The first step of a pass: word 0 takes the feedback of words 1, 2, 3 and the key
word `k`. -/
def step0 (k : Nat) (s : State) : State :=
  { s with w0 := s.w0 ^^^ (feedback s.w1 s.w2 s.w3 ^^^ k) }

/-- The second step of a pass: word 1 takes the feedback of words 2, 3, 0 and the key
word `k`. -/
def step1 (k : Nat) (s : State) : State :=
  { s with w1 := s.w1 ^^^ (feedback s.w2 s.w3 s.w0 ^^^ k) }

/-- The third step of a pass: word 2 takes the feedback of words 3, 0, 1 and the key
word `k`. -/
def step2 (k : Nat) (s : State) : State :=
  { s with w2 := s.w2 ^^^ (feedback s.w3 s.w0 s.w1 ^^^ k) }

/-- The fourth step of a pass: word 3 takes the feedback of words 0, 1, 2 and the key
word `k`. -/
def step3 (k : Nat) (s : State) : State :=
  { s with w3 := s.w3 ^^^ (feedback s.w0 s.w1 s.w2 ^^^ k) }

/-- Keyed step number `t` of a call of `state_update`, counted from 0: it works on word
`t % 4` and xors in key word `t % 6`. -/
def keyed_step (key : List Nat) (t : Nat) (s : State) : State :=
  if t % 4 = 0 then step0 (load32 key (t % 6)) s
  else if t % 4 = 1 then step1 (load32 key (t % 6)) s
  else if t % 4 = 2 then step2 (load32 key (t % 6)) s
  else step3 (load32 key (t % 6)) s

/-- The steps `n - 1, ..., 1, 0` in this order: what undoes the first `n` keyed steps
of a call. -/
def keyed_steps_back (key : List Nat) : Nat → State → State
  | 0, s => s
  | n + 1, s => keyed_steps_back key n (keyed_step key n s)

/-- The inverse of `state_update` with a step count that is a multiple of 128: the
keyed steps of the call, last one first. -/
def state_update_inverse (state : State) (key : List Nat) (number_of_steps : Nat) : State :=
  keyed_steps_back key (4 * (number_of_steps / 128)) state

/-! ## The bit-serial register -/

/-- The 128-bit register `state[3] || state[2] || state[1] || state[0]`; bit 0 is the
least significant bit of `state[0]`. -/
def register (s : State) : Nat :=
  s.w0 ||| (s.w1 <<< 32) ||| (s.w2 <<< 64) ||| (s.w3 <<< 96)

/-- Bit `i` of the key, the key bytes taken least significant first. -/
def key_bit (key : List Nat) (i : Nat) : Bool := (key.getD (i / 8) 0).testBit (i % 8)

/-- The bit-serial definition that the word steps of `state_update` are compared with.
Round `i` of the bit-serial TinyJAMBU-192 register: the feedback bit is
`s0 ^ s47 ^ ~(s70 & s85) ^ s91 ^ k(i mod 192)`, the register moves down by one position
and the feedback bit enters at position 127. -/
def bit_round (key : List Nat) (i : Nat) (r : Nat) : Nat :=
  (r >>> 1) |||
    ((xor (xor (xor (xor (r.testBit 0) (r.testBit 47)) (!(r.testBit 70 && r.testBit 85)))
      (r.testBit 91)) (key_bit key (i % 192))).toNat <<< 127)

/-- The register after the keyed steps `0, ..., t - 1` of a call, read off the state of
the code: word `t % 4` of the state is the lowest word of the register. -/
def rotated_register (t : Nat) (s : State) : Nat :=
  if t % 4 = 0 then register ⟨s.w0, s.w1, s.w2, s.w3⟩
  else if t % 4 = 1 then register ⟨s.w1, s.w2, s.w3, s.w0⟩
  else if t % 4 = 2 then register ⟨s.w2, s.w3, s.w0, s.w1⟩
  else register ⟨s.w3, s.w0, s.w1, s.w2⟩

/-! ## The two step counts in use -/

theorem state_update_640 (s : State) (key : List Nat) :
    state_update s key 640 = some (perm key 5 s) := rfl

theorem state_update_1152 (s : State) (key : List Nat) :
    state_update s key 1152 = some (perm key 9 s) := rfl

theorem NROUND1_eq : NROUND1 = 640 := rfl

theorem NROUND2_eq : NROUND2 = 1152 := rfl

/-! ## Fuel -/

/-- A pass count that lets the loop of `state_update` end gives the same result as any
larger one. -/
theorem state_update_loop_fuel (key : List Nat) (number_of_steps : Nat) (fuel extra : Nat)
    (i j : Nat) (s r : State)
    (h : state_update_loop key number_of_steps fuel i j s = some r) :
    state_update_loop key number_of_steps (fuel + extra) i j s = some r := by
  induction fuel generalizing i j s with
  | zero => exact absurd h (by rw [state_update_loop]; exact Option.noConfusion)
  | succ fuel ih =>
    rw [Nat.add_right_comm, state_update_loop]
    rw [state_update_loop] at h
    by_cases hi : i < number_of_steps
    · rw [if_pos hi] at h ⊢
      exact ih _ _ _ h
    · rw [if_neg hi] at h ⊢
      exact h

/-! ## Arithmetic of the length expressions -/

theorem and_three (n : Nat) : n &&& 3 = n % 4 :=
  Nat.and_pow_two_sub_one_eq_mod n 2

theorem shiftRight_two (n : Nat) : n >>> 2 = n / 4 := by
  rw [Nat.shiftRight_eq_div_pow]

theorem shiftLeft_two (n : Nat) : n <<< 2 = 4 * n := by
  rw [Nat.shiftLeft_eq]; omega

/-! ## Loops -/

theorem for_loopM_shift {σ : Type} (f g : Nat → σ → Option σ)
    (h : ∀ i s, f (i + 1) s = g i s) (n i : Nat) (s : σ) :
    for_loopM f n (i + 1) s = for_loopM g n i s := by
  induction n generalizing i s with
  | zero => rfl
  | succ n ih =>
    simp only [for_loopM, h]
    cases g i s with
    | none => rfl
    | some t => exact ih (i + 1) t

theorem for_loopM_some {σ : Type} (f : Nat → σ → Option σ) (g : Nat → σ → σ)
    (h : ∀ i s, f i s = some (g i s)) (n i : Nat) (s : σ) :
    for_loopM f n i s = some (for_loop g n i s) := by
  induction n generalizing i s with
  | zero => rfl
  | succ n ih => simp only [for_loopM, for_loop, h, Option.some_bind]; exact ih (i + 1) _

/-! ## Reading words from a buffer -/

theorem getD_drop (p : List Nat) (n j : Nat) : (p.drop n).getD j 0 = p.getD (n + j) 0 := by
  simp only [List.getD_eq_getElem?_getD, List.getElem?_drop]

theorem getD_take (p : List Nat) (n j : Nat) (h : j < n) : (p.take n).getD j 0 = p.getD j 0 := by
  simp only [List.getD_eq_getElem?_getD, List.getElem?_take, h, if_true]

theorem load32_drop (p : List Nat) (i : Nat) : load32 (p.drop 4) i = load32 p (i + 1) := by
  simp only [load32, getD_drop, Nat.mul_add, Nat.mul_one, Nat.add_assoc, Nat.add_comm 4]

theorem load32_take (p : List Nat) : load32 (p.take 4) 0 = load32 p 0 := by
  simp only [load32, Nat.mul_zero, Nat.zero_add]
  rw [getD_take p 4 0 (by omega), getD_take p 4 1 (by omega), getD_take p 4 2 (by omega),
    getD_take p 4 3 (by omega)]

/-! ## `initialization` -/

theorem initialization_body_unfold (key iv : List Nat) (i : Nat) (s : State) :
    initialization_body key iv i s = (state_update (xor_w1 s 0x10) key 640).bind
      fun u => some (xor_w3 u (load32 iv i)) := rfl

theorem initialization_body_eq (key iv : List Nat) (i : Nat) (s : State) :
    initialization_body key iv i s =
      some (xor_w3 (perm key 5 (xor_w1 s 0x10)) (load32 iv i)) := by
  rw [initialization_body_unfold, state_update_640, Option.some_bind]

theorem initialization_unfold (key iv : List Nat) (state : State) :
    initialization key iv state = (state_update ⟨0, 0, 0, 0⟩ key 1152).bind
      (for_loopM (initialization_body key iv) 3 0) := rfl

/-- The state that `initialization` returns, in terms of `perm`. -/
theorem initialization_eq (key iv : List Nat) (state : State) :
    initialization key iv state =
      some (xor_w3 (perm key 5 (xor_w1 (xor_w3 (perm key 5 (xor_w1 (xor_w3 (perm key 5
        (xor_w1 (perm key 9 ⟨0, 0, 0, 0⟩) 0x10)) (load32 iv 0)) 0x10)) (load32 iv 1)) 0x10))
        (load32 iv 2)) := by
  rw [initialization_unfold, state_update_1152]
  simp only [for_loopM, initialization_body_eq, Option.some_bind]

/-- C6: for every key and nonce, and whatever the state buffer holds at entry,
`initialization` returns the same state: the all-zero state passed through
`state_update` with 1152 steps and then, for `i = 0, 1, 2` in order, `0x10` xored into
word 1, `state_update` with 640 steps, the `i`-th little-endian word of the nonce
xored into word 3. -/
theorem initialization_spec (key iv : List Nat) :
    ∃ s0 s1 s2 s3 : State,
      state_update ⟨0, 0, 0, 0⟩ key 1152 = some s0 ∧
      state_update (xor_w1 s0 0x10) key 640 = some s1 ∧
      state_update (xor_w1 (xor_w3 s1 (load32 iv 0)) 0x10) key 640 = some s2 ∧
      state_update (xor_w1 (xor_w3 s2 (load32 iv 1)) 0x10) key 640 = some s3 ∧
      ∀ state : State, initialization key iv state = some (xor_w3 s3 (load32 iv 2)) :=
  ⟨_, _, _, _, state_update_1152 _ _, state_update_640 _ _, state_update_640 _ _,
    state_update_640 _ _, fun state => initialization_eq key iv state⟩

/-! ## `process_ad` -/

theorem process_ad_body_unfold (k ad : List Nat) (i : Nat) (s : State) :
    process_ad_body k ad i s = (state_update (xor_w1 s 0x30) k 640).bind fun u =>
      some (xor_w3 u (load32 ad i)) := rfl

theorem process_ad_body_eq (k ad : List Nat) (i : Nat) (s : State) :
    process_ad_body k ad i s = some (xor_w3 (perm k 5 (xor_w1 s 0x30)) (load32 ad i)) := by
  rw [process_ad_body_unfold, state_update_640, Option.some_bind]

theorem ad_block_eq (k : List Nat) (s : State) (b : List Nat) :
    ad_block k s b = some (xor_w3 (perm k 5 (xor_w1 s 0x30)) (load32 b 0)) := by
  rw [ad_block, state_update_640, Option.map_some']

theorem process_ad_loop_blocks (k : List Nat) (n : Nat) (ad : List Nat) (s : State) :
    for_loopM (process_ad_body k ad) n 0 s = (take_blocks n ad).foldlM (ad_block k) s := by
  induction n generalizing ad s with
  | zero => rfl
  | succ n ih =>
    have hs : ∀ i t, process_ad_body k ad (i + 1) t = process_ad_body k (ad.drop 4) i t := by
      intro i t
      rw [process_ad_body_eq, process_ad_body_eq, load32_drop]
    have h0 : process_ad_body k ad 0 s = ad_block k s (ad.take 4) := by
      rw [process_ad_body_eq, ad_block_eq, load32_take]
    simp only [for_loopM, take_blocks, List.foldlM_cons, h0]
    rw [ad_block_eq]
    simp only [Option.some_bind, Option.bind_eq_bind]
    rw [for_loopM_shift _ _ hs, ih]

theorem process_ad_unfold (k ad : List Nat) (s : State) :
    process_ad k ad s =
      (for_loopM (process_ad_body k ad) (ad.length >>> 2) 0 s).bind fun s1 =>
        if (ad.length &&& 3) > 0 then
          (state_update (xor_w1 s1 0x30) k 640).bind fun u =>
            some (xor_w1 (for_loop (fun j state =>
              xor_state_byte state (12 + j) (ad.getD (((ad.length >>> 2) <<< 2) + j) 0))
              (ad.length &&& 3) 0 u) (ad.length &&& 3))
        else some s1 := rfl

theorem process_ad_loop_some (k ad : List Nat) (n i : Nat) (s : State) :
    for_loopM (process_ad_body k ad) n i s =
      some (for_loop (fun i s => xor_w3 (perm k 5 (xor_w1 s 0x30)) (load32 ad i)) n i s) :=
  for_loopM_some _ _ (fun i s => process_ad_body_eq k ad i s) n i s

theorem process_ad_of_full (k ad : List Nat) (s : State) (h : ad.length % 4 = 0) :
    process_ad k ad s = for_loopM (process_ad_body k ad) (ad.length / 4) 0 s := by
  rw [process_ad_unfold, process_ad_loop_some]
  simp only [and_three, shiftRight_two, h, Nat.lt_irrefl, if_false, gt_iff_lt,
    Option.some_bind]
  rw [process_ad_loop_some]

/-- C7: for associated data whose length is a multiple of 4, `process_ad` is the left
fold over the 4-byte blocks, in order, of: xor `0x30` into word 1, `state_update` with
640 steps, xor the block read as a little-endian word into word 3.  It returns, and
the two xors leave words 0 and 2 as they are. -/
theorem process_ad_full_blocks (k ad : List Nat) (s : State) (h : ad.length % 4 = 0) :
    process_ad k ad s = (full_blocks ad).foldlM (ad_block k) s ∧
      (process_ad k ad s).isSome = true ∧
      ∀ (t : State) (x : Nat), (xor_w1 t x).w0 = t.w0 ∧ (xor_w1 t x).w2 = t.w2 ∧
        (xor_w3 t x).w0 = t.w0 ∧ (xor_w3 t x).w2 = t.w2 := by
  refine ⟨?_, ?_, fun t x => ⟨rfl, rfl, rfl, rfl⟩⟩
  · rw [process_ad_of_full k ad s h, process_ad_loop_blocks, full_blocks]
  · rw [process_ad_of_full k ad s h, process_ad_loop_some]; rfl

theorem process_ad_full_blocks_witness :
    [1, 2, 3, 4, 5, 6, 7, 8].length % 4 = 0 ∧
      process_ad (List.replicate 24 7) [1, 2, 3, 4, 5, 6, 7, 8] ⟨1, 2, 3, 4⟩ =
        (full_blocks [1, 2, 3, 4, 5, 6, 7, 8]).foldlM (ad_block (List.replicate 24 7))
          ⟨1, 2, 3, 4⟩ :=
  ⟨by decide, (process_ad_full_blocks _ _ _ (by decide)).1⟩

theorem crypto_aead_encrypt_unfold (c m ad nsec npub k : List Nat) :
    crypto_aead_encrypt c m ad nsec npub k =
      (initialization k npub ⟨0, 0, 0, 0⟩).bind fun s0 =>
        (process_ad k ad s0).bind fun s1 =>
          (encrypt_message k m (s1, c)).bind (encrypt_finalization k m.length) := rfl

theorem process_ad_nil (k : List Nat) (s : State) : process_ad k [] s = some s := rfl

/-- C9: with no associated data `process_ad` returns the state as it got it, so that
`crypto_aead_encrypt` passes the state of `initialization` straight on to the
processing of the plaintext. -/
theorem process_ad_empty (k : List Nat) (s : State) :
    process_ad k [] s = some s ∧
      ∀ c m nsec npub : List Nat, crypto_aead_encrypt c m [] nsec npub k =
        (initialization k npub ⟨0, 0, 0, 0⟩).bind fun s0 =>
          (encrypt_message k m (s0, c)).bind (encrypt_finalization k m.length) := by
  refine ⟨process_ad_nil k s, fun c m nsec npub => ?_⟩
  rw [crypto_aead_encrypt_unfold]
  simp only [process_ad_nil, Option.some_bind]

/-! ## Bytes and words -/

theorem getD_lt_of_is_bytes {p : List Nat} (h : is_bytes p) (n : Nat) : p.getD n 0 < 256 := by
  rw [List.getD_eq_getElem?_getD]
  cases hn : p[n]? with
  | none => exact Nat.zero_lt_succ _
  | some b => exact h b (List.getElem?_mem hn)

theorem testBit_mod_256 (x i : Nat) :
    (x % 256).testBit i = (decide (i < 8) && x.testBit i) := by
  have h : (256 : Nat) = 2 ^ 8 := by norm_num
  rw [h, Nat.testBit_mod_two_pow]

theorem lt_of_testBit {w n i : Nat} (h : w < 2 ^ n) (ht : w.testBit i = true) : i < n := by
  by_contra hc
  have h2 : w < 2 ^ i := lt_of_lt_of_le h (Nat.pow_le_pow_right (by norm_num) (by omega))
  rw [Nat.testBit_lt_two_pow h2] at ht
  exact Bool.noConfusion ht

theorem testBit_eq_false_of_lt {w n i : Nat} (h : w < 2 ^ n) (hi : n ≤ i) :
    w.testBit i = false := by
  cases ht : w.testBit i
  · rfl
  · have := lt_of_testBit h ht; omega

theorem testBit_pack (b0 b1 b2 b3 i : Nat) (h0 : b0 < 256) (h1 : b1 < 256) (h2 : b2 < 256) :
    (pack b0 b1 b2 b3).testBit i =
      if i < 8 then b0.testBit i else if i < 16 then b1.testBit (i - 8)
      else if i < 24 then b2.testBit (i - 16) else b3.testBit (i - 24) := by
  have e0 : ∀ j, 8 ≤ j → b0.testBit j = false := fun j hj =>
    @testBit_eq_false_of_lt b0 8 j h0 hj
  have e1 : ∀ j, 8 ≤ j → b1.testBit j = false := fun j hj =>
    @testBit_eq_false_of_lt b1 8 j h1 hj
  have e2 : ∀ j, 8 ≤ j → b2.testBit j = false := fun j hj =>
    @testBit_eq_false_of_lt b2 8 j h2 hj
  simp only [pack, Nat.testBit_or, Nat.testBit_shiftLeft]
  by_cases c8 : i < 8
  · simp [c8, show ¬ i ≥ 8 by omega, show ¬ i ≥ 16 by omega, show ¬ i ≥ 24 by omega]
  · by_cases c16 : i < 16
    · simp [c8, c16, e0 i (by omega), show i ≥ 8 by omega, show ¬ i ≥ 16 by omega,
        show ¬ i ≥ 24 by omega]
    · by_cases c24 : i < 24
      · simp [c8, c16, c24, e0 i (by omega), e1 (i - 8) (by omega), show i ≥ 8 by omega,
          show i ≥ 16 by omega, show ¬ i ≥ 24 by omega]
      · simp [c8, c16, c24, e0 i (by omega), e1 (i - 8) (by omega), e2 (i - 16) (by omega),
          show i ≥ 8 by omega, show i ≥ 16 by omega, show i ≥ 24 by omega]

theorem mod_256_lt (x : Nat) : x % 256 < 256 := Nat.mod_lt x (by norm_num)

theorem load32_eq_pack (p : List Nat) (i : Nat) :
    load32 p i = pack (p.getD (4 * i) 0) (p.getD (4 * i + 1) 0) (p.getD (4 * i + 2) 0)
      (p.getD (4 * i + 3) 0) := rfl

theorem pack_lt (b0 b1 b2 b3 : Nat) (h0 : b0 < 256) (h1 : b1 < 256) (h2 : b2 < 256)
    (h3 : b3 < 256) : pack b0 b1 b2 b3 < 2 ^ 32 := by
  apply Nat.lt_pow_two_of_testBit
  intro i hi
  rw [testBit_pack b0 b1 b2 b3 i h0 h1 h2]
  rw [if_neg (by omega), if_neg (by omega), if_neg (by omega)]
  exact @testBit_eq_false_of_lt b3 8 (i - 24) h3 (by omega)

theorem load32_lt {p : List Nat} (h : is_bytes p) (i : Nat) : load32 p i < 2 ^ 32 :=
  pack_lt _ _ _ _ (getD_lt_of_is_bytes h _) (getD_lt_of_is_bytes h _)
    (getD_lt_of_is_bytes h _) (getD_lt_of_is_bytes h _)

/-- The bytes of a word, put together again, are the word. -/
theorem pack_bytes (w : Nat) (h : w < 2 ^ 32) :
    pack (w % 256) ((w >>> 8) % 256) ((w >>> 16) % 256) ((w >>> 24) % 256) = w := by
  apply Nat.eq_of_testBit_eq
  intro i
  rw [testBit_pack _ _ _ _ i (mod_256_lt _) (mod_256_lt _) (mod_256_lt _)]
  simp only [testBit_mod_256, Nat.testBit_shiftRight]
  by_cases c8 : i < 8
  · simp [c8]
  · by_cases c16 : i < 16
    · simp [c8, c16, show i - 8 < 8 by omega, show 8 + (i - 8) = i by omega]
    · by_cases c24 : i < 24
      · simp [c8, c16, c24, show i - 16 < 8 by omega, show 16 + (i - 16) = i by omega]
      · by_cases c32 : i < 32
        · simp [c8, c16, c24, show i - 24 < 8 by omega, show 24 + (i - 24) = i by omega]
        · simp [c8, c16, c24, show ¬ i - 24 < 8 by omega,
            testBit_eq_false_of_lt h (show 32 ≤ i by omega)]

/-- The bytes of a word put together from four bytes are those bytes. -/
theorem bytes_pack (b0 b1 b2 b3 : Nat) (h0 : b0 < 256) (h1 : b1 < 256) (h2 : b2 < 256)
    (h3 : b3 < 256) :
    pack b0 b1 b2 b3 % 256 = b0 ∧ (pack b0 b1 b2 b3 >>> 8) % 256 = b1 ∧
      (pack b0 b1 b2 b3 >>> 16) % 256 = b2 ∧ (pack b0 b1 b2 b3 >>> 24) % 256 = b3 := by
  have e0 : ∀ j, 8 ≤ j → b0.testBit j = false := fun j hj =>
    @testBit_eq_false_of_lt b0 8 j h0 hj
  have e1 : ∀ j, 8 ≤ j → b1.testBit j = false := fun j hj =>
    @testBit_eq_false_of_lt b1 8 j h1 hj
  have e2 : ∀ j, 8 ≤ j → b2.testBit j = false := fun j hj =>
    @testBit_eq_false_of_lt b2 8 j h2 hj
  have e3 : ∀ j, 8 ≤ j → b3.testBit j = false := fun j hj =>
    @testBit_eq_false_of_lt b3 8 j h3 hj
  refine ⟨?_, ?_, ?_, ?_⟩ <;> apply Nat.eq_of_testBit_eq <;> intro i <;>
    simp only [testBit_mod_256, Nat.testBit_shiftRight] <;>
    by_cases c8 : i < 8
  · rw [testBit_pack b0 b1 b2 b3 i h0 h1 h2]; simp [c8]
  · simp [c8, e0 i (by omega)]
  · rw [testBit_pack b0 b1 b2 b3 (8 + i) h0 h1 h2]
    simp [c8, show ¬ 8 + i < 8 by omega, show 8 + i < 16 by omega]
  · simp [c8, e1 i (by omega)]
  · rw [testBit_pack b0 b1 b2 b3 (16 + i) h0 h1 h2]
    simp [c8, show ¬ 16 + i < 8 by omega, show ¬ 16 + i < 16 by omega,
      show 16 + i < 24 by omega]
  · simp [c8, e2 i (by omega)]
  · rw [testBit_pack b0 b1 b2 b3 (24 + i) h0 h1 h2]
    simp [c8, show ¬ 24 + i < 8 by omega, show ¬ 24 + i < 16 by omega,
      show ¬ 24 + i < 24 by omega]
  · simp [c8, e3 i (by omega)]

/-- Xor of two packed words, byte by byte. -/
theorem pack_xor (a0 a1 a2 a3 b0 b1 b2 b3 : Nat) (ha0 : a0 < 256) (ha1 : a1 < 256)
    (ha2 : a2 < 256) (hb0 : b0 < 256) (hb1 : b1 < 256) (hb2 : b2 < 256) :
    pack (a0 ^^^ b0) (a1 ^^^ b1) (a2 ^^^ b2) (a3 ^^^ b3) =
      pack a0 a1 a2 a3 ^^^ pack b0 b1 b2 b3 := by
  have h8 : (256 : Nat) = 2 ^ 8 := by norm_num
  apply Nat.eq_of_testBit_eq
  intro i
  rw [Nat.testBit_xor, testBit_pack a0 a1 a2 a3 i ha0 ha1 ha2,
    testBit_pack b0 b1 b2 b3 i hb0 hb1 hb2,
    testBit_pack _ _ _ _ i (h8 ▸ Nat.xor_lt_two_pow (h8 ▸ ha0) (h8 ▸ hb0))
      (h8 ▸ Nat.xor_lt_two_pow (h8 ▸ ha1) (h8 ▸ hb1))
      (h8 ▸ Nat.xor_lt_two_pow (h8 ▸ ha2) (h8 ▸ hb2))]
  split_ifs <;> simp only [Nat.testBit_xor]


theorem pack_byte0 (b : Nat) : pack b 0 0 0 = b := by
  simp only [pack, Nat.zero_shiftLeft, Nat.or_zero]

theorem xor_w3_xor_w3 (s : State) (x y : Nat) : xor_w3 (xor_w3 s x) y = xor_w3 s (x ^^^ y) := by
  simp only [xor_w3, Nat.xor_assoc]

theorem xor_state_byte_unfold12 (s : State) (b : Nat) :
    xor_state_byte s 12 b =
      ⟨pack (s.w0 % 256) ((s.w0 >>> 8) % 256) ((s.w0 >>> 16) % 256) ((s.w0 >>> 24) % 256),
       pack (s.w1 % 256) ((s.w1 >>> 8) % 256) ((s.w1 >>> 16) % 256) ((s.w1 >>> 24) % 256),
       pack (s.w2 % 256) ((s.w2 >>> 8) % 256) ((s.w2 >>> 16) % 256) ((s.w2 >>> 24) % 256),
       pack (s.w3 % 256 ^^^ b) ((s.w3 >>> 8) % 256) ((s.w3 >>> 16) % 256)
         ((s.w3 >>> 24) % 256)⟩ := rfl

theorem xor_state_byte_unfold13 (s : State) (b : Nat) :
    xor_state_byte s 13 b =
      ⟨pack (s.w0 % 256) ((s.w0 >>> 8) % 256) ((s.w0 >>> 16) % 256) ((s.w0 >>> 24) % 256),
       pack (s.w1 % 256) ((s.w1 >>> 8) % 256) ((s.w1 >>> 16) % 256) ((s.w1 >>> 24) % 256),
       pack (s.w2 % 256) ((s.w2 >>> 8) % 256) ((s.w2 >>> 16) % 256) ((s.w2 >>> 24) % 256),
       pack (s.w3 % 256) ((s.w3 >>> 8) % 256 ^^^ b) ((s.w3 >>> 16) % 256)
         ((s.w3 >>> 24) % 256)⟩ := rfl

theorem xor_state_byte_unfold14 (s : State) (b : Nat) :
    xor_state_byte s 14 b =
      ⟨pack (s.w0 % 256) ((s.w0 >>> 8) % 256) ((s.w0 >>> 16) % 256) ((s.w0 >>> 24) % 256),
       pack (s.w1 % 256) ((s.w1 >>> 8) % 256) ((s.w1 >>> 16) % 256) ((s.w1 >>> 24) % 256),
       pack (s.w2 % 256) ((s.w2 >>> 8) % 256) ((s.w2 >>> 16) % 256) ((s.w2 >>> 24) % 256),
       pack (s.w3 % 256) ((s.w3 >>> 8) % 256) ((s.w3 >>> 16) % 256 ^^^ b)
         ((s.w3 >>> 24) % 256)⟩ := rfl

/-- Xoring a byte into byte 12 of the state buffer xors it into the lowest byte of
word 3. -/
theorem xor_state_byte_12 (s : State) (b : Nat) (hs : s.wf) (hb : b < 256) :
    xor_state_byte s 12 b = xor_w3 s (pack b 0 0 0) := by
  obtain ⟨h0, h1, h2, h3⟩ := hs
  have e := pack_xor (s.w3 % 256) ((s.w3 >>> 8) % 256) ((s.w3 >>> 16) % 256)
    ((s.w3 >>> 24) % 256) b 0 0 0 (mod_256_lt _) (mod_256_lt _) (mod_256_lt _) hb
    (by norm_num) (by norm_num)
  simp only [Nat.xor_zero] at e
  rw [xor_state_byte_unfold12, e, pack_bytes _ h0, pack_bytes _ h1, pack_bytes _ h2,
    pack_bytes _ h3]
  rfl

/-- Xoring a byte into byte 13 of the state buffer xors it into the second byte of
word 3. -/
theorem xor_state_byte_13 (s : State) (b : Nat) (hs : s.wf) (hb : b < 256) :
    xor_state_byte s 13 b = xor_w3 s (pack 0 b 0 0) := by
  obtain ⟨h0, h1, h2, h3⟩ := hs
  have e := pack_xor (s.w3 % 256) ((s.w3 >>> 8) % 256) ((s.w3 >>> 16) % 256)
    ((s.w3 >>> 24) % 256) 0 b 0 0 (mod_256_lt _) (mod_256_lt _) (mod_256_lt _) (by norm_num)
    hb (by norm_num)
  simp only [Nat.xor_zero] at e
  rw [xor_state_byte_unfold13, e, pack_bytes _ h0, pack_bytes _ h1, pack_bytes _ h2,
    pack_bytes _ h3]
  rfl

/-- Xoring a byte into byte 14 of the state buffer xors it into the third byte of
word 3. -/
theorem xor_state_byte_14 (s : State) (b : Nat) (hs : s.wf) (hb : b < 256) :
    xor_state_byte s 14 b = xor_w3 s (pack 0 0 b 0) := by
  obtain ⟨h0, h1, h2, h3⟩ := hs
  have e := pack_xor (s.w3 % 256) ((s.w3 >>> 8) % 256) ((s.w3 >>> 16) % 256)
    ((s.w3 >>> 24) % 256) 0 0 b 0 (mod_256_lt _) (mod_256_lt _) (mod_256_lt _) (by norm_num)
    (by norm_num) hb
  simp only [Nat.xor_zero] at e
  rw [xor_state_byte_unfold14, e, pack_bytes _ h0, pack_bytes _ h1, pack_bytes _ h2,
    pack_bytes _ h3]
  rfl

theorem xor_w3_wf (s : State) (x : Nat) (hs : s.wf) (hx : x < 2 ^ 32) : (xor_w3 s x).wf :=
  ⟨hs.1, hs.2.1, hs.2.2.1, Nat.xor_lt_two_pow hs.2.2.2 hx⟩

theorem xor_w1_wf (s : State) (x : Nat) (hs : s.wf) (hx : x < 2 ^ 32) : (xor_w1 s x).wf :=
  ⟨hs.1, Nat.xor_lt_two_pow hs.2.1 hx, hs.2.2.1, hs.2.2.2⟩

/-! ## `state_update` keeps the registers within 32 bits -/

theorem not32_lt (x : Nat) (hx : x < 2 ^ 32) : not32 x < 2 ^ 32 :=
  Nat.xor_lt_two_pow hx (by norm_num)

theorem shift_or_lt (x y n m : Nat) (hx : x < 2 ^ 32) :
    (x >>> n) ||| ((y <<< m) % 2 ^ 32) < 2 ^ 32 :=
  Nat.or_lt_two_pow
    (lt_of_le_of_lt (by rw [Nat.shiftRight_eq_div_pow]; exact Nat.div_le_self _ _) hx)
    (Nat.mod_lt _ (by norm_num))

theorem feedback_lt (b c d : Nat) (hb : b < 2 ^ 32) (hc : c < 2 ^ 32) :
    feedback b c d < 2 ^ 32 :=
  Nat.xor_lt_two_pow (Nat.xor_lt_two_pow (shift_or_lt b c 15 17 hb)
    (not32_lt _ (Nat.and_lt_two_pow _ (shift_or_lt c d 21 11 hc)))) (shift_or_lt c d 27 5 hc)

theorem state_update_body_eq (key : List Nat) (s : State) (j : Nat) :
    state_update_body key s j =
      (let a0 := s.w0 ^^^ (feedback s.w1 s.w2 s.w3 ^^^ load32 key j)
       let a1 := s.w1 ^^^ (feedback s.w2 s.w3 a0 ^^^ load32 key (j + 1))
       let j2 := if j + 1 + 1 = 6 then 0 else j + 1 + 1
       let a2 := s.w2 ^^^ (feedback s.w3 a0 a1 ^^^ load32 key j2)
       let a3 := s.w3 ^^^ (feedback a0 a1 a2 ^^^ load32 key (j2 + 1))
       (⟨a0, a1, a2, a3⟩, if j2 + 1 + 1 = 6 then 0 else j2 + 1 + 1)) := rfl

theorem step_lt (a b c d k : Nat) (ha : a < 2 ^ 32) (hb : b < 2 ^ 32) (hc : c < 2 ^ 32)
    (hk : k < 2 ^ 32) : a ^^^ (feedback b c d ^^^ k) < 2 ^ 32 :=
  Nat.xor_lt_two_pow ha (Nat.xor_lt_two_pow (feedback_lt b c d hb hc) hk)

theorem state_update_body_wf (key : List Nat) (s : State) (j : Nat) (hk : is_bytes key)
    (hs : s.wf) : (state_update_body key s j).1.wf := by
  obtain ⟨h0, h1, h2, h3⟩ := hs
  rw [state_update_body_eq]
  lift_lets
  intro a0 a1 j2 a2 a3
  have g0 : a0 < 2 ^ 32 := step_lt s.w0 s.w1 s.w2 s.w3 _ h0 h1 h2 (load32_lt hk j)
  have g1 : a1 < 2 ^ 32 := step_lt s.w1 s.w2 s.w3 a0 _ h1 h2 h3 (load32_lt hk (j + 1))
  have g2 : a2 < 2 ^ 32 := step_lt s.w2 s.w3 a0 a1 _ h2 h3 g0 (load32_lt hk j2)
  have g3 : a3 < 2 ^ 32 := step_lt s.w3 a0 a1 a2 _ h3 g0 g1 (load32_lt hk (j2 + 1))
  exact ⟨g0, g1, g2, g3⟩

theorem state_update_passes_wf (key : List Nat) (n j : Nat) (s : State) (hk : is_bytes key)
    (hs : s.wf) : (state_update_passes key n j s).wf := by
  induction n generalizing j s with
  | zero => exact hs
  | succ n ih => exact ih _ _ (state_update_body_wf key s j hk hs)

theorem perm_wf (key : List Nat) (n : Nat) (s : State) (hk : is_bytes key) (hs : s.wf) :
    (perm key n s).wf :=
  state_update_passes_wf key n 0 s hk hs


/-! ## More on loops -/

theorem for_loop_succ_last {σ : Type} (f : Nat → σ → σ) (n i : Nat) (s : σ) :
    for_loop f (n + 1) i s = f (i + n) (for_loop f n i s) := by
  induction n generalizing i s with
  | zero => rfl
  | succ n ih =>
    rw [for_loop, ih (i + 1) (f i s), for_loop, Nat.add_right_comm, Nat.add_assoc]

theorem for_loop_inv {σ : Type} (P : σ → Prop) (f : Nat → σ → σ)
    (h : ∀ i s, P s → P (f i s)) (n i : Nat) (s : σ) (hs : P s) : P (for_loop f n i s) := by
  induction n generalizing i s with
  | zero => exact hs
  | succ n ih => exact ih (i + 1) _ (h i s hs)

/-! ## The remaining bytes of the associated data -/

theorem getD_append_zeros (p : List Nat) (n j : Nat) :
    (p ++ List.replicate n 0).getD j 0 = p.getD j 0 := by
  simp only [List.getD_eq_getElem?_getD]
  by_cases h : j < p.length
  · rw [List.getElem?_append_left h]
  · rw [List.getElem?_append_right (by omega), List.getElem?_eq_none (by omega : p.length ≤ j)]
    cases hx : (List.replicate n 0)[j - p.length]? with
    | none => rfl
    | some b =>
      have := List.getElem?_mem hx
      simp only [List.mem_replicate] at this
      simp only [Option.getD_some, Option.getD_none, this.2]

theorem load32_append_zeros (p : List Nat) (n i : Nat) :
    load32 (p ++ List.replicate n 0) i = load32 p i := by
  simp only [load32, getD_append_zeros]

theorem pack_xor_3 (b0 b1 b2 : Nat) (h0 : b0 < 256) (h1 : b1 < 256) (h2 : b2 < 256) :
    pack b0 0 0 0 ^^^ pack 0 b1 0 0 = pack b0 b1 0 0 ∧
      pack b0 b1 0 0 ^^^ pack 0 0 b2 0 = pack b0 b1 b2 0 := by
  have z : (0 : Nat) < 256 := by norm_num
  have e1 := pack_xor b0 0 0 0 0 b1 0 0 h0 z z z h1 z
  have e2 := pack_xor b0 b1 0 0 0 0 b2 0 h0 h1 z z z h2
  simp only [Nat.xor_zero, Nat.zero_xor] at e1 e2
  exact ⟨e1.symm, e2.symm⟩

/-- The byte loop of `process_ad` xors the remaining bytes, read as one zero-padded
little-endian word, into word 3. -/
theorem ad_tail_loop (p : List Nat) (u : State) (hp : is_bytes p) (hu : u.wf)
    (hr : p.length % 4 ≠ 0) :
    for_loop (fun j state =>
        xor_state_byte state (12 + j) (p.getD (((p.length >>> 2) <<< 2) + j) 0))
      (p.length &&& 3) 0 u = xor_w3 u (load32 p (p.length / 4)) := by
  have b0 := getD_lt_of_is_bytes hp (4 * (p.length / 4))
  have b1 := getD_lt_of_is_bytes hp (4 * (p.length / 4) + 1)
  have b2 := getD_lt_of_is_bytes hp (4 * (p.length / 4) + 2)
  have hx := pack_xor_3 _ _ _ b0 b1 b2
  have w1 := xor_w3_wf u _ hu (pack_lt _ 0 0 0 b0 (by norm_num) (by norm_num) (by norm_num))
  rw [and_three, shiftRight_two, shiftLeft_two, load32_eq_pack]
  rcases (by omega : p.length % 4 = 1 ∨ p.length % 4 = 2 ∨ p.length % 4 = 3) with h | h | h
  · rw [h, List.getD_eq_default p 0 (by omega : p.length ≤ 4 * (p.length / 4) + 1),
      List.getD_eq_default p 0 (by omega : p.length ≤ 4 * (p.length / 4) + 2),
      List.getD_eq_default p 0 (by omega : p.length ≤ 4 * (p.length / 4) + 3)]
    simp only [for_loop, Nat.add_zero]
    rw [xor_state_byte_12 u _ hu b0]
  · rw [h, List.getD_eq_default p 0 (by omega : p.length ≤ 4 * (p.length / 4) + 2),
      List.getD_eq_default p 0 (by omega : p.length ≤ 4 * (p.length / 4) + 3)]
    simp only [for_loop, Nat.add_zero, Nat.zero_add, Nat.reduceAdd]
    rw [xor_state_byte_12 u _ hu b0, xor_state_byte_13 _ _ w1 b1, xor_w3_xor_w3, hx.1]
  · rw [h, List.getD_eq_default p 0 (by omega : p.length ≤ 4 * (p.length / 4) + 3)]
    simp only [for_loop, Nat.add_zero, Nat.zero_add, Nat.reduceAdd]
    have w2 := xor_w3_wf _ _ w1 (pack_lt 0 _ 0 0 (by norm_num) b1 (by norm_num) (by norm_num))
    rw [xor_state_byte_12 u _ hu b0, xor_state_byte_13 _ _ w1 b1,
      xor_state_byte_14 _ _ w2 b2, xor_w3_xor_w3, xor_w3_xor_w3, ← Nat.xor_assoc, hx.1,
      hx.2]

theorem process_ad_loop_wf (k ad : List Nat) (n i : Nat) (s : State) (hk : is_bytes k)
    (had : is_bytes ad) (hs : s.wf) :
    (for_loop (fun i s => xor_w3 (perm k 5 (xor_w1 s 0x30)) (load32 ad i)) n i s).wf :=
  for_loop_inv State.wf _
    (fun i t ht => xor_w3_wf _ _ (perm_wf k 5 _ hk (xor_w1_wf t _ ht (by norm_num)))
      (load32_lt had i)) n i s hs

/-- What `process_ad` returns when bytes remain after the full blocks, in terms of
`perm`. -/
theorem process_ad_of_remainder (k ad : List Nat) (s : State) (hk : is_bytes k)
    (had : is_bytes ad) (hs : s.wf) (hr : ad.length % 4 ≠ 0) :
    process_ad k ad s =
      some (xor_w1 (for_loop (fun i s => xor_w3 (perm k 5 (xor_w1 s 0x30)) (load32 ad i))
        (ad.length / 4 + 1) 0 s) (ad.length % 4)) := by
  rw [process_ad_unfold, process_ad_loop_some, Option.some_bind,
    if_pos (by rw [and_three]; omega), state_update_640, Option.some_bind,
    ad_tail_loop ad _ had (perm_wf k 5 _ hk (xor_w1_wf _ _
      (process_ad_loop_wf k ad _ 0 s hk had hs) (by norm_num))) hr,
    for_loop_succ_last, and_three, shiftRight_two, Nat.zero_add]

/-- C8: when the length of the associated data is `4 * q + r` with `r` one of 1, 2, 3,
`process_ad` returns what it returns on the data padded with zeros to `4 * q + 4`
bytes, with `r` xored into word 1. -/
theorem process_ad_remainder (k ad : List Nat) (s : State) (hk : is_bytes k)
    (had : is_bytes ad) (hs : s.wf) (hr : ad.length % 4 ≠ 0) :
    process_ad k ad s =
        (process_ad k (ad ++ List.replicate (4 - ad.length % 4) 0) s).map
          (fun t => xor_w1 t (ad.length % 4)) ∧
      (process_ad k ad s).isSome = true := by
  have hl : (ad ++ List.replicate (4 - ad.length % 4) 0).length = 4 * (ad.length / 4 + 1) := by
    rw [List.length_append, List.length_replicate]; omega
  have hf : (fun i s => xor_w3 (perm k 5 (xor_w1 s 0x30))
      (load32 (ad ++ List.replicate (4 - ad.length % 4) 0) i)) =
      fun i s => xor_w3 (perm k 5 (xor_w1 s 0x30)) (load32 ad i) := by
    funext i s; rw [load32_append_zeros]
  rw [process_ad_of_remainder k ad s hk had hs hr,
    process_ad_of_full k _ s (by rw [hl]; omega), process_ad_loop_some, hl, hf,
    Nat.mul_div_cancel_left _ (by norm_num : 0 < 4)]
  exact ⟨rfl, rfl⟩

theorem process_ad_remainder_witness :
    is_bytes (List.replicate 24 7) ∧ is_bytes [1, 2, 3, 4, 5, 6] ∧
      State.wf ⟨1, 2, 3, 4⟩ ∧ [1, 2, 3, 4, 5, 6].length % 4 ≠ 0 ∧
      process_ad (List.replicate 24 7) [1, 2, 3, 4, 5, 6] ⟨1, 2, 3, 4⟩ =
        (process_ad (List.replicate 24 7)
          ([1, 2, 3, 4, 5, 6] ++ List.replicate (4 - [1, 2, 3, 4, 5, 6].length % 4) 0)
          ⟨1, 2, 3, 4⟩).map (fun t => xor_w1 t ([1, 2, 3, 4, 5, 6].length % 4)) :=
  ⟨by decide, by decide, by decide, by decide,
    (process_ad_remainder _ _ _ (by decide) (by decide) (by decide) (by decide)).1⟩


/-! ## Writing words to a buffer -/

theorem for_loopM_sim {σ τ : Type} (f : Nat → σ → Option σ) (g : Nat → τ → Option τ)
    (φ : τ → σ) (h : ∀ i t, f (i + 1) (φ t) = (g i t).map φ) (n i : Nat) (t : τ) :
    for_loopM f n (i + 1) (φ t) = (for_loopM g n i t).map φ := by
  induction n generalizing i t with
  | zero => rfl
  | succ n ih =>
    simp only [for_loopM, h]
    cases g i t with
    | none => rfl
    | some t' => exact ih (i + 1) t'

theorem set_shift4 (pre l : List Nat) (n v : Nat) (hp : pre.length = 4) :
    (pre ++ l).set (n + 4) v = pre ++ l.set n v := by
  rw [List.set_append_right _ _ (by omega), hp, Nat.add_sub_cancel]

theorem store32_shift (pre c : List Nat) (i w : Nat) (hp : pre.length = 4) :
    store32 (pre ++ c) (i + 1) w = pre ++ store32 c i w := by
  simp only [store32]
  rw [show 4 * (i + 1) = 4 * i + 4 by omega, show 4 * i + 4 + 1 = 4 * i + 1 + 4 by omega,
    show 4 * i + 4 + 2 = 4 * i + 2 + 4 by omega, show 4 * i + 4 + 3 = 4 * i + 3 + 4 by omega,
    set_shift4 _ _ _ _ hp, set_shift4 _ _ _ _ hp, set_shift4 _ _ _ _ hp, set_shift4 _ _ _ _ hp]

theorem store32_zero (c : List Nat) (w : Nat) (h : 4 ≤ c.length) :
    store32 c 0 w = word_bytes w ++ c.drop 4 := by
  match c, h with
  | _ :: _ :: _ :: _ :: _, _ => rfl

theorem word_bytes_length (w : Nat) : (word_bytes w).length = 4 := rfl

/-! ## The full blocks of the plaintext -/

theorem encrypt_body_unfold (k m : List Nat) (i : Nat) (sc : State × List Nat) :
    encrypt_body k m i sc = (state_update (xor_w1 sc.1 0x50) k 1152).bind fun u =>
      some (xor_w3 u (load32 m i), store32 sc.2 i (u.w2 ^^^ load32 m i)) := rfl

theorem encrypt_body_eq (k m : List Nat) (i : Nat) (sc : State × List Nat) :
    encrypt_body k m i sc =
      some (xor_w3 (perm k 9 (xor_w1 sc.1 0x50)) (load32 m i),
        store32 sc.2 i ((perm k 9 (xor_w1 sc.1 0x50)).w2 ^^^ load32 m i)) := by
  rw [encrypt_body_unfold, state_update_1152, Option.some_bind]

/-- The total counterpart of `enc_blocks`, in terms of `perm`. -/
theorem enc_blocks_some (k : List Nat) (s : State) (bs : List (List Nat)) :
    ∃ r, enc_blocks k s bs = some r := by
  induction bs generalizing s with
  | nil => exact ⟨_, rfl⟩
  | cons b bs ih =>
    obtain ⟨r, hr⟩ := ih (xor_w3 (perm k 9 (xor_w1 s 0x50)) (load32 b 0))
    refine ⟨(r.1, word_bytes ((perm k 9 (xor_w1 s 0x50)).w2 ^^^ load32 b 0) ++ r.2), ?_⟩
    rw [enc_blocks, state_update_1152, Option.some_bind, hr, Option.map_some']

theorem enc_blocks_cons (k : List Nat) (s : State) (b : List Nat) (bs : List (List Nat)) :
    enc_blocks k s (b :: bs) =
      (enc_blocks k (xor_w3 (perm k 9 (xor_w1 s 0x50)) (load32 b 0)) bs).map fun r =>
        (r.1, word_bytes ((perm k 9 (xor_w1 s 0x50)).w2 ^^^ load32 b 0) ++ r.2) := by
  rw [enc_blocks, state_update_1152, Option.some_bind]

theorem encrypt_loop_shift (k m pre : List Nat) (n i : Nat) (t : State × List Nat)
    (hp : pre.length = 4) :
    for_loopM (encrypt_body k m) n (i + 1) (t.1, pre ++ t.2) =
      (for_loopM (encrypt_body k (m.drop 4)) n i t).map fun r => (r.1, pre ++ r.2) := by
  refine for_loopM_sim (encrypt_body k m) (encrypt_body k (m.drop 4))
    (fun r : State × List Nat => (r.1, pre ++ r.2)) ?_ n i t
  intro i t
  rw [encrypt_body_eq, encrypt_body_eq, Option.map_some', load32_drop]
  dsimp only
  rw [store32_shift _ _ _ _ hp]

/-- The loop over the full blocks of the plaintext, as `enc_blocks`: the bytes it emits
replace the first `4 * n` bytes of the buffer. -/
theorem encrypt_loop_blocks (k : List Nat) (n : Nat) (m c : List Nat) (s : State)
    (hc : 4 * n ≤ c.length) :
    for_loopM (encrypt_body k m) n 0 (s, c) =
      (enc_blocks k s (take_blocks n m)).map fun r => (r.1, r.2 ++ c.drop (4 * n)) := by
  induction n generalizing m c s with
  | zero =>
    simp only [for_loopM, take_blocks, enc_blocks, Option.map_some', List.nil_append,
      Nat.mul_zero, List.drop_zero]
  | succ n ih =>
    obtain ⟨r, hr⟩ := enc_blocks_some k
      (xor_w3 (perm k 9 (xor_w1 s 0x50)) (load32 (m.take 4) 0)) (take_blocks n (m.drop 4))
    rw [for_loopM, encrypt_body_eq, Option.some_bind, take_blocks, enc_blocks_cons, hr,
      Option.map_some', Option.map_some']
    dsimp only
    rw [load32_take] at hr
    rw [store32_zero _ _ (by omega), load32_take,
      encrypt_loop_shift k m _ n 0 (_, c.drop 4) (word_bytes_length _),
      ih (m.drop 4) (c.drop 4) _ (by rw [List.length_drop]; omega), hr, Option.map_some',
      Option.map_some']
    dsimp only
    rw [List.drop_drop, List.append_assoc, show 4 + 4 * n = 4 * (n + 1) by omega]


/-! ## The remaining bytes of the plaintext -/

theorem set_after (body rest : List Nat) (n j v : Nat) (hb : body.length = n) :
    (body ++ rest).set (n + j) v = body ++ rest.set j v := by
  rw [List.set_append_right _ _ (by omega), hb, Nat.add_sub_cancel_left]

theorem list_of_length_1 (t : List Nat) (h : t.length = 1) : t = [t.getD 0 0] := by
  match t, h with
  | [_], _ => rfl

theorem list_of_length_2 (t : List Nat) (h : t.length = 2) : t = [t.getD 0 0, t.getD 1 0] := by
  match t, h with
  | [_, _], _ => rfl

theorem list_of_length_3 (t : List Nat) (h : t.length = 3) :
    t = [t.getD 0 0, t.getD 1 0, t.getD 2 0] := by
  match t, h with
  | [_, _, _], _ => rfl

theorem encrypt_tail_body_0 (m : List Nat) (i : Nat) (s : State) (c : List Nat) (hs : s.wf)
    (hm : is_bytes m) :
    encrypt_tail_body m i 0 (s, c) =
      (xor_w3 s (pack (m.getD (4 * i) 0) 0 0 0), c.set (4 * i) (s.w2 % 256 ^^^ m.getD (4 * i) 0)) := by
  have e : encrypt_tail_body m i 0 (s, c) =
      (xor_state_byte s 12 (m.getD ((i <<< 2) + 0) 0),
        c.set ((i <<< 2) + 0) ((state_bytes (xor_state_byte s 12 (m.getD ((i <<< 2) + 0) 0))).getD 8 0
          ^^^ m.getD ((i <<< 2) + 0) 0)) := rfl
  rw [e, shiftLeft_two, Nat.add_zero, xor_state_byte_12 s _ hs (getD_lt_of_is_bytes hm _)]
  rfl

theorem encrypt_tail_body_1 (m : List Nat) (i : Nat) (s : State) (c : List Nat) (hs : s.wf)
    (hm : is_bytes m) :
    encrypt_tail_body m i 1 (s, c) =
      (xor_w3 s (pack 0 (m.getD (4 * i + 1) 0) 0 0),
        c.set (4 * i + 1) ((s.w2 >>> 8) % 256 ^^^ m.getD (4 * i + 1) 0)) := by
  have e : encrypt_tail_body m i 1 (s, c) =
      (xor_state_byte s 13 (m.getD ((i <<< 2) + 1) 0),
        c.set ((i <<< 2) + 1) ((state_bytes (xor_state_byte s 13 (m.getD ((i <<< 2) + 1) 0))).getD 9 0
          ^^^ m.getD ((i <<< 2) + 1) 0)) := rfl
  rw [e, shiftLeft_two, xor_state_byte_13 s _ hs (getD_lt_of_is_bytes hm _)]
  rfl

theorem encrypt_tail_body_2 (m : List Nat) (i : Nat) (s : State) (c : List Nat) (hs : s.wf)
    (hm : is_bytes m) :
    encrypt_tail_body m i 2 (s, c) =
      (xor_w3 s (pack 0 0 (m.getD (4 * i + 2) 0) 0),
        c.set (4 * i + 2) ((s.w2 >>> 16) % 256 ^^^ m.getD (4 * i + 2) 0)) := by
  have e : encrypt_tail_body m i 2 (s, c) =
      (xor_state_byte s 14 (m.getD ((i <<< 2) + 2) 0),
        c.set ((i <<< 2) + 2) ((state_bytes (xor_state_byte s 14 (m.getD ((i <<< 2) + 2) 0))).getD 10 0
          ^^^ m.getD ((i <<< 2) + 2) 0)) := rfl
  rw [e, shiftLeft_two, xor_state_byte_14 s _ hs (getD_lt_of_is_bytes hm _)]
  rfl

/-- The byte loop of `crypto_aead_encrypt`: the remaining bytes, read as one zero-padded
little-endian word, go into word 3, and byte `j` of the output is byte `j` of word 2
xor remaining byte `j`. -/
theorem encrypt_tail_loop (m : List Nat) (u : State) (body rest : List Nat) (hm : is_bytes m)
    (hu : u.wf) (hr : m.length % 4 ≠ 0) (hb : body.length = 4 * (m.length / 4))
    (hrest : m.length % 4 ≤ rest.length) :
    for_loop (encrypt_tail_body m (m.length >>> 2)) (m.length &&& 3) 0 (u, body ++ rest) =
      (xor_w3 u (load32 m (m.length / 4)),
        body ++ List.zipWith (fun a b => a ^^^ b) (word_bytes u.w2)
          (m.drop (4 * (m.length / 4))) ++ rest.drop (m.length % 4)) := by
  have b0 := getD_lt_of_is_bytes hm (4 * (m.length / 4))
  have b1 := getD_lt_of_is_bytes hm (4 * (m.length / 4) + 1)
  have b2 := getD_lt_of_is_bytes hm (4 * (m.length / 4) + 2)
  have hx := pack_xor_3 _ _ _ b0 b1 b2
  have w1 := xor_w3_wf u _ hu (pack_lt _ 0 0 0 b0 (by norm_num) (by norm_num) (by norm_num))
  have w2 := xor_w3_wf _ _ w1 (pack_lt 0 _ 0 0 (by norm_num) b1 (by norm_num) (by norm_num))
  have hl : (m.drop (4 * (m.length / 4))).length = m.length % 4 := by
    rw [List.length_drop]; omega
  have g0 : (m.drop (4 * (m.length / 4))).getD 0 0 = m.getD (4 * (m.length / 4)) 0 := by
    rw [getD_drop, Nat.add_zero]
  have g1 := getD_drop m (4 * (m.length / 4)) 1
  have g2 := getD_drop m (4 * (m.length / 4)) 2
  rw [and_three, shiftRight_two, load32_eq_pack]
  rcases (by omega : m.length % 4 = 1 ∨ m.length % 4 = 2 ∨ m.length % 4 = 3) with h | h | h
  · rw [h] at hl hrest
    rw [h, List.getD_eq_default m 0 (by omega : m.length ≤ 4 * (m.length / 4) + 1),
      List.getD_eq_default m 0 (by omega : m.length ≤ 4 * (m.length / 4) + 2),
      List.getD_eq_default m 0 (by omega : m.length ≤ 4 * (m.length / 4) + 3),
      list_of_length_1 _ hl, g0]
    match rest, hrest with
    | y0 :: rest', _ =>
      simp only [for_loop]
      rw [encrypt_tail_body_0 m _ u _ hu hm, ← Nat.add_zero (4 * (m.length / 4)),
        set_after _ _ _ _ _ hb]
      rw [List.append_assoc]
      rfl
  · rw [h] at hl hrest
    rw [h, List.getD_eq_default m 0 (by omega : m.length ≤ 4 * (m.length / 4) + 2),
      List.getD_eq_default m 0 (by omega : m.length ≤ 4 * (m.length / 4) + 3),
      list_of_length_2 _ hl, g0, g1]
    match rest, hrest with
    | y0 :: y1 :: rest', _ =>
      simp only [for_loop, Nat.zero_add]
      rw [encrypt_tail_body_0 m _ u _ hu hm, encrypt_tail_body_1 m _ _ _ w1 hm,
        xor_w3_xor_w3, hx.1, ← Nat.add_zero (4 * (m.length / 4)), set_after _ _ _ _ _ hb,
        Nat.add_zero, set_after _ _ _ _ _ hb]
      rw [List.append_assoc]
      rfl
  · rw [h] at hl hrest
    rw [h, List.getD_eq_default m 0 (by omega : m.length ≤ 4 * (m.length / 4) + 3),
      list_of_length_3 _ hl, g0, g1, g2]
    match rest, hrest with
    | y0 :: y1 :: y2 :: rest', _ =>
      simp only [for_loop, Nat.zero_add, Nat.reduceAdd]
      rw [encrypt_tail_body_0 m _ u _ hu hm, encrypt_tail_body_1 m _ _ _ w1 hm,
        encrypt_tail_body_2 m _ _ _ w2 hm,
        xor_w3_xor_w3, xor_w3_xor_w3, ← Nat.xor_assoc, hx.1, hx.2,
        ← Nat.add_zero (4 * (m.length / 4)), set_after _ _ _ _ _ hb,
        Nat.add_zero, set_after _ _ _ _ _ hb, set_after _ _ _ _ _ hb]
      rw [List.append_assoc]
      rfl


/-! ## The finalization -/

theorem getD_cons_drop (v : List Nat) (i : Nat) (h : i < v.length) :
    v.drop i = v.getD i 0 :: v.drop (i + 1) := by
  rw [List.drop_eq_getElem_cons h, List.getD_eq_getElem _ _ h]

/-- A loop that copies `v[i..i+n)` to the positions `off + i, ...` of a buffer. -/
theorem copy_loop (v : List Nat) (off : Nat) (n i : Nat) (pre rest : List Nat)
    (hp : pre.length = off + i) (hn : n ≤ rest.length) (hv : i + n ≤ v.length) :
    for_loop (fun j c => c.set (off + j) (v.getD j 0)) n i (pre ++ rest) =
      pre ++ (v.drop i).take n ++ rest.drop n := by
  induction n generalizing i pre rest with
  | zero => simp only [for_loop, List.take_zero, List.append_nil, List.drop_zero]
  | succ n ih =>
    match rest, hn with
    | y :: rest', hn' =>
      have hn2 : n ≤ rest'.length := by
        simp only [List.length_cons] at hn'; omega
      have e : (pre ++ y :: rest').set (off + i) (v.getD i 0) =
          (pre ++ [v.getD i 0]) ++ rest' := by
        rw [← Nat.add_zero (off + i), set_after _ _ _ _ _ hp, List.append_assoc]; rfl
      rw [for_loop, e, ih (i + 1) (pre ++ [v.getD i 0]) rest'
        (by rw [List.length_append, hp]; rfl) hn2 (by omega),
        getD_cons_drop v i (by omega)]
      simp only [List.take_succ_cons, List.drop_succ_cons, List.append_assoc,
        List.singleton_append]

theorem encrypt_finalization_unfold (k : List Nat) (mlen : Nat) (sc : State × List Nat) :
    encrypt_finalization k mlen sc =
      (state_update (xor_w1 sc.1 0x70) k 1152).bind fun a =>
        (state_update (xor_w1 a 0x70) k 640).bind fun b =>
          some ⟨0, mlen + 8,
            for_loop (fun j c => c.set (mlen + j)
              ((store32 (store32 (List.replicate 8 0) 0 a.w2) 1 b.w2).getD j 0)) 8 0 sc.2⟩ :=
  rfl

theorem mac_eq (a b : Nat) :
    store32 (store32 (List.replicate 8 0) 0 a) 1 b = word_bytes a ++ word_bytes b := rfl

/-- The finalization writes the two tag words, least significant byte first, behind
the first `mlen` bytes of the buffer and touches nothing else. -/
theorem encrypt_finalization_eq (k : List Nat) (mlen : Nat) (s : State) (c : List Nat)
    (hc : mlen + 8 ≤ c.length) :
    encrypt_finalization k mlen (s, c) =
      some ⟨0, mlen + 8,
        c.take mlen ++ (word_bytes (perm k 9 (xor_w1 s 0x70)).w2 ++
          word_bytes (perm k 5 (xor_w1 (perm k 9 (xor_w1 s 0x70)) 0x70)).w2) ++
          c.drop (mlen + 8)⟩ := by
  rw [encrypt_finalization_unfold, state_update_1152, Option.some_bind, state_update_640,
    Option.some_bind, mac_eq]
  have h := copy_loop (word_bytes (perm k 9 (xor_w1 s 0x70)).w2 ++
      word_bytes (perm k 5 (xor_w1 (perm k 9 (xor_w1 s 0x70)) 0x70)).w2) mlen 8 0
    (c.take mlen) (c.drop mlen) (by rw [List.length_take]; omega)
    (by rw [List.length_drop]; omega) (by rw [List.length_append]; exact Nat.le_refl _)
  rw [List.take_append_drop] at h
  dsimp only
  rw [h, List.drop_drop, List.drop_zero]
  rfl


/-! ## The processing of the plaintext -/

theorem encrypt_message_unfold (k m : List Nat) (sc : State × List Nat) :
    encrypt_message k m sc =
      (for_loopM (encrypt_body k m) (m.length >>> 2) 0 sc).bind fun sc1 =>
        if (m.length &&& 3) > 0 then
          (state_update (xor_w1 sc1.1 0x50) k 1152).bind fun u =>
            some (xor_w1 (for_loop (encrypt_tail_body m (m.length >>> 2)) (m.length &&& 3) 0
                (u, sc1.2)).1 (m.length &&& 3),
              (for_loop (encrypt_tail_body m (m.length >>> 2)) (m.length &&& 3) 0
                (u, sc1.2)).2)
        else some sc1 := rfl

theorem store32_length (c : List Nat) (i w : Nat) : (store32 c i w).length = c.length := by
  simp only [store32, List.length_set]

theorem encrypt_loop_some (k m : List Nat) (n i : Nat) (sc : State × List Nat) :
    ∃ r, for_loopM (encrypt_body k m) n i sc = some r ∧ r.2.length = sc.2.length := by
  rw [for_loopM_some (encrypt_body k m) _ (fun i sc => encrypt_body_eq k m i sc) n i sc]
  exact ⟨_, rfl, for_loop_inv (fun r : State × List Nat => r.2.length = sc.2.length) _
    (fun i r hr => by dsimp only; rw [store32_length]; exact hr) n i sc rfl⟩

theorem encrypt_tail_length (m : List Nat) (q n i : Nat) (sc : State × List Nat) :
    (for_loop (encrypt_tail_body m q) n i sc).2.length = sc.2.length :=
  for_loop_inv (fun r : State × List Nat => r.2.length = sc.2.length) _
    (fun j r hr => by
      have e : (encrypt_tail_body m q j r).2 = r.2.set ((q <<< 2) + j)
        ((state_bytes (encrypt_tail_body m q j r).1).getD (8 + j) 0 ^^^
          m.getD ((q <<< 2) + j) 0) := rfl
      dsimp only
      rw [e, List.length_set]; exact hr) n i sc rfl

/-- The processing of the plaintext returns, and the buffer keeps its length. -/
theorem encrypt_message_some (k m : List Nat) (s : State) (c : List Nat) :
    ∃ r, encrypt_message k m (s, c) = some r ∧ r.2.length = c.length := by
  obtain ⟨r1, h1, l1⟩ := encrypt_loop_some k m (m.length >>> 2) 0 (s, c)
  rw [encrypt_message_unfold, h1, Option.some_bind]
  by_cases h : (m.length &&& 3) > 0
  · rw [if_pos h, state_update_1152, Option.some_bind]
    exact ⟨_, rfl, by dsimp only; rw [encrypt_tail_length]; exact l1⟩
  · rw [if_neg h]
    exact ⟨_, rfl, l1⟩

/-- With no bytes left over, the processing of the plaintext is `enc_blocks` on the
full blocks, and the bytes emitted replace the first `mlen` bytes of the buffer. -/
theorem encrypt_message_of_full (k m c : List Nat) (s : State) (h : m.length % 4 = 0)
    (hc : m.length ≤ c.length) :
    encrypt_message k m (s, c) =
      (enc_blocks k s (full_blocks m)).map fun r => (r.1, r.2 ++ c.drop m.length) := by
  obtain ⟨r, hr⟩ := enc_blocks_some k s (full_blocks m)
  have e := encrypt_loop_blocks k (m.length / 4) m c s (by omega)
  rw [← full_blocks, hr, Option.map_some', show 4 * (m.length / 4) = m.length by omega] at e
  rw [encrypt_message_unfold, shiftRight_two, e, Option.some_bind,
    if_neg (by rw [and_three, h]; exact Nat.lt_irrefl 0), hr, Option.map_some']

theorem take_blocks_length (n : Nat) (p : List Nat) : (take_blocks n p).length = n := by
  induction n generalizing p with
  | zero => rfl
  | succ n ih => rw [take_blocks, List.length_cons, ih]

theorem enc_blocks_length (k : List Nat) (s : State) (bs : List (List Nat))
    (r : State × List Nat) (h : enc_blocks k s bs = some r) : r.2.length = 4 * bs.length := by
  induction bs generalizing s r with
  | nil =>
    rw [enc_blocks, Option.some.injEq] at h
    rw [← h]; rfl
  | cons b bs ih =>
    obtain ⟨r', hr'⟩ := enc_blocks_some k
      (xor_w3 (perm k 9 (xor_w1 s 0x50)) (load32 b 0)) bs
    rw [enc_blocks_cons, hr', Option.map_some', Option.some.injEq] at h
    rw [← h]
    dsimp only
    rw [List.length_append, word_bytes_length, ih _ _ hr', List.length_cons]
    omega

theorem process_ad_some (k ad : List Nat) (s : State) : ∃ t, process_ad k ad s = some t := by
  rw [process_ad_unfold, process_ad_loop_some, Option.some_bind]
  by_cases h : (ad.length &&& 3) > 0
  · rw [if_pos h, state_update_640, Option.some_bind]; exact ⟨_, rfl⟩
  · rw [if_neg h]; exact ⟨_, rfl⟩

/-! ## `crypto_aead_encrypt` -/

/-- The stages of `crypto_aead_encrypt` and what it hands back, given an output buffer
of at least `mlen + 8` bytes. -/
theorem crypto_aead_encrypt_eq (c m ad nsec npub k : List Nat)
    (hc : m.length + 8 ≤ c.length) :
    ∃ (s0 s1 : State) (sc : State × List Nat) (a b : State),
      initialization k npub ⟨0, 0, 0, 0⟩ = some s0 ∧
      process_ad k ad s0 = some s1 ∧
      encrypt_message k m (s1, c) = some sc ∧ sc.2.length = c.length ∧
      state_update (xor_w1 sc.1 0x70) k 1152 = some a ∧
      state_update (xor_w1 a 0x70) k 640 = some b ∧
      crypto_aead_encrypt c m ad nsec npub k =
        some ⟨0, m.length + 8,
          sc.2.take m.length ++ (word_bytes a.w2 ++ word_bytes b.w2) ++
            sc.2.drop (m.length + 8)⟩ := by
  obtain ⟨s1, h1⟩ := process_ad_some k ad
    (xor_w3 (perm k 5 (xor_w1 (xor_w3 (perm k 5 (xor_w1 (xor_w3 (perm k 5
        (xor_w1 (perm k 9 ⟨0, 0, 0, 0⟩) 0x10)) (load32 npub 0)) 0x10)) (load32 npub 1)) 0x10))
        (load32 npub 2))
  obtain ⟨sc, h2, l2⟩ := encrypt_message_some k m s1 c
  refine ⟨_, s1, sc, _, _, initialization_eq k npub _, h1, h2, l2, state_update_1152 _ _,
    state_update_640 _ _, ?_⟩
  rw [crypto_aead_encrypt_unfold, initialization_eq, Option.some_bind, h1, Option.some_bind,
    h2, Option.some_bind, ← encrypt_finalization_eq k m.length sc.1 sc.2 (by omega)]

/-- C1: given an output buffer of at least `mlen + 8` bytes, `crypto_aead_encrypt`
returns 0 and sets `*clen` to `mlen + 8`; the `mlen + 8` bytes of output are the `mlen`
bytes that the processing of the plaintext has put at the start of the buffer,
followed by the 8 tag bytes: word 2 after `0x70` into word 1 and `state_update` with
1152 steps, then word 2 after `0x70` into word 1 and `state_update` with 640 steps, each
least significant byte first.  The bytes of the buffer behind them stay as they were. -/
theorem crypto_aead_encrypt_length (c m ad nsec npub k : List Nat)
    (hc : m.length + 8 ≤ c.length) :
    ∃ (s0 s1 : State) (sc : State × List Nat) (a b : State) (tag : List Nat)
        (res : EncryptResult),
      initialization k npub ⟨0, 0, 0, 0⟩ = some s0 ∧
      process_ad k ad s0 = some s1 ∧
      encrypt_message k m (s1, c) = some sc ∧
      state_update (xor_w1 sc.1 0x70) k 1152 = some a ∧
      state_update (xor_w1 a 0x70) k 640 = some b ∧
      tag = word_bytes a.w2 ++ word_bytes b.w2 ∧
      crypto_aead_encrypt c m ad nsec npub k = some res ∧
      res.ret = 0 ∧ res.clen = m.length + 8 ∧
      res.c = sc.2.take m.length ++ tag ++ sc.2.drop (m.length + 8) ∧
      res.c.take res.clen = sc.2.take m.length ++ tag ∧
      (sc.2.take m.length).length = m.length ∧ tag.length = 8 ∧
      (res.c.take res.clen).length = m.length + 8 := by
  obtain ⟨s0, s1, sc, a, b, h0, h1, h2, l2, ha, hb, h3⟩ :=
    crypto_aead_encrypt_eq c m ad nsec npub k hc
  have hl : (sc.2.take m.length).length = m.length := by
    rw [List.length_take]; omega
  have ht : (List.take m.length sc.2 ++ (word_bytes a.w2 ++ word_bytes b.w2)).length =
      m.length + 8 := by
    rw [List.length_append, hl]; rfl
  refine ⟨s0, s1, sc, a, b, word_bytes a.w2 ++ word_bytes b.w2, _, h0, h1, h2, ha, hb, rfl,
    h3, rfl, rfl, rfl, ?_, hl, rfl, ?_⟩
  · dsimp only
    rw [List.take_left' ht]
  · dsimp only
    rw [List.take_left' ht, ht]

theorem crypto_aead_encrypt_length_witness :
    ([1, 2, 3, 4, 5] : List Nat).length + 8 ≤ (List.replicate 13 0).length ∧
      ∃ (s0 s1 : State) (sc : State × List Nat) (a b : State) (tag : List Nat)
          (res : EncryptResult),
        initialization (List.replicate 24 7) (List.replicate 12 9) ⟨0, 0, 0, 0⟩ = some s0 ∧
        process_ad (List.replicate 24 7) [1, 2, 3] s0 = some s1 ∧
        encrypt_message (List.replicate 24 7) [1, 2, 3, 4, 5] (s1, List.replicate 13 0) =
          some sc ∧
        state_update (xor_w1 sc.1 0x70) (List.replicate 24 7) 1152 = some a ∧
        state_update (xor_w1 a 0x70) (List.replicate 24 7) 640 = some b ∧
        tag = word_bytes a.w2 ++ word_bytes b.w2 ∧
        crypto_aead_encrypt (List.replicate 13 0) [1, 2, 3, 4, 5] [1, 2, 3] []
          (List.replicate 12 9) (List.replicate 24 7) = some res ∧
        res.ret = 0 ∧ res.clen = ([1, 2, 3, 4, 5] : List Nat).length + 8 ∧
        res.c = sc.2.take ([1, 2, 3, 4, 5] : List Nat).length ++ tag ++
          sc.2.drop (([1, 2, 3, 4, 5] : List Nat).length + 8) ∧
        res.c.take res.clen = sc.2.take ([1, 2, 3, 4, 5] : List Nat).length ++ tag ∧
        (sc.2.take ([1, 2, 3, 4, 5] : List Nat).length).length =
          ([1, 2, 3, 4, 5] : List Nat).length ∧ tag.length = 8 ∧
        (res.c.take res.clen).length = ([1, 2, 3, 4, 5] : List Nat).length + 8 :=
  ⟨by decide, crypto_aead_encrypt_length _ _ _ _ _ _ (by decide)⟩

/-- C3: for a plaintext whose length is a multiple of 4, the first `mlen` bytes of the
output of `crypto_aead_encrypt` are what `enc_blocks` emits on the 4-byte blocks of the
plaintext from the state that `process_ad` left: block by block in order, `0x50` is
xored into word 1, `state_update` runs 1152 steps, the plaintext word is xored into
word 3, and the four bytes emitted are word 2 of the updated state xor the plaintext
word, least significant byte first. -/
theorem crypto_aead_encrypt_full_blocks (c m ad nsec npub k : List Nat)
    (h : m.length % 4 = 0) (hc : m.length + 8 ≤ c.length) :
    ∃ (s0 s1 : State) (r : State × List Nat) (res : EncryptResult),
      initialization k npub ⟨0, 0, 0, 0⟩ = some s0 ∧
      process_ad k ad s0 = some s1 ∧
      enc_blocks k s1 (full_blocks m) = some r ∧
      encrypt_message k m (s1, c) = some (r.1, r.2 ++ c.drop m.length) ∧
      crypto_aead_encrypt c m ad nsec npub k = some res ∧
      res.c.take m.length = r.2 ∧ r.2.length = m.length := by
  obtain ⟨s0, s1, sc, a, b, h0, h1, h2, l2, _, _, h3⟩ :=
    crypto_aead_encrypt_eq c m ad nsec npub k hc
  obtain ⟨r, hr⟩ := enc_blocks_some k s1 (full_blocks m)
  have hl : r.2.length = m.length := by
    rw [enc_blocks_length k s1 _ r hr, full_blocks, take_blocks_length]; omega
  rw [encrypt_message_of_full k m c s1 h (by omega), hr, Option.map_some',
    Option.some.injEq] at h2
  refine ⟨s0, s1, r, _, h0, h1, hr, ?_, h3, ?_, hl⟩
  · rw [encrypt_message_of_full k m c s1 h (by omega), hr, Option.map_some']
  · dsimp only
    rw [← h2]
    dsimp only
    rw [List.take_left' hl, List.append_assoc, List.take_left' hl]

theorem crypto_aead_encrypt_full_blocks_witness :
    ([1, 2, 3, 4, 5, 6, 7, 8] : List Nat).length % 4 = 0 ∧
      ([1, 2, 3, 4, 5, 6, 7, 8] : List Nat).length + 8 ≤ (List.replicate 16 0).length ∧
      ∃ (s0 s1 : State) (r : State × List Nat) (res : EncryptResult),
        initialization (List.replicate 24 7) (List.replicate 12 9) ⟨0, 0, 0, 0⟩ = some s0 ∧
        process_ad (List.replicate 24 7) [1, 2, 3] s0 = some s1 ∧
        enc_blocks (List.replicate 24 7) s1 (full_blocks [1, 2, 3, 4, 5, 6, 7, 8]) = some r ∧
        encrypt_message (List.replicate 24 7) [1, 2, 3, 4, 5, 6, 7, 8]
            (s1, List.replicate 16 0) =
          some (r.1, r.2 ++ (List.replicate 16 0).drop
            ([1, 2, 3, 4, 5, 6, 7, 8] : List Nat).length) ∧
        crypto_aead_encrypt (List.replicate 16 0) [1, 2, 3, 4, 5, 6, 7, 8] [1, 2, 3] []
          (List.replicate 12 9) (List.replicate 24 7) = some res ∧
        res.c.take ([1, 2, 3, 4, 5, 6, 7, 8] : List Nat).length = r.2 ∧
        r.2.length = ([1, 2, 3, 4, 5, 6, 7, 8] : List Nat).length :=
  ⟨by decide, by decide, crypto_aead_encrypt_full_blocks _ _ _ _ _ _ (by decide) (by decide)⟩

/-- C5: the last 8 bytes of the output of `crypto_aead_encrypt` come from the state `S`
left by the processing of the plaintext: `0x70` xored into word 1 and `state_update`
with 1152 steps give tag bytes 0 to 3 as word 2, least significant byte first; `0x70`
xored into word 1 again and `state_update` with 640 steps give tag bytes 4 to 7 as
word 2, least significant byte first. -/
theorem crypto_aead_encrypt_tag (c m ad nsec npub k : List Nat)
    (hc : m.length + 8 ≤ c.length) :
    ∃ (s0 s1 : State) (sc : State × List Nat) (a b : State) (res : EncryptResult),
      initialization k npub ⟨0, 0, 0, 0⟩ = some s0 ∧
      process_ad k ad s0 = some s1 ∧
      encrypt_message k m (s1, c) = some sc ∧
      state_update (xor_w1 sc.1 0x70) k 1152 = some a ∧
      state_update (xor_w1 a 0x70) k 640 = some b ∧
      crypto_aead_encrypt c m ad nsec npub k = some res ∧
      (res.c.take res.clen).drop m.length = word_bytes a.w2 ++ word_bytes b.w2 := by
  obtain ⟨s0, s1, sc, a, b, h0, h1, h2, l2, ha, hb, h3⟩ :=
    crypto_aead_encrypt_eq c m ad nsec npub k hc
  have hl : (sc.2.take m.length).length = m.length := by
    rw [List.length_take]; omega
  have ht : (List.take m.length sc.2 ++ (word_bytes a.w2 ++ word_bytes b.w2)).length =
      m.length + 8 := by
    rw [List.length_append, hl]; rfl
  refine ⟨s0, s1, sc, a, b, _, h0, h1, h2, ha, hb, h3, ?_⟩
  dsimp only
  rw [List.take_left' ht, List.drop_left' hl]

theorem crypto_aead_encrypt_tag_witness :
    ([1, 2, 3, 4, 5] : List Nat).length + 8 ≤ (List.replicate 13 0).length ∧
      ∃ (s0 s1 : State) (sc : State × List Nat) (a b : State) (res : EncryptResult),
        initialization (List.replicate 24 7) (List.replicate 12 9) ⟨0, 0, 0, 0⟩ = some s0 ∧
        process_ad (List.replicate 24 7) [1, 2, 3] s0 = some s1 ∧
        encrypt_message (List.replicate 24 7) [1, 2, 3, 4, 5] (s1, List.replicate 13 0) =
          some sc ∧
        state_update (xor_w1 sc.1 0x70) (List.replicate 24 7) 1152 = some a ∧
        state_update (xor_w1 a 0x70) (List.replicate 24 7) 640 = some b ∧
        crypto_aead_encrypt (List.replicate 13 0) [1, 2, 3, 4, 5] [1, 2, 3] []
          (List.replicate 12 9) (List.replicate 24 7) = some res ∧
        (res.c.take res.clen).drop ([1, 2, 3, 4, 5] : List Nat).length =
          word_bytes a.w2 ++ word_bytes b.w2 :=
  ⟨by decide, crypto_aead_encrypt_tag _ _ _ _ _ _ (by decide)⟩

theorem encrypt_message_nil (k : List Nat) (sc : State × List Nat) :
    encrypt_message k [] sc = some sc := rfl

/-- C10: on a plaintext of length 0 `crypto_aead_encrypt` outputs exactly 8 bytes, the
tag that the two finalization passes give on the state left by `initialization` and
`process_ad`: no `0x50` is xored in and no `state_update` of the message stage runs. -/
theorem crypto_aead_encrypt_empty (c ad nsec npub k : List Nat) (hc : 8 ≤ c.length) :
    ∃ (s0 s1 a b : State),
      initialization k npub ⟨0, 0, 0, 0⟩ = some s0 ∧
      process_ad k ad s0 = some s1 ∧
      encrypt_message k [] (s1, c) = some (s1, c) ∧
      state_update (xor_w1 s1 0x70) k 1152 = some a ∧
      state_update (xor_w1 a 0x70) k 640 = some b ∧
      crypto_aead_encrypt c [] ad nsec npub k =
        some ⟨0, 8, word_bytes a.w2 ++ word_bytes b.w2 ++ c.drop 8⟩ := by
  obtain ⟨s0, s1, sc, a, b, h0, h1, h2, l2, ha, hb, h3⟩ :=
    crypto_aead_encrypt_eq c [] ad nsec npub k (by rw [List.length_nil]; omega)
  rw [encrypt_message_nil, Option.some.injEq] at h2
  rw [← h2] at h3 ha
  simp only [List.length_nil, List.take_zero, List.nil_append, Nat.zero_add] at h3
  exact ⟨s0, s1, a, b, h0, h1, encrypt_message_nil k _, ha, hb, h3⟩

theorem crypto_aead_encrypt_empty_witness :
    8 ≤ (List.replicate 8 0).length ∧
      ∃ (s0 s1 a b : State),
        initialization (List.replicate 24 7) (List.replicate 12 9) ⟨0, 0, 0, 0⟩ = some s0 ∧
        process_ad (List.replicate 24 7) [1, 2, 3] s0 = some s1 ∧
        encrypt_message (List.replicate 24 7) [] (s1, List.replicate 8 0) =
          some (s1, List.replicate 8 0) ∧
        state_update (xor_w1 s1 0x70) (List.replicate 24 7) 1152 = some a ∧
        state_update (xor_w1 a 0x70) (List.replicate 24 7) 640 = some b ∧
        crypto_aead_encrypt (List.replicate 8 0) [] [1, 2, 3] [] (List.replicate 12 9)
            (List.replicate 24 7) =
          some ⟨0, 8, word_bytes a.w2 ++ word_bytes b.w2 ++ (List.replicate 8 0).drop 8⟩ :=
  ⟨by decide, crypto_aead_encrypt_empty _ _ _ _ _ (by decide)⟩


/-! ## A plaintext with remaining bytes -/

theorem is_bytes_take {p : List Nat} (h : is_bytes p) (n : Nat) : is_bytes (p.take n) :=
  fun b hb => h b (List.mem_of_mem_take hb)

theorem is_bytes_drop {p : List Nat} (h : is_bytes p) (n : Nat) : is_bytes (p.drop n) :=
  fun b hb => h b (List.mem_of_mem_drop hb)

theorem take_blocks_bytes (n : Nat) (p : List Nat) (h : is_bytes p) :
    ∀ b ∈ take_blocks n p, is_bytes b := by
  induction n generalizing p with
  | zero => intro b hb; exact absurd hb (List.not_mem_nil b)
  | succ n ih =>
    intro b hb
    rw [take_blocks, List.mem_cons] at hb
    rcases hb with hb | hb
    · rw [hb]; exact is_bytes_take h 4
    · exact ih (p.drop 4) (is_bytes_drop h 4) b hb

theorem enc_blocks_wf (k : List Nat) (s : State) (bs : List (List Nat))
    (r : State × List Nat) (hk : is_bytes k) (hs : s.wf) (hbs : ∀ b ∈ bs, is_bytes b)
    (h : enc_blocks k s bs = some r) : r.1.wf := by
  induction bs generalizing s r with
  | nil =>
    rw [enc_blocks, Option.some.injEq] at h
    rw [← h]; exact hs
  | cons b bs ih =>
    obtain ⟨r', hr'⟩ := enc_blocks_some k
      (xor_w3 (perm k 9 (xor_w1 s 0x50)) (load32 b 0)) bs
    have w := ih _ r' (xor_w3_wf _ _ (perm_wf k 9 _ hk (xor_w1_wf s _ hs (by norm_num)))
      (load32_lt (hbs b (List.mem_cons_self b bs)) 0))
      (fun b' hb' => hbs b' (List.mem_cons_of_mem b hb')) hr'
    rw [enc_blocks_cons, hr', Option.map_some', Option.some.injEq] at h
    rw [← h]; exact w

/-- With bytes left over, the processing of the plaintext is `enc_blocks` on the full
blocks, one more `0x50` and `state_update` with 1152 steps, the remaining bytes as a
zero-padded word into word 3, their number into word 1, and one byte of output per
remaining byte: byte `j` of word 2 xor remaining byte `j`. -/
theorem encrypt_message_of_remainder (k m c : List Nat) (s : State) (hk : is_bytes k)
    (hm : is_bytes m) (hs : s.wf) (hr : m.length % 4 ≠ 0) (hc : m.length ≤ c.length) :
    ∃ (r : State × List Nat) (u : State),
      enc_blocks k s (full_blocks m) = some r ∧ r.2.length = 4 * (m.length / 4) ∧
      state_update (xor_w1 r.1 0x50) k 1152 = some u ∧ u.wf ∧
      encrypt_message k m (s, c) =
        some (xor_w1 (xor_w3 u (load32 m (m.length / 4))) (m.length % 4),
          r.2 ++ List.zipWith (fun a b => a ^^^ b) (word_bytes u.w2)
            (m.drop (4 * (m.length / 4))) ++ c.drop m.length) := by
  obtain ⟨r, hr1⟩ := enc_blocks_some k s (full_blocks m)
  have hl : r.2.length = 4 * (m.length / 4) := by
    rw [enc_blocks_length k s _ r hr1, full_blocks, take_blocks_length]
  have hw : r.1.wf := enc_blocks_wf k s _ r hk hs (take_blocks_bytes _ m hm) hr1
  have hu : (perm k 9 (xor_w1 r.1 0x50)).wf :=
    perm_wf k 9 _ hk (xor_w1_wf _ _ hw (by norm_num))
  have e := encrypt_loop_blocks k (m.length / 4) m c s (by omega)
  rw [← full_blocks, hr1, Option.map_some'] at e
  refine ⟨r, _, hr1, hl, state_update_1152 _ _, hu, ?_⟩
  rw [encrypt_message_unfold, shiftRight_two, e, Option.some_bind,
    if_pos (by rw [and_three]; omega), state_update_1152, Option.some_bind]
  dsimp only
  have t := encrypt_tail_loop m _ r.2 (c.drop (4 * (m.length / 4))) hm hu hr hl
    (by rw [List.length_drop]; omega)
  rw [shiftRight_two] at t
  rw [t, and_three, List.drop_drop, Nat.div_add_mod]


/-! ## The state that enters the message stage holds 32-bit values -/

theorem initialization_wf (key iv : List Nat) (state s0 : State) (hk : is_bytes key)
    (hn : is_bytes iv) (h : initialization key iv state = some s0) : s0.wf := by
  rw [initialization_eq, Option.some.injEq] at h
  rw [← h]
  have z : (0x10 : Nat) < 2 ^ 32 := by norm_num
  have w0 : State.wf ⟨0, 0, 0, 0⟩ := by decide
  have w1 := xor_w3_wf _ _ (perm_wf key 5 _ hk (xor_w1_wf _ _ (perm_wf key 9 _ hk w0) z))
    (load32_lt hn 0)
  have w2 := xor_w3_wf _ _ (perm_wf key 5 _ hk (xor_w1_wf _ _ w1 z)) (load32_lt hn 1)
  exact xor_w3_wf _ _ (perm_wf key 5 _ hk (xor_w1_wf _ _ w2 z)) (load32_lt hn 2)

theorem process_ad_wf (k ad : List Nat) (s t : State) (hk : is_bytes k) (had : is_bytes ad)
    (hs : s.wf) (h : process_ad k ad s = some t) : t.wf := by
  by_cases hr : ad.length % 4 = 0
  · rw [process_ad_of_full k ad s hr, process_ad_loop_some, Option.some.injEq] at h
    rw [← h]; exact process_ad_loop_wf k ad _ 0 s hk had hs
  · rw [process_ad_of_remainder k ad s hk had hs hr, Option.some.injEq] at h
    rw [← h]
    exact xor_w1_wf _ _ (process_ad_loop_wf k ad _ 0 s hk had hs)
      (lt_of_lt_of_le (Nat.mod_lt _ (by norm_num)) (by norm_num))

/-! ## Bytes of a word xored with a packed word -/

theorem xor_byte_lt (a b : Nat) (ha : a < 256) (hb : b < 256) : a ^^^ b < 256 := by
  have h8 : (256 : Nat) = 2 ^ 8 := by norm_num
  rw [h8] at ha hb ⊢
  exact Nat.xor_lt_two_pow ha hb

theorem word_bytes_xor_pack (a b0 b1 b2 b3 : Nat) (ha : a < 2 ^ 32) (h0 : b0 < 256)
    (h1 : b1 < 256) (h2 : b2 < 256) (h3 : b3 < 256) :
    word_bytes (a ^^^ pack b0 b1 b2 b3) =
      [a % 256 ^^^ b0, (a >>> 8) % 256 ^^^ b1, (a >>> 16) % 256 ^^^ b2,
        (a >>> 24) % 256 ^^^ b3] := by
  have e := pack_xor (a % 256) ((a >>> 8) % 256) ((a >>> 16) % 256) ((a >>> 24) % 256)
    b0 b1 b2 b3 (mod_256_lt _) (mod_256_lt _) (mod_256_lt _) h0 h1 h2
  rw [pack_bytes a ha] at e
  obtain ⟨e0, e1, e2, e3⟩ := bytes_pack _ _ _ _
    (xor_byte_lt _ _ (mod_256_lt a) h0) (xor_byte_lt _ _ (mod_256_lt (a >>> 8)) h1)
    (xor_byte_lt _ _ (mod_256_lt (a >>> 16)) h2) (xor_byte_lt _ _ (mod_256_lt (a >>> 24)) h3)
  rw [← e, word_bytes, e0, e1, e2, e3]

theorem word_bytes_getD (w j : Nat) (hj : j < 4) :
    (word_bytes w).getD j 0 = (w >>> (8 * j)) % 256 := by
  rcases (by omega : j = 0 ∨ j = 1 ∨ j = 2 ∨ j = 3) with h | h | h | h <;> rw [h] <;> rfl

/-! ## `enc_blocks` and one more block -/

theorem take_blocks_succ_last (n : Nat) (p : List Nat) :
    take_blocks (n + 1) p = take_blocks n p ++ [(p.drop (4 * n)).take 4] := by
  induction n generalizing p with
  | zero => rfl
  | succ n ih =>
    rw [take_blocks, ih (p.drop 4), take_blocks, List.drop_drop,
      show 4 + 4 * n = 4 * (n + 1) by omega, List.cons_append]

theorem take_blocks_append (n : Nat) (p z : List Nat) (h : 4 * n ≤ p.length) :
    take_blocks n (p ++ z) = take_blocks n p := by
  induction n generalizing p with
  | zero => rfl
  | succ n ih =>
    rw [take_blocks, take_blocks, List.take_append_of_le_length (by omega),
      List.drop_append_of_le_length (by omega), ih _ (by rw [List.length_drop]; omega)]

theorem enc_blocks_append (k : List Nat) (s : State) (bs : List (List Nat)) (b : List Nat)
    (r : State × List Nat) (h : enc_blocks k s bs = some r) :
    enc_blocks k s (bs ++ [b]) =
      some (xor_w3 (perm k 9 (xor_w1 r.1 0x50)) (load32 b 0),
        r.2 ++ word_bytes ((perm k 9 (xor_w1 r.1 0x50)).w2 ^^^ load32 b 0)) := by
  induction bs generalizing s r with
  | nil =>
    rw [enc_blocks, Option.some.injEq] at h
    rw [← h, List.nil_append, enc_blocks_cons, enc_blocks, Option.map_some']
    dsimp only
    rw [List.append_nil, List.nil_append]
  | cons b' bs ih =>
    obtain ⟨r', hr'⟩ := enc_blocks_some k
      (xor_w3 (perm k 9 (xor_w1 s 0x50)) (load32 b' 0)) bs
    rw [enc_blocks_cons, hr', Option.map_some', Option.some.injEq] at h
    rw [List.cons_append, enc_blocks_cons, ih _ r' hr', Option.map_some', ← h]
    dsimp only
    rw [List.append_assoc]


theorem load32_drop_mul (p : List Nat) (n i : Nat) :
    load32 (p.drop (4 * n)) i = load32 p (n + i) := by
  simp only [load32, getD_drop, Nat.mul_add, Nat.add_assoc]

theorem getD_zipWith_xor (x y : List Nat) (j : Nat) (hx : j < x.length) (hy : j < y.length) :
    (List.zipWith (fun a b => a ^^^ b) x y).getD j 0 = x.getD j 0 ^^^ y.getD j 0 := by
  rw [List.getD_eq_getElem _ _ (by rw [List.length_zipWith]; omega),
    List.getD_eq_getElem _ _ hx, List.getD_eq_getElem _ _ hy, List.getElem_zipWith]

/-- The bytes emitted for the remaining bytes are the first bytes of the word emitted
for the remaining bytes padded with zeros. -/
theorem zipWith_remainder (m : List Nat) (w : Nat) (hm : is_bytes m) (hw : w < 2 ^ 32)
    (hr : m.length % 4 ≠ 0) :
    List.zipWith (fun a b => a ^^^ b) (word_bytes w) (m.drop (4 * (m.length / 4))) =
      (word_bytes (w ^^^ load32 m (m.length / 4))).take (m.length % 4) := by
  have b0 := getD_lt_of_is_bytes hm (4 * (m.length / 4))
  have b1 := getD_lt_of_is_bytes hm (4 * (m.length / 4) + 1)
  have b2 := getD_lt_of_is_bytes hm (4 * (m.length / 4) + 2)
  have b3 := getD_lt_of_is_bytes hm (4 * (m.length / 4) + 3)
  have hl : (m.drop (4 * (m.length / 4))).length = m.length % 4 := by
    rw [List.length_drop]; omega
  have g0 : (m.drop (4 * (m.length / 4))).getD 0 0 = m.getD (4 * (m.length / 4)) 0 := by
    rw [getD_drop, Nat.add_zero]
  have g1 := getD_drop m (4 * (m.length / 4)) 1
  have g2 := getD_drop m (4 * (m.length / 4)) 2
  rw [load32_eq_pack, word_bytes_xor_pack w _ _ _ _ hw b0 b1 b2 b3]
  rcases (by omega : m.length % 4 = 1 ∨ m.length % 4 = 2 ∨ m.length % 4 = 3) with h | h | h
  · rw [h] at hl
    rw [h, list_of_length_1 _ hl, g0]; rfl
  · rw [h] at hl
    rw [h, list_of_length_2 _ hl, g0, g1]; rfl
  · rw [h] at hl
    rw [h, list_of_length_3 _ hl, g0, g1, g2]; rfl

/-- The full blocks of a plaintext padded with zeros to the next multiple of 4: those of
the plaintext, and the remaining bytes as one more block. -/
theorem enc_blocks_padded (k m : List Nat) (s : State) (r : State × List Nat)
    (h : enc_blocks k s (full_blocks m) = some r) :
    enc_blocks k s (full_blocks (m ++ List.replicate (4 - m.length % 4) 0)) =
      some (xor_w3 (perm k 9 (xor_w1 r.1 0x50)) (load32 m (m.length / 4)),
        r.2 ++ word_bytes ((perm k 9 (xor_w1 r.1 0x50)).w2 ^^^ load32 m (m.length / 4))) := by
  have hl : (m ++ List.replicate (4 - m.length % 4) 0).length = 4 * (m.length / 4 + 1) := by
    rw [List.length_append, List.length_replicate]; omega
  rw [full_blocks] at h
  rw [full_blocks, hl, Nat.mul_div_cancel_left _ (by norm_num : 0 < 4), take_blocks_succ_last,
    take_blocks_append _ _ _ (by omega), enc_blocks_append k s _ _ r h, load32_take,
    load32_drop_mul, load32_append_zeros, Nat.add_zero]

/-- C4: for a plaintext of length `4 * q + r` with `r` one of 1, 2, 3, after the `q` full
blocks `crypto_aead_encrypt` xors `0x50` into word 1 and runs `state_update` with 1152
steps once more, giving `u`; output byte `4 * q + j` for `j < r` is byte `j` of word 2
of `u` xor plaintext byte `4 * q + j`; in the state `sc.1` that goes on to the
finalization, byte `j` of word 3 is that of `u` xor plaintext byte `4 * q + j` (nothing
for `j ≥ r`), word 1 is that of `u` xor `r`, words 0 and 2 are those of `u`.
Equivalently, with `rp` what `enc_blocks` gives on the plaintext padded with zeros to
`4 * q + 4` bytes, the state is that of `rp` with `r` xored into word 1 and the `mlen`
bytes of output are the first `mlen` bytes of `rp`. -/
theorem crypto_aead_encrypt_remainder (c m ad nsec npub k : List Nat) (hk : is_bytes k)
    (hn : is_bytes npub) (had : is_bytes ad) (hm : is_bytes m) (hr : m.length % 4 ≠ 0)
    (hc : m.length + 8 ≤ c.length) :
    ∃ (s0 s1 : State) (r : State × List Nat) (u : State) (sc rp : State × List Nat)
      (res : EncryptResult),
      initialization k npub ⟨0, 0, 0, 0⟩ = some s0 ∧
      process_ad k ad s0 = some s1 ∧
      enc_blocks k s1 (full_blocks m) = some r ∧
      state_update (xor_w1 r.1 0x50) k 1152 = some u ∧
      encrypt_message k m (s1, c) = some sc ∧
      crypto_aead_encrypt c m ad nsec npub k = some res ∧
      res.c.take (4 * (m.length / 4)) = r.2 ∧
      (∀ j, j < m.length % 4 → res.c.getD (4 * (m.length / 4) + j) 0 =
        (u.w2 >>> (8 * j)) % 256 ^^^ m.getD (4 * (m.length / 4) + j) 0) ∧
      sc.1.w0 = u.w0 ∧ sc.1.w1 = u.w1 ^^^ m.length % 4 ∧ sc.1.w2 = u.w2 ∧
      sc.1.w3 < 2 ^ 32 ∧
      (∀ j, j < 4 → (sc.1.w3 >>> (8 * j)) % 256 =
        (u.w3 >>> (8 * j)) % 256 ^^^ m.getD (4 * (m.length / 4) + j) 0) ∧
      enc_blocks k s1 (full_blocks (m ++ List.replicate (4 - m.length % 4) 0)) = some rp ∧
      sc.1 = xor_w1 rp.1 (m.length % 4) ∧
      res.c.take m.length = rp.2.take m.length := by
  obtain ⟨s0, s1, sc, a, b, h0, h1, h2, l2, _, _, h3⟩ :=
    crypto_aead_encrypt_eq c m ad nsec npub k hc
  have ws1 : s1.wf := process_ad_wf k ad s0 s1 hk had
    (initialization_wf k npub _ s0 hk hn h0) h1
  obtain ⟨r, u, hr1, hl, hu1, hu, he⟩ :=
    encrypt_message_of_remainder k m c s1 hk hm ws1 hr (by omega)
  rw [state_update_1152, Option.some.injEq] at hu1
  have hp := enc_blocks_padded k m s1 r hr1
  rw [hu1] at hp
  rw [he, Option.some.injEq] at h2
  subst h2
  have hz := zipWith_remainder m u.w2 hm hu.2.2.1 hr
  have hzl : (List.zipWith (fun a b => a ^^^ b) (word_bytes u.w2)
      (m.drop (4 * (m.length / 4)))).length = m.length % 4 := by
    rw [List.length_zipWith, word_bytes_length, List.length_drop]; omega
  have hrz : (r.2 ++ List.zipWith (fun a b => a ^^^ b) (word_bytes u.w2)
      (m.drop (4 * (m.length / 4)))).length = m.length := by
    rw [List.length_append, hl, hzl]; omega
  have hw3 : u.w3 ^^^ load32 m (m.length / 4) < 2 ^ 32 :=
    Nat.xor_lt_two_pow hu.2.2.2 (load32_lt hm _)
  generalize hrest : List.drop (m.length + 8)
    (r.2 ++ List.zipWith (fun a b => a ^^^ b) (word_bytes u.w2)
      (m.drop (4 * (m.length / 4))) ++ List.drop m.length c) = rest at h3
  dsimp only at h3
  rw [List.take_left' hrz, List.append_assoc, List.append_assoc] at h3
  refine ⟨s0, s1, r, u, _, _, _, h0, h1, hr1, by rw [← hu1]; exact state_update_1152 _ _,
    he, h3, ?_, ?_, rfl, rfl, rfl, hw3, ?_, hp, rfl, ?_⟩
  · dsimp only
    rw [List.take_left' hl]
  · intro j hj
    dsimp only
    rw [List.getD_append_right _ _ _ _ (by omega), hl, Nat.add_sub_cancel_left,
      List.getD_append _ _ _ _ (by omega),
      getD_zipWith_xor _ _ _ (by rw [word_bytes_length]; omega)
        (by rw [List.length_drop]; omega),
      word_bytes_getD _ _ (by omega), getD_drop]
  · intro j hj
    show ((u.w3 ^^^ load32 m (m.length / 4)) >>> (8 * j)) % 256 = _
    have e := word_bytes_xor_pack u.w3 _ _ _ _ hu.2.2.2
      (getD_lt_of_is_bytes hm (4 * (m.length / 4)))
      (getD_lt_of_is_bytes hm (4 * (m.length / 4) + 1))
      (getD_lt_of_is_bytes hm (4 * (m.length / 4) + 2))
      (getD_lt_of_is_bytes hm (4 * (m.length / 4) + 3))
    rw [← load32_eq_pack] at e
    rw [← word_bytes_getD _ _ hj, ← word_bytes_getD u.w3 _ hj, e]
    rcases (by omega : j = 0 ∨ j = 1 ∨ j = 2 ∨ j = 3) with h | h | h | h <;> rw [h] <;> rfl
  · dsimp only
    rw [← List.append_assoc, List.take_left' hrz, hz, List.take_append_eq_append_take,
      List.take_of_length_le (show r.2.length ≤ m.length by omega), hl,
      show m.length - 4 * (m.length / 4) = m.length % 4 by omega]

theorem crypto_aead_encrypt_remainder_witness :
    is_bytes (List.replicate 24 7) ∧ is_bytes (List.replicate 12 9) ∧ is_bytes [1, 2, 3] ∧
      is_bytes [1, 2, 3, 4, 5] ∧ ([1, 2, 3, 4, 5] : List Nat).length % 4 ≠ 0 ∧
      ([1, 2, 3, 4, 5] : List Nat).length + 8 ≤ (List.replicate 13 0).length ∧
      ∃ (s0 s1 : State) (r : State × List Nat) (u : State) (sc rp : State × List Nat)
        (res : EncryptResult),
        initialization (List.replicate 24 7) (List.replicate 12 9) ⟨0, 0, 0, 0⟩ = some s0 ∧
        process_ad (List.replicate 24 7) [1, 2, 3] s0 = some s1 ∧
        enc_blocks (List.replicate 24 7) s1 (full_blocks [1, 2, 3, 4, 5]) = some r ∧
        state_update (xor_w1 r.1 0x50) (List.replicate 24 7) 1152 = some u ∧
        encrypt_message (List.replicate 24 7) [1, 2, 3, 4, 5] (s1, List.replicate 13 0) =
          some sc ∧
        crypto_aead_encrypt (List.replicate 13 0) [1, 2, 3, 4, 5] [1, 2, 3] []
          (List.replicate 12 9) (List.replicate 24 7) = some res ∧
        res.c.take (4 * (([1, 2, 3, 4, 5] : List Nat).length / 4)) = r.2 ∧
        (∀ j, j < ([1, 2, 3, 4, 5] : List Nat).length % 4 →
          res.c.getD (4 * (([1, 2, 3, 4, 5] : List Nat).length / 4) + j) 0 =
            (u.w2 >>> (8 * j)) % 256 ^^^
              ([1, 2, 3, 4, 5] : List Nat).getD
                (4 * (([1, 2, 3, 4, 5] : List Nat).length / 4) + j) 0) ∧
        sc.1.w0 = u.w0 ∧ sc.1.w1 = u.w1 ^^^ ([1, 2, 3, 4, 5] : List Nat).length % 4 ∧
        sc.1.w2 = u.w2 ∧ sc.1.w3 < 2 ^ 32 ∧
        (∀ j, j < 4 → (sc.1.w3 >>> (8 * j)) % 256 =
          (u.w3 >>> (8 * j)) % 256 ^^^
            ([1, 2, 3, 4, 5] : List Nat).getD
              (4 * (([1, 2, 3, 4, 5] : List Nat).length / 4) + j) 0) ∧
        enc_blocks (List.replicate 24 7) s1
          (full_blocks ([1, 2, 3, 4, 5] ++
            List.replicate (4 - ([1, 2, 3, 4, 5] : List Nat).length % 4) 0)) = some rp ∧
        sc.1 = xor_w1 rp.1 (([1, 2, 3, 4, 5] : List Nat).length % 4) ∧
        res.c.take ([1, 2, 3, 4, 5] : List Nat).length =
          rp.2.take ([1, 2, 3, 4, 5] : List Nat).length :=
  ⟨by decide, by decide, by decide, by decide, by decide, by decide,
    crypto_aead_encrypt_remainder _ _ _ _ _ _ (by decide) (by decide) (by decide) (by decide)
      (by decide) (by decide)⟩


/-! ## Decryption undoes encryption -/

theorem xor_xor_cancel (a b : Nat) : (a ^^^ b) ^^^ a = b := by
  rw [Nat.xor_comm a b, Nat.xor_assoc, Nat.xor_self, Nat.xor_zero]

theorem load32_word_bytes (w : Nat) (h : w < 2 ^ 32) : load32 (word_bytes w) 0 = w :=
  pack_bytes w h

theorem word_bytes_load32 (b : List Nat) (hb : is_bytes b) (hl : b.length = 4) :
    word_bytes (load32 b 0) = b := by
  match b, hl with
  | [b0, b1, b2, b3], _ =>
    obtain ⟨e0, e1, e2, e3⟩ := bytes_pack b0 b1 b2 b3
      (hb b0 (by simp)) (hb b1 (by simp)) (hb b2 (by simp)) (hb b3 (by simp))
    have e : load32 [b0, b1, b2, b3] 0 = pack b0 b1 b2 b3 := rfl
    rw [e, word_bytes, e0, e1, e2, e3]

theorem dec_blocks_cons (k : List Nat) (s : State) (b : List Nat) (bs : List (List Nat)) :
    dec_blocks k s (b :: bs) =
      (dec_blocks k (xor_w3 (perm k 9 (xor_w1 s 0x50))
          (load32 b 0 ^^^ (perm k 9 (xor_w1 s 0x50)).w2)) bs).map fun r =>
        (r.1, word_bytes (load32 b 0 ^^^ (perm k 9 (xor_w1 s 0x50)).w2) ++ r.2) := by
  rw [dec_blocks, state_update_1152, Option.some_bind]

theorem take_blocks_cons_append (n : Nat) (w rest : List Nat) (hw : w.length = 4) :
    take_blocks (n + 1) (w ++ rest) = w :: take_blocks n rest := by
  rw [take_blocks, List.take_left' hw, List.drop_left' hw]

/-- On the bytes that `enc_blocks` emits, `dec_blocks` gives back the blocks and ends in
the same state. -/
theorem dec_blocks_enc_blocks (k : List Nat) (s : State) (bs : List (List Nat))
    (r : State × List Nat) (hk : is_bytes k) (hs : s.wf)
    (hbs : ∀ b ∈ bs, is_bytes b ∧ b.length = 4) (h : enc_blocks k s bs = some r) :
    dec_blocks k s (take_blocks bs.length r.2) = some (r.1, bs.flatten) := by
  induction bs generalizing s r with
  | nil =>
    rw [enc_blocks, Option.some.injEq] at h
    rw [← h]; rfl
  | cons b bs ih =>
    obtain ⟨r', hr'⟩ := enc_blocks_some k
      (xor_w3 (perm k 9 (xor_w1 s 0x50)) (load32 b 0)) bs
    have hb := hbs b (List.mem_cons_self b bs)
    have hu : (perm k 9 (xor_w1 s 0x50)).wf := perm_wf k 9 _ hk (xor_w1_wf s _ hs (by norm_num))
    have hx : (perm k 9 (xor_w1 s 0x50)).w2 ^^^ load32 b 0 < 2 ^ 32 :=
      Nat.xor_lt_two_pow hu.2.2.1 (load32_lt hb.1 0)
    have i := ih _ r' (xor_w3_wf _ _ hu (load32_lt hb.1 0))
      (fun b' hb' => hbs b' (List.mem_cons_of_mem b hb')) hr'
    rw [enc_blocks_cons, hr', Option.map_some', Option.some.injEq] at h
    rw [← h]
    dsimp only
    rw [List.length_cons, take_blocks_cons_append _ _ _ (word_bytes_length _), dec_blocks_cons,
      load32_word_bytes _ hx, xor_xor_cancel, i, Option.map_some', word_bytes_load32 b hb.1 hb.2,
      List.flatten_cons]

theorem take_blocks_flatten (n : Nat) (p : List Nat) (h : 4 * n ≤ p.length) :
    (take_blocks n p).flatten = p.take (4 * n) := by
  induction n generalizing p with
  | zero => rfl
  | succ n ih =>
    rw [take_blocks, List.flatten_cons, ih _ (by rw [List.length_drop]; omega),
      show 4 * (n + 1) = 4 + 4 * n by omega, List.take_add]

theorem take_blocks_lengths (n : Nat) (p : List Nat) (h : 4 * n ≤ p.length) :
    ∀ b ∈ take_blocks n p, b.length = 4 := by
  induction n generalizing p with
  | zero => intro b hb; exact absurd hb (List.not_mem_nil b)
  | succ n ih =>
    intro b hb
    rw [take_blocks, List.mem_cons] at hb
    rcases hb with hb | hb
    · rw [hb, List.length_take]; omega
    · exact ih (p.drop 4) (by rw [List.length_drop]; omega) b hb


theorem dec_trailing_unfold (k : List Nat) (s : State) (t : List Nat) :
    dec_trailing k s t =
      if t.length = 0 then some (s, [])
      else
        (state_update (xor_w1 s 0x50) k 1152).map fun u =>
          (xor_w1 (for_loop (fun j (sp : State × List Nat) =>
              (xor_state_byte sp.1 (12 + j)
                (t.getD j 0 ^^^ (state_bytes sp.1).getD (8 + j) 0),
                sp.2 ++ [t.getD j 0 ^^^ (state_bytes sp.1).getD (8 + j) 0]))
              t.length 0 (u, [])).1 t.length,
            (for_loop (fun j (sp : State × List Nat) =>
              (xor_state_byte sp.1 (12 + j)
                (t.getD j 0 ^^^ (state_bytes sp.1).getD (8 + j) 0),
                sp.2 ++ [t.getD j 0 ^^^ (state_bytes sp.1).getD (8 + j) 0]))
              t.length 0 (u, [])).2) := rfl

/-- The loop of `dec_trailing` on the bytes that encryption emits for the remaining
plaintext bytes `tl`: it gives `tl` back and folds it into word 3. -/
theorem dec_trailing_loop (u : State) (tl : List Nat) (htl : is_bytes tl) (hu : u.wf)
    (h0 : tl.length ≠ 0) (h4 : tl.length < 4) :
    for_loop (fun j (sp : State × List Nat) =>
        (xor_state_byte sp.1 (12 + j)
          ((List.zipWith (fun a b => a ^^^ b) (word_bytes u.w2) tl).getD j 0 ^^^
            (state_bytes sp.1).getD (8 + j) 0),
          sp.2 ++ [(List.zipWith (fun a b => a ^^^ b) (word_bytes u.w2) tl).getD j 0 ^^^
            (state_bytes sp.1).getD (8 + j) 0]))
      tl.length 0 (u, []) = (xor_w3 u (load32 tl 0), tl) := by
  match tl, h0, h4 with
  | [t0], _, _ =>
    have b0 : t0 < 256 := htl t0 (by simp)
    have e0 : (u.w2 % 256 ^^^ t0) ^^^ u.w2 % 256 = t0 := xor_xor_cancel _ _
    show (xor_state_byte u 12 ((u.w2 % 256 ^^^ t0) ^^^ u.w2 % 256),
      [(u.w2 % 256 ^^^ t0) ^^^ u.w2 % 256]) = _
    rw [e0, xor_state_byte_12 u _ hu b0]
    rfl
  | [t0, t1], _, _ =>
    have b0 : t0 < 256 := htl t0 (by simp)
    have b1 : t1 < 256 := htl t1 (by simp)
    have e0 : (u.w2 % 256 ^^^ t0) ^^^ u.w2 % 256 = t0 := xor_xor_cancel _ _
    have e1 : ((u.w2 >>> 8) % 256 ^^^ t1) ^^^ (u.w2 >>> 8) % 256 = t1 := xor_xor_cancel _ _
    have w1 := xor_w3_wf u _ hu (pack_lt _ 0 0 0 b0 (by norm_num) (by norm_num) (by norm_num))
    have s1 : xor_state_byte u 12 ((u.w2 % 256 ^^^ t0) ^^^ u.w2 % 256) =
        xor_w3 u (pack t0 0 0 0) := by rw [e0, xor_state_byte_12 u _ hu b0]
    show (xor_state_byte (xor_state_byte u 12 ((u.w2 % 256 ^^^ t0) ^^^ u.w2 % 256)) 13
        (((u.w2 >>> 8) % 256 ^^^ t1) ^^^
          (state_bytes (xor_state_byte u 12 ((u.w2 % 256 ^^^ t0) ^^^ u.w2 % 256))).getD 9 0),
      [(u.w2 % 256 ^^^ t0) ^^^ u.w2 % 256,
        ((u.w2 >>> 8) % 256 ^^^ t1) ^^^
          (state_bytes (xor_state_byte u 12 ((u.w2 % 256 ^^^ t0) ^^^ u.w2 % 256))).getD 9 0]) = _
    rw [s1]
    show (xor_state_byte (xor_w3 u (pack t0 0 0 0)) 13
        (((u.w2 >>> 8) % 256 ^^^ t1) ^^^ (u.w2 >>> 8) % 256),
      [(u.w2 % 256 ^^^ t0) ^^^ u.w2 % 256,
        ((u.w2 >>> 8) % 256 ^^^ t1) ^^^ (u.w2 >>> 8) % 256]) = _
    rw [e0, e1, xor_state_byte_13 _ _ w1 b1, xor_w3_xor_w3,
      (pack_xor_3 t0 t1 0 b0 b1 (by norm_num)).1]
    rfl
  | [t0, t1, t2], _, _ =>
    have b0 : t0 < 256 := htl t0 (by simp)
    have b1 : t1 < 256 := htl t1 (by simp)
    have b2 : t2 < 256 := htl t2 (by simp)
    have e0 : (u.w2 % 256 ^^^ t0) ^^^ u.w2 % 256 = t0 := xor_xor_cancel _ _
    have e1 : ((u.w2 >>> 8) % 256 ^^^ t1) ^^^ (u.w2 >>> 8) % 256 = t1 := xor_xor_cancel _ _
    have e2 : ((u.w2 >>> 16) % 256 ^^^ t2) ^^^ (u.w2 >>> 16) % 256 = t2 := xor_xor_cancel _ _
    have w1 := xor_w3_wf u _ hu (pack_lt _ 0 0 0 b0 (by norm_num) (by norm_num) (by norm_num))
    have w2 := xor_w3_wf _ _ w1 (pack_lt 0 _ 0 0 (by norm_num) b1 (by norm_num) (by norm_num))
    have s1 : xor_state_byte u 12 ((u.w2 % 256 ^^^ t0) ^^^ u.w2 % 256) =
        xor_w3 u (pack t0 0 0 0) := by rw [e0, xor_state_byte_12 u _ hu b0]
    have s2 : xor_state_byte (xor_w3 u (pack t0 0 0 0)) 13
        (((u.w2 >>> 8) % 256 ^^^ t1) ^^^ (u.w2 >>> 8) % 256) =
        xor_w3 (xor_w3 u (pack t0 0 0 0)) (pack 0 t1 0 0) := by
      rw [e1, xor_state_byte_13 _ _ w1 b1]
    show (xor_state_byte (xor_state_byte (xor_state_byte u 12
          ((u.w2 % 256 ^^^ t0) ^^^ u.w2 % 256)) 13
        (((u.w2 >>> 8) % 256 ^^^ t1) ^^^
          (state_bytes (xor_state_byte u 12 ((u.w2 % 256 ^^^ t0) ^^^ u.w2 % 256))).getD 9 0)) 14
        (((u.w2 >>> 16) % 256 ^^^ t2) ^^^
          (state_bytes (xor_state_byte (xor_state_byte u 12
              ((u.w2 % 256 ^^^ t0) ^^^ u.w2 % 256)) 13
            (((u.w2 >>> 8) % 256 ^^^ t1) ^^^
              (state_bytes (xor_state_byte u 12
                ((u.w2 % 256 ^^^ t0) ^^^ u.w2 % 256))).getD 9 0))).getD 10 0),
      [(u.w2 % 256 ^^^ t0) ^^^ u.w2 % 256,
        ((u.w2 >>> 8) % 256 ^^^ t1) ^^^
          (state_bytes (xor_state_byte u 12 ((u.w2 % 256 ^^^ t0) ^^^ u.w2 % 256))).getD 9 0,
        ((u.w2 >>> 16) % 256 ^^^ t2) ^^^
          (state_bytes (xor_state_byte (xor_state_byte u 12
              ((u.w2 % 256 ^^^ t0) ^^^ u.w2 % 256)) 13
            (((u.w2 >>> 8) % 256 ^^^ t1) ^^^
              (state_bytes (xor_state_byte u 12
                ((u.w2 % 256 ^^^ t0) ^^^ u.w2 % 256))).getD 9 0))).getD 10 0]) = _
    rw [s1]
    show (xor_state_byte (xor_state_byte (xor_w3 u (pack t0 0 0 0)) 13
        (((u.w2 >>> 8) % 256 ^^^ t1) ^^^ (u.w2 >>> 8) % 256)) 14
        (((u.w2 >>> 16) % 256 ^^^ t2) ^^^
          (state_bytes (xor_state_byte (xor_w3 u (pack t0 0 0 0)) 13
            (((u.w2 >>> 8) % 256 ^^^ t1) ^^^ (u.w2 >>> 8) % 256))).getD 10 0),
      [(u.w2 % 256 ^^^ t0) ^^^ u.w2 % 256,
        ((u.w2 >>> 8) % 256 ^^^ t1) ^^^ (u.w2 >>> 8) % 256,
        ((u.w2 >>> 16) % 256 ^^^ t2) ^^^
          (state_bytes (xor_state_byte (xor_w3 u (pack t0 0 0 0)) 13
            (((u.w2 >>> 8) % 256 ^^^ t1) ^^^ (u.w2 >>> 8) % 256))).getD 10 0]) = _
    rw [s2]
    show (xor_state_byte (xor_w3 (xor_w3 u (pack t0 0 0 0)) (pack 0 t1 0 0)) 14
        (((u.w2 >>> 16) % 256 ^^^ t2) ^^^ (u.w2 >>> 16) % 256),
      [(u.w2 % 256 ^^^ t0) ^^^ u.w2 % 256,
        ((u.w2 >>> 8) % 256 ^^^ t1) ^^^ (u.w2 >>> 8) % 256,
        ((u.w2 >>> 16) % 256 ^^^ t2) ^^^ (u.w2 >>> 16) % 256]) = _
    rw [e0, e1, e2, xor_state_byte_14 _ _ w2 b2, xor_w3_xor_w3, xor_w3_xor_w3,
      ← Nat.xor_assoc, (pack_xor_3 t0 t1 t2 b0 b1 b2).1, (pack_xor_3 t0 t1 t2 b0 b1 b2).2]
    rfl


theorem dec_trailing_nil (k : List Nat) (s : State) : dec_trailing k s [] = some (s, []) := rfl

/-- The message stage of decryption, run on the bytes that the message stage of
encryption has put into the buffer, gives back the plaintext and ends in the same
state. -/
theorem decrypt_message_encrypt_message (k m c : List Nat) (s : State) (hk : is_bytes k)
    (hm : is_bytes m) (hs : s.wf) (hc : m.length ≤ c.length) :
    ∃ (sc r r2 : State × List Nat),
      encrypt_message k m (s, c) = some sc ∧
      dec_blocks k s (full_blocks (sc.2.take m.length)) = some r ∧
      dec_trailing k r.1
        ((sc.2.take m.length).drop (4 * ((sc.2.take m.length).length / 4))) = some r2 ∧
      r2.1 = sc.1 ∧ r.2 ++ r2.2 = m := by
  have hbs : ∀ b ∈ full_blocks m, is_bytes b ∧ b.length = 4 := fun b hb =>
    ⟨take_blocks_bytes _ m hm b hb, take_blocks_lengths _ m (by omega) b hb⟩
  have hfl : (full_blocks m).length = m.length / 4 := take_blocks_length _ _
  have hfj : (full_blocks m).flatten = m.take (4 * (m.length / 4)) :=
    take_blocks_flatten _ m (by omega)
  by_cases hr : m.length % 4 = 0
  · obtain ⟨r, hr1⟩ := enc_blocks_some k s (full_blocks m)
    have hl : r.2.length = m.length := by
      rw [enc_blocks_length k s _ r hr1, hfl]; omega
    have d := dec_blocks_enc_blocks k s _ r hk hs hbs hr1
    rw [hfl, hfj, show 4 * (m.length / 4) = m.length by omega, List.take_length] at d
    refine ⟨(r.1, r.2 ++ c.drop m.length), (r.1, m), (r.1, []), ?_, ?_, ?_, rfl,
      List.append_nil m⟩
    · rw [encrypt_message_of_full k m c s hr hc, hr1, Option.map_some']
    · dsimp only
      rw [List.take_left' hl, full_blocks, hl, d]
    · dsimp only
      rw [List.take_left' hl, hl, show 4 * (m.length / 4) = m.length by omega,
        ← hl, List.drop_length, dec_trailing_nil]
  · obtain ⟨r, u, hr1, hl, hu1, hu, he⟩ :=
      encrypt_message_of_remainder k m c s hk hm hs hr hc
    have hzl : (List.zipWith (fun a b => a ^^^ b) (word_bytes u.w2)
        (m.drop (4 * (m.length / 4)))).length = m.length % 4 := by
      rw [List.length_zipWith, word_bytes_length, List.length_drop]; omega
    have hdl : (m.drop (4 * (m.length / 4))).length = m.length % 4 := by
      rw [List.length_drop]; omega
    have hrz : (r.2 ++ List.zipWith (fun a b => a ^^^ b) (word_bytes u.w2)
        (m.drop (4 * (m.length / 4)))).length = m.length := by
      rw [List.length_append, hl, hzl]; omega
    have d := dec_blocks_enc_blocks k s _ r hk hs hbs hr1
    rw [hfl, hfj] at d
    have t := dec_trailing_loop u (m.drop (4 * (m.length / 4))) (is_bytes_drop hm _) hu
      (by rw [hdl]; exact hr) (by rw [hdl]; omega)
    rw [hdl, load32_drop_mul, Nat.add_zero] at t
    refine ⟨_, (r.1, m.take (4 * (m.length / 4))),
      (xor_w1 (xor_w3 u (load32 m (m.length / 4))) (m.length % 4),
        m.drop (4 * (m.length / 4))), he, ?_, ?_, rfl, List.take_append_drop _ m⟩
    · dsimp only
      rw [List.take_left' hrz, full_blocks, hrz, take_blocks_append _ _ _ (by omega), d]
    · dsimp only
      rw [List.take_left' hrz, hrz, List.drop_left' hl, dec_trailing_unfold,
        if_neg (by rw [hzl]; exact hr), hu1, Option.map_some', hzl, t]

theorem finalize_eq (k : List Nat) (s a b : State)
    (ha : state_update (xor_w1 s 0x70) k 1152 = some a)
    (hb : state_update (xor_w1 a 0x70) k 640 = some b) :
    finalize k s = some (word_bytes a.w2 ++ word_bytes b.w2) := by
  rw [finalize, ha, Option.some_bind, hb, Option.map_some']

theorem crypto_aead_decrypt_unfold (c ad npub k : List Nat) :
    crypto_aead_decrypt c ad npub k =
      if c.length < 8 then some DecryptResult.authentication_failure
      else
        (initialization k npub ⟨0, 0, 0, 0⟩).bind fun s =>
        (process_ad k ad s).bind fun s =>
        (dec_blocks k s (full_blocks (c.take (c.length - 8)))).bind fun r =>
        (dec_trailing k r.1 ((c.take (c.length - 8)).drop
          (4 * ((c.take (c.length - 8)).length / 4)))).bind fun r2 =>
        (finalize k r2.1).map fun tag =>
          if tag = c.drop (c.length - 8) then DecryptResult.ok (r.2 ++ r2.2)
          else DecryptResult.authentication_failure := rfl

/-- C2: decrypting what `crypto_aead_encrypt` has output (its `*clen` bytes of `c`) with
the same key, nonce and associated data succeeds and gives back the plaintext. -/
theorem decrypt_encrypt (c m ad nsec npub k : List Nat) (hk : is_bytes k)
    (hn : is_bytes npub) (had : is_bytes ad) (hm : is_bytes m)
    (hc : m.length + 8 ≤ c.length) :
    ∃ res : EncryptResult,
      crypto_aead_encrypt c m ad nsec npub k = some res ∧
      crypto_aead_decrypt (res.c.take res.clen) ad npub k = some (DecryptResult.ok m) := by
  obtain ⟨s0, s1, sc, a, b, h0, h1, h2, l2, ha, hb, h3⟩ :=
    crypto_aead_encrypt_eq c m ad nsec npub k hc
  have ws1 : s1.wf := process_ad_wf k ad s0 s1 hk had
    (initialization_wf k npub _ s0 hk hn h0) h1
  obtain ⟨sc', r, r2, e1, e2, e3, e4, e5⟩ :=
    decrypt_message_encrypt_message k m c s1 hk hm ws1 (by omega)
  rw [h2, Option.some.injEq] at e1
  subst e1
  have hl : (sc.2.take m.length).length = m.length := by
    rw [List.length_take]; omega
  have ht : (List.take m.length sc.2 ++ (word_bytes a.w2 ++ word_bytes b.w2)).length =
      m.length + 8 := by
    rw [List.length_append, hl]; rfl
  refine ⟨_, h3, ?_⟩
  dsimp only
  rw [List.take_left' ht, crypto_aead_decrypt_unfold, ht, if_neg (by omega),
    Nat.add_sub_cancel, List.take_left' hl, List.drop_left' hl, h0, Option.some_bind, h1,
    Option.some_bind, e2, Option.some_bind, e3, Option.some_bind, e4,
    finalize_eq k sc.1 a b ha hb, Option.map_some', if_pos rfl, e5]

theorem decrypt_encrypt_witness :
    is_bytes (List.replicate 24 7) ∧ is_bytes (List.replicate 12 9) ∧ is_bytes [1, 2, 3] ∧
      is_bytes [1, 2, 3, 4, 5] ∧
      ([1, 2, 3, 4, 5] : List Nat).length + 8 ≤ (List.replicate 13 0).length ∧
      ∃ res : EncryptResult,
        crypto_aead_encrypt (List.replicate 13 0) [1, 2, 3, 4, 5] [1, 2, 3] []
          (List.replicate 12 9) (List.replicate 24 7) = some res ∧
        crypto_aead_decrypt (res.c.take res.clen) [1, 2, 3] (List.replicate 12 9)
          (List.replicate 24 7) = some (DecryptResult.ok [1, 2, 3, 4, 5]) :=
  ⟨by decide, by decide, by decide, by decide, by decide,
    decrypt_encrypt _ _ _ _ _ _ (by decide) (by decide) (by decide) (by decide) (by decide)⟩

/-! ## `state_update` for a general step count -/

/-- As long as the counter does not wrap, the loop of `state_update` makes the passes
that are left and returns. -/
theorem state_update_loop_passes (key : List Nat) (n : Nat) (hn : n ≤ 2 ^ 32 - 128)
    (p fuel i j : Nat) (s : State) (hf : p < fuel) (hp : n ≤ i + 128 * p)
    (hq : ∀ q, q < p → i + 128 * q < n) :
    state_update_loop key n fuel i j s = some (state_update_passes key p j s) := by
  induction p generalizing fuel i j s with
  | zero =>
    obtain ⟨f, rfl⟩ : ∃ f, fuel = f + 1 := ⟨fuel - 1, by omega⟩
    rw [state_update_loop, if_neg (by omega), state_update_passes]
  | succ p ih =>
    obtain ⟨f, rfl⟩ : ∃ f, fuel = f + 1 := ⟨fuel - 1, by omega⟩
    have hi : i < n := by have := hq 0 (by omega); omega
    have hw : (i + 128) % 2 ^ 32 = i + 128 := Nat.mod_eq_of_lt (by omega)
    rw [state_update_loop, if_pos hi, state_update_passes]
    dsimp only
    rw [hw]
    exact ih f (i + 128) _ _ (by omega) (by omega)
      (fun q hq' => by have := hq (q + 1) (by omega); omega)

/-- Below the point where the counter wraps, `state_update` returns the state after
one pass for every started group of 128 steps. -/
theorem state_update_eq (s : State) (key : List Nat) (n : Nat) (hn : n ≤ 2 ^ 32 - 128) :
    state_update s key n = some (perm key ((n + 127) / 128) s) := by
  rw [state_update, perm]
  exact state_update_loop_passes key n hn _ _ 0 0 s (by omega) (by omega)
    (fun q hq => by omega)

/-- Above `2 ^ 32 - 128` the counter, a multiple of 128, wraps to 0 before it reaches
the step count: the loop does not end, whatever the number of passes allowed. -/
theorem state_update_loop_wrap (key : List Nat) (n : Nat) (hn : 2 ^ 32 - 128 < n)
    (fuel i j : Nat) (s : State) (hi : i % 128 = 0) (hi2 : i < 2 ^ 32) :
    state_update_loop key n fuel i j s = none := by
  induction fuel generalizing i j s with
  | zero => rw [state_update_loop]
  | succ fuel ih =>
    rw [state_update_loop, if_pos (by omega)]
    exact ih _ _ _ (by omega) (Nat.mod_lt _ (by norm_num))

/-- C11, as the code has it: for every state, key and step count up to `2 ^ 32 - 128`
(every multiple of 128 that fits 32 bits is one) `state_update` returns a state, and
the same one however many more passes the loop is allowed. -/
theorem state_update_returns (s : State) (key : List Nat) (n : Nat)
    (hn : n ≤ 2 ^ 32 - 128) :
    ∃ r : State, state_update s key n = some r ∧
      ∀ fuel, n / 128 + 2 ≤ fuel → state_update_loop key n fuel 0 0 s = some r := by
  refine ⟨_, state_update_eq s key n hn, fun fuel hf => ?_⟩
  rw [perm]
  exact state_update_loop_passes key n hn _ _ 0 0 s (by omega) (by omega)
    (fun q hq => by omega)

theorem state_update_returns_witness :
    (641 : Nat) ≤ 2 ^ 32 - 128 ∧
      ∃ r : State, state_update ⟨1, 2, 3, 4⟩ (List.replicate 24 7) 641 = some r ∧
        ∀ fuel, 641 / 128 + 2 ≤ fuel →
          state_update_loop (List.replicate 24 7) 641 fuel 0 0 ⟨1, 2, 3, 4⟩ = some r :=
  ⟨by decide, state_update_returns _ _ _ (by decide)⟩

/-- C11 fails at the step count `2 ^ 32 - 1`: `state_update` does not return, and no
number of passes lets its loop end. -/
theorem state_update_diverges :
    state_update ⟨0, 0, 0, 0⟩ (List.replicate 24 0) 4294967295 = none ∧
      ¬ ∃ (fuel : Nat) (r : State),
        state_update_loop (List.replicate 24 0) 4294967295 fuel 0 0 ⟨0, 0, 0, 0⟩ = some r := by
  have h : ∀ fuel, state_update_loop (List.replicate 24 0) 4294967295 fuel 0 0
      ⟨0, 0, 0, 0⟩ = none := fun fuel =>
    state_update_loop_wrap _ _ (by norm_num) fuel 0 0 _ (by norm_num) (by norm_num)
  refine ⟨?_, ?_⟩
  · rw [state_update]; exact h _
  · rintro ⟨fuel, r, hr⟩
    rw [h fuel] at hr
    exact Option.noConfusion hr

/-- C14: for `128 * n < 2 ^ 32`, `state_update` with `128 * n` steps makes exactly `n`
passes through the four steps of its loop body, the first with key index 0; `NROUND1`
is 640 and gives 5 passes, `NROUND2` is 1152 and gives 9, and 0 steps leave the state
as it is. -/
theorem state_update_chunks (s : State) (key : List Nat) (n : Nat) (h : 128 * n < 2 ^ 32) :
    state_update s key (128 * n) = some (state_update_passes key n 0 s) ∧
      NROUND1 = 640 ∧ state_update s key NROUND1 = some (state_update_passes key 5 0 s) ∧
      NROUND2 = 1152 ∧ state_update s key NROUND2 = some (state_update_passes key 9 0 s) ∧
      state_update s key 0 = some s := by
  have e := state_update_eq s key (128 * n) (by omega)
  rw [show (128 * n + 127) / 128 = n by omega] at e
  refine ⟨e, NROUND1_eq, ?_, NROUND2_eq, ?_, rfl⟩
  · rw [NROUND1_eq]; exact state_update_640 s key
  · rw [NROUND2_eq]; exact state_update_1152 s key

theorem state_update_chunks_witness :
    128 * 7 < 2 ^ 32 ∧
      state_update ⟨1, 2, 3, 4⟩ (List.replicate 24 7) (128 * 7) =
        some (state_update_passes (List.replicate 24 7) 7 0 ⟨1, 2, 3, 4⟩) :=
  ⟨by decide, (state_update_chunks _ _ _ (by decide)).1⟩

/-! ## The key index -/

theorem state_update_body_0 (key : List Nat) (s : State) :
    state_update_body key s 0 =
      (step3 (load32 key 3) (step2 (load32 key 2) (step1 (load32 key 1)
        (step0 (load32 key 0) s))), 4) := rfl

theorem state_update_body_4 (key : List Nat) (s : State) :
    state_update_body key s 4 =
      (step3 (load32 key 1) (step2 (load32 key 0) (step1 (load32 key 5)
        (step0 (load32 key 4) s))), 2) := rfl

theorem state_update_body_2 (key : List Nat) (s : State) :
    state_update_body key s 2 =
      (step3 (load32 key 5) (step2 (load32 key 4) (step1 (load32 key 3)
        (step0 (load32 key 2) s))), 0) := rfl

theorem keyed_step_0 (key : List Nat) (t : Nat) (s : State) (h : t % 4 = 0) :
    keyed_step key t s = step0 (load32 key (t % 6)) s := by
  rw [keyed_step, if_pos h]

theorem keyed_step_1 (key : List Nat) (t : Nat) (s : State) (h : t % 4 = 1) :
    keyed_step key t s = step1 (load32 key (t % 6)) s := by
  rw [keyed_step, if_neg (by omega), if_pos h]

theorem keyed_step_2 (key : List Nat) (t : Nat) (s : State) (h : t % 4 = 2) :
    keyed_step key t s = step2 (load32 key (t % 6)) s := by
  rw [keyed_step, if_neg (by omega), if_neg (by omega), if_pos h]

theorem keyed_step_3 (key : List Nat) (t : Nat) (s : State) (h : t % 4 = 3) :
    keyed_step key t s = step3 (load32 key (t % 6)) s := by
  rw [keyed_step, if_neg (by omega), if_neg (by omega), if_neg (by omega)]

/-- Pass number `q` of a call, which starts with key index `4 * q % 6`, is the keyed
steps `4 * q, ..., 4 * q + 3`, and it leaves the key index at `4 * (q + 1) % 6`. -/
theorem state_update_body_keyed (key : List Nat) (s : State) (q : Nat) :
    state_update_body key s (4 * q % 6) =
      (keyed_step key (4 * q + 3) (keyed_step key (4 * q + 2) (keyed_step key (4 * q + 1)
        (keyed_step key (4 * q) s))), 4 * (q + 1) % 6) := by
  rw [keyed_step_0 key (4 * q) _ (by omega), keyed_step_1 key (4 * q + 1) _ (by omega),
    keyed_step_2 key (4 * q + 2) _ (by omega), keyed_step_3 key (4 * q + 3) _ (by omega)]
  rcases (by omega : 4 * q % 6 = 0 ∨ 4 * q % 6 = 2 ∨ 4 * q % 6 = 4) with h | h | h
  · rw [h, show (4 * q + 1) % 6 = 1 by omega, show (4 * q + 2) % 6 = 2 by omega,
      show (4 * q + 3) % 6 = 3 by omega, show 4 * (q + 1) % 6 = 4 by omega,
      state_update_body_0]
  · rw [h, show (4 * q + 1) % 6 = 3 by omega, show (4 * q + 2) % 6 = 4 by omega,
      show (4 * q + 3) % 6 = 5 by omega, show 4 * (q + 1) % 6 = 0 by omega,
      state_update_body_2]
  · rw [h, show (4 * q + 1) % 6 = 5 by omega, show (4 * q + 2) % 6 = 0 by omega,
      show (4 * q + 3) % 6 = 1 by omega, show 4 * (q + 1) % 6 = 2 by omega,
      state_update_body_4]

/-- The passes of a call as keyed steps. -/
theorem state_update_passes_keyed (key : List Nat) (p q : Nat) (s : State) :
    state_update_passes key p (4 * q % 6) s = for_loop (keyed_step key) (4 * p) (4 * q) s := by
  induction p generalizing q s with
  | zero => rfl
  | succ p ih =>
    rw [state_update_passes, state_update_body_keyed]
    dsimp only
    rw [ih (q + 1), show 4 * (p + 1) = 4 * p + 1 + 1 + 1 + 1 by omega, for_loop, for_loop,
      for_loop, for_loop, show 4 * q + 1 + 1 + 1 + 1 = 4 * (q + 1) by omega]

theorem perm_keyed (key : List Nat) (p : Nat) (s : State) :
    perm key p s = for_loop (keyed_step key) (4 * p) 0 s :=
  state_update_passes_keyed key p 0 s

theorem load32_append_of_lt (p extra : List Nat) (i : Nat) (h : 4 * i + 3 < p.length) :
    load32 (p ++ extra) i = load32 p i := by
  simp only [load32]
  rw [List.getD_append _ _ _ _ (by omega), List.getD_append _ _ _ _ (by omega),
    List.getD_append _ _ _ _ (by omega), List.getD_append _ _ _ _ h]

theorem keyed_step_append (key extra : List Nat) (h : key.length = 24) :
    keyed_step (key ++ extra) = keyed_step key := by
  funext t s
  have e : load32 (key ++ extra) (t % 6) = load32 key (t % 6) :=
    load32_append_of_lt key extra _ (by omega)
  rw [keyed_step, keyed_step, e]

/-- C13: in a call of `state_update` that returns (step count up to `2 ^ 32 - 128`),
whatever the number of passes, keyed step `t` of the call, `t = 0, 1, 2, ...` with four
steps a pass, xors in the little-endian key word `t % 6`.  The loop's own index `j` is
`4 * q % 6` at the start of pass `q` and starts at 0 in each call; no index read is 6
or more, so that bytes behind a 24-byte key have no influence. -/
theorem state_update_key_index (s : State) (key : List Nat) (n : Nat)
    (hn : n ≤ 2 ^ 32 - 128) :
    state_update s key n =
        some (for_loop (keyed_step key) (4 * ((n + 127) / 128)) 0 s) ∧
      (∀ (q : Nat) (t : State),
        (state_update_body key t (4 * q % 6)).2 = 4 * (q + 1) % 6 ∧
        (state_update_body key t (4 * q % 6)).1 =
          keyed_step key (4 * q + 3) (keyed_step key (4 * q + 2)
            (keyed_step key (4 * q + 1) (keyed_step key (4 * q) t)))) ∧
      (∀ t : Nat, t % 6 < 6) ∧
      (∀ extra : List Nat, key.length = 24 →
        state_update s (key ++ extra) n = state_update s key n) := by
  have e : ∀ k : List Nat, state_update s k n =
      some (for_loop (keyed_step k) (4 * ((n + 127) / 128)) 0 s) := fun k => by
    rw [state_update_eq s k n hn, perm_keyed]
  refine ⟨e key, fun q t => ?_, fun t => Nat.mod_lt t (by norm_num), fun extra h => ?_⟩
  · rw [state_update_body_keyed]; exact ⟨rfl, rfl⟩
  · rw [e, e, keyed_step_append key extra h]

theorem state_update_key_index_witness :
    (640 : Nat) ≤ 2 ^ 32 - 128 ∧
      state_update ⟨1, 2, 3, 4⟩ (List.replicate 24 7) 640 =
        some (for_loop (keyed_step (List.replicate 24 7)) (4 * ((640 + 127) / 128)) 0
          ⟨1, 2, 3, 4⟩) :=
  ⟨by decide, (state_update_key_index _ _ _ (by decide)).1⟩

/-! ## `state_update` can be undone -/

theorem xor_xor_self (a x : Nat) : (a ^^^ x) ^^^ x = a := by
  rw [Nat.xor_assoc, Nat.xor_self, Nat.xor_zero]

theorem step0_step0 (k : Nat) (s : State) : step0 k (step0 k s) = s := by
  simp only [step0, xor_xor_self]

theorem step1_step1 (k : Nat) (s : State) : step1 k (step1 k s) = s := by
  simp only [step1, xor_xor_self]

theorem step2_step2 (k : Nat) (s : State) : step2 k (step2 k s) = s := by
  simp only [step2, xor_xor_self]

theorem step3_step3 (k : Nat) (s : State) : step3 k (step3 k s) = s := by
  simp only [step3, xor_xor_self]

/-- A keyed step is its own inverse. -/
theorem keyed_step_keyed_step (key : List Nat) (t : Nat) (s : State) :
    keyed_step key t (keyed_step key t s) = s := by
  rcases (by omega : t % 4 = 0 ∨ t % 4 = 1 ∨ t % 4 = 2 ∨ t % 4 = 3) with h | h | h | h
  · rw [keyed_step_0 key t _ h, keyed_step_0 key t _ h, step0_step0]
  · rw [keyed_step_1 key t _ h, keyed_step_1 key t _ h, step1_step1]
  · rw [keyed_step_2 key t _ h, keyed_step_2 key t _ h, step2_step2]
  · rw [keyed_step_3 key t _ h, keyed_step_3 key t _ h, step3_step3]

theorem keyed_steps_back_forth (key : List Nat) (n : Nat) (s : State) :
    keyed_steps_back key n (for_loop (keyed_step key) n 0 s) = s := by
  induction n with
  | zero => rfl
  | succ n ih =>
    rw [for_loop_succ_last, Nat.zero_add, keyed_steps_back, keyed_step_keyed_step, ih]

theorem keyed_steps_forth_back (key : List Nat) (n : Nat) (s : State) :
    for_loop (keyed_step key) n 0 (keyed_steps_back key n s) = s := by
  induction n generalizing s with
  | zero => rfl
  | succ n ih =>
    rw [for_loop_succ_last, Nat.zero_add, keyed_steps_back, ih, keyed_step_keyed_step]

theorem step_wf (k : Nat) (s : State) (hk : k < 2 ^ 32) (hs : s.wf) :
    (step0 k s).wf ∧ (step1 k s).wf ∧ (step2 k s).wf ∧ (step3 k s).wf :=
  ⟨⟨step_lt _ _ _ _ _ hs.1 hs.2.1 hs.2.2.1 hk, hs.2.1, hs.2.2.1, hs.2.2.2⟩,
    ⟨hs.1, step_lt _ _ _ _ _ hs.2.1 hs.2.2.1 hs.2.2.2 hk, hs.2.2.1, hs.2.2.2⟩,
    ⟨hs.1, hs.2.1, step_lt _ _ _ _ _ hs.2.2.1 hs.2.2.2 hs.1 hk, hs.2.2.2⟩,
    ⟨hs.1, hs.2.1, hs.2.2.1, step_lt _ _ _ _ _ hs.2.2.2 hs.1 hs.2.1 hk⟩⟩

theorem keyed_step_wf (key : List Nat) (t : Nat) (s : State) (hk : is_bytes key)
    (hs : s.wf) : (keyed_step key t s).wf := by
  have h := step_wf (load32 key (t % 6)) s (load32_lt hk _) hs
  rw [keyed_step]
  split_ifs
  · exact h.1
  · exact h.2.1
  · exact h.2.2.1
  · exact h.2.2.2

theorem keyed_steps_back_wf (key : List Nat) (n : Nat) (s : State) (hk : is_bytes key)
    (hs : s.wf) : (keyed_steps_back key n s).wf := by
  induction n generalizing s with
  | zero => exact hs
  | succ n ih => exact ih _ (keyed_step_wf key n s hk hs)

/-- C16: for a key of bytes and a step count `128 * n` below `2 ^ 32`, `state_update` is
a bijection of the states of four 32-bit words.  Each keyed step xors into its word a
value that the other three words and a key word determine, and so undoes itself;
`state_update_inverse`, the same steps last one first, undoes `state_update` from
either side, and both keep the words within 32 bits. -/
theorem state_update_bijective (key : List Nat) (n : Nat) (hk : is_bytes key)
    (h : 128 * n < 2 ^ 32) :
    (∀ (t : Nat) (s : State), keyed_step key t (keyed_step key t s) = s) ∧
      (∀ s : State, ∃ r : State, state_update s key (128 * n) = some r ∧
        state_update_inverse r key (128 * n) = s ∧ (s.wf → r.wf)) ∧
      (∀ r : State, state_update (state_update_inverse r key (128 * n)) key (128 * n) =
          some r ∧ (r.wf → (state_update_inverse r key (128 * n)).wf)) ∧
      (∀ s s' : State, state_update s key (128 * n) = state_update s' key (128 * n) →
        s = s') := by
  have e : ∀ s : State, state_update s key (128 * n) =
      some (for_loop (keyed_step key) (4 * n) 0 s) := fun s => by
    rw [state_update_eq s key _ (by omega), perm_keyed,
      show (128 * n + 127) / 128 = n by omega]
  have d : ∀ r : State, state_update_inverse r key (128 * n) =
      keyed_steps_back key (4 * n) r := fun r => by
    rw [state_update_inverse, Nat.mul_div_cancel_left _ (by norm_num : 0 < 128)]
  refine ⟨keyed_step_keyed_step key, fun s => ⟨_, e s, ?_, fun hs => ?_⟩, fun r => ⟨?_, ?_⟩,
    fun s s' hss => ?_⟩
  · rw [d, keyed_steps_back_forth]
  · rw [← perm_keyed]; exact perm_wf key n s hk hs
  · rw [e, d, keyed_steps_forth_back]
  · intro hr; rw [d]; exact keyed_steps_back_wf key _ r hk hr
  · rw [e, e, Option.some.injEq] at hss
    rw [← keyed_steps_back_forth key (4 * n) s, hss, keyed_steps_back_forth]

theorem state_update_bijective_witness :
    is_bytes (List.replicate 24 7) ∧ 128 * 5 < 2 ^ 32 ∧
      ∀ s s' : State, state_update s (List.replicate 24 7) (128 * 5) =
        state_update s' (List.replicate 24 7) (128 * 5) → s = s' :=
  ⟨by decide, by decide, (state_update_bijective _ _ (by decide) (by decide)).2.2.2⟩

/-! ## Two calls in a row -/

theorem for_loop_add {σ : Type} (f : Nat → σ → σ) (a b i : Nat) (s : σ) :
    for_loop f (a + b) i s = for_loop f b (i + a) (for_loop f a i s) := by
  induction a generalizing i s with
  | zero => rw [Nat.zero_add, Nat.add_zero]; rfl
  | succ a ih =>
    rw [show a + 1 + b = (a + b) + 1 by omega, for_loop, ih, for_loop,
      show i + 1 + a = i + (a + 1) by omega]

theorem perm_add (key : List Nat) (a b : Nat) (s : State) (ha : a % 3 = 0) :
    perm key (a + b) s = perm key b (perm key a s) := by
  obtain ⟨c, rfl⟩ : ∃ c, a = 3 * c := ⟨a / 3, by omega⟩
  have e := state_update_passes_keyed key b (3 * c) (for_loop (keyed_step key) (4 * (3 * c)) 0 s)
  rw [show 4 * (3 * c) % 6 = 0 by omega] at e
  rw [perm_keyed key (3 * c + b) s, perm_keyed key (3 * c) s,
    show perm key b (for_loop (keyed_step key) (4 * (3 * c)) 0 s) =
      state_update_passes key b 0 (for_loop (keyed_step key) (4 * (3 * c)) 0 s) from rfl,
    e, Nat.mul_add, for_loop_add, Nat.zero_add]

theorem state_update_mul (s : State) (key : List Nat) (n : Nat) (h : 128 * n < 2 ^ 32) :
    state_update s key (128 * n) = some (perm key n s) := by
  rw [state_update_eq s key _ (by omega), show (128 * n + 127) / 128 = n by omega]

theorem keyed_step_mod (key : List Nat) (t : Nat) (s : State) :
    keyed_step key (t % 12) s = keyed_step key t s := by
  rw [keyed_step, keyed_step, Nat.mod_mod_of_dvd t (by norm_num : 4 ∣ 12),
    Nat.mod_mod_of_dvd t (by norm_num : 6 ∣ 12)]

theorem for_loop_keyed_mod (key : List Nat) (n i : Nat) (s : State) :
    for_loop (keyed_step key) n (i % 12) s = for_loop (keyed_step key) n i s := by
  induction n generalizing i s with
  | zero => rfl
  | succ n ih =>
    rw [for_loop, for_loop, keyed_step_mod, ← ih (i % 12 + 1), ← ih (i + 1),
      show (i % 12 + 1) % 12 = (i + 1) % 12 by omega]

/-- For a number of passes `a` that is not a multiple of 3 there are a key and a state
of 32-bit words on which `a + 1` passes in one call differ from `a` passes in one call
and one pass in the next. -/
theorem perm_restart (a : Nat) (ha : a % 3 ≠ 0) :
    (keyed_steps_back
        [1, 0, 0, 0, 0, 0, 0, 0, 0, 0, 0, 0, 0, 0, 0, 0, 0, 0, 0, 0, 0, 0, 0, 0] (4 * a)
        ⟨0, 0, 0, 0⟩).wf ∧
      perm [1, 0, 0, 0, 0, 0, 0, 0, 0, 0, 0, 0, 0, 0, 0, 0, 0, 0, 0, 0, 0, 0, 0, 0] (a + 1)
          (keyed_steps_back
            [1, 0, 0, 0, 0, 0, 0, 0, 0, 0, 0, 0, 0, 0, 0, 0, 0, 0, 0, 0, 0, 0, 0, 0] (4 * a)
            ⟨0, 0, 0, 0⟩) ≠
        perm [1, 0, 0, 0, 0, 0, 0, 0, 0, 0, 0, 0, 0, 0, 0, 0, 0, 0, 0, 0, 0, 0, 0, 0] 1
          (perm [1, 0, 0, 0, 0, 0, 0, 0, 0, 0, 0, 0, 0, 0, 0, 0, 0, 0, 0, 0, 0, 0, 0, 0] a
            (keyed_steps_back
              [1, 0, 0, 0, 0, 0, 0, 0, 0, 0, 0, 0, 0, 0, 0, 0, 0, 0, 0, 0, 0, 0, 0, 0] (4 * a)
              ⟨0, 0, 0, 0⟩)) := by
  refine ⟨keyed_steps_back_wf _ _ _ (by decide) (by decide), ?_⟩
  rw [perm_keyed _ (a + 1), perm_keyed _ a, keyed_steps_forth_back, Nat.mul_add, for_loop_add,
    keyed_steps_forth_back, Nat.zero_add, ← for_loop_keyed_mod, perm_keyed]
  rcases (by omega : 4 * a % 12 = 4 ∨ 4 * a % 12 = 8) with h | h
  · rw [h]; decide
  · rw [h]; decide

/-- C17: for `a` a multiple of 3 and `128 * (a + b) < 2 ^ 32`, `state_update` with
`128 * (a + b)` steps is `state_update` with `128 * a` steps followed by `state_update`
with `128 * b` steps, the key index being 0 again after every 3 passes; so the update
with 1152 steps is three updates with 384 steps in a row.  For every `a` that is not a
multiple of 3 the two differ on some 24-byte key and state, with `b = 1`: the second
call starts again at key word 0, the long call goes on with key word `4 * a % 6`. -/
theorem state_update_compose (s : State) (key : List Nat) (a b : Nat) (ha : a % 3 = 0)
    (h : 128 * (a + b) < 2 ^ 32) :
    state_update s key (128 * (a + b)) =
        (state_update s key (128 * a)).bind (fun t => state_update t key (128 * b)) ∧
      state_update s key 1152 =
        (state_update s key 384).bind (fun t =>
          (state_update t key 384).bind (fun t => state_update t key 384)) ∧
      ∀ a1 : Nat, a1 % 3 ≠ 0 → 128 * (a1 + 1) < 2 ^ 32 →
        ∃ (s1 : State) (key1 : List Nat), s1.wf ∧ is_bytes key1 ∧ key1.length = 24 ∧
          state_update s1 key1 (128 * (a1 + 1)) ≠
            (state_update s1 key1 (128 * a1)).bind (fun t => state_update t key1 (128 * 1)) := by
  refine ⟨?_, ?_, fun a1 h1 h2 => ?_⟩
  · rw [state_update_mul s key _ h, state_update_mul s key a (by omega), Option.some_bind,
      state_update_mul _ key b (by omega), perm_add key a b s ha]
  · have e3 : ∀ t : State, state_update t key 384 = some (perm key 3 t) := fun t =>
      state_update_mul t key 3 (by norm_num)
    rw [e3, Option.some_bind, e3, Option.some_bind, e3, state_update_1152,
      ← perm_add key 3 3 _ rfl, ← perm_add key 3 6 _ rfl]
  · refine ⟨keyed_steps_back
        [1, 0, 0, 0, 0, 0, 0, 0, 0, 0, 0, 0, 0, 0, 0, 0, 0, 0, 0, 0, 0, 0, 0, 0] (4 * a1)
        ⟨0, 0, 0, 0⟩,
      [1, 0, 0, 0, 0, 0, 0, 0, 0, 0, 0, 0, 0, 0, 0, 0, 0, 0, 0, 0, 0, 0, 0, 0],
      (perm_restart a1 h1).1, by decide, rfl, ?_⟩
    rw [state_update_mul _ _ _ h2, state_update_mul _ _ a1 (by omega), Option.some_bind,
      state_update_mul _ _ 1 (by norm_num)]
    intro hx
    exact (perm_restart a1 h1).2 (Option.some.inj hx)

theorem state_update_compose_witness :
    6 % 3 = 0 ∧ 128 * (6 + 4) < 2 ^ 32 ∧
      state_update ⟨1, 2, 3, 4⟩ (List.replicate 24 7) (128 * (6 + 4)) =
        (state_update ⟨1, 2, 3, 4⟩ (List.replicate 24 7) (128 * 6)).bind
          (fun t => state_update t (List.replicate 24 7) (128 * 4)) :=
  ⟨by decide, by decide, (state_update_compose _ _ _ _ (by decide) (by decide)).1⟩

/-! ## Bits of the register -/

theorem testBit_register (a b c d q : Nat) (ha : a < 2 ^ 32) (hb : b < 2 ^ 32)
    (hc : c < 2 ^ 32) :
    (register ⟨a, b, c, d⟩).testBit q =
      if q < 32 then a.testBit q else if q < 64 then b.testBit (q - 32)
      else if q < 96 then c.testBit (q - 64) else d.testBit (q - 96) := by
  have e0 : ∀ j, 32 ≤ j → a.testBit j = false := fun j hj => testBit_eq_false_of_lt ha hj
  have e1 : ∀ j, 32 ≤ j → b.testBit j = false := fun j hj => testBit_eq_false_of_lt hb hj
  have e2 : ∀ j, 32 ≤ j → c.testBit j = false := fun j hj => testBit_eq_false_of_lt hc hj
  simp only [register, Nat.testBit_or, Nat.testBit_shiftLeft]
  by_cases c32 : q < 32
  · simp [c32, show ¬ q ≥ 32 by omega, show ¬ q ≥ 64 by omega, show ¬ q ≥ 96 by omega]
  · by_cases c64 : q < 64
    · simp [c32, c64, e0 q (by omega), show q ≥ 32 by omega, show ¬ q ≥ 64 by omega,
        show ¬ q ≥ 96 by omega]
    · by_cases c96 : q < 96
      · simp [c32, c64, c96, e0 q (by omega), e1 (q - 32) (by omega), show q ≥ 32 by omega,
          show q ≥ 64 by omega, show ¬ q ≥ 96 by omega]
      · simp [c32, c64, c96, e0 q (by omega), e1 (q - 32) (by omega), e2 (q - 64) (by omega),
          show q ≥ 32 by omega, show q ≥ 64 by omega, show q ≥ 96 by omega]

theorem register_lt (s : State) (hs : s.wf) : register s < 2 ^ 128 := by
  apply Nat.lt_pow_two_of_testBit
  intro q hq
  rw [show s = ⟨s.w0, s.w1, s.w2, s.w3⟩ from rfl,
    testBit_register _ _ _ _ q hs.1 hs.2.1 hs.2.2.1,
    if_neg (by omega), if_neg (by omega), if_neg (by omega)]
  exact testBit_eq_false_of_lt hs.2.2.2 (by omega)

/-- A word put together from the upper bits of `x` and the lower bits of `y`, as the
code does it with two shifts: bit `t` is bit `n + t` of `y || x`. -/
theorem testBit_funnel (x y n t : Nat) (hx : x < 2 ^ 32) (hn : n ≤ 32) (ht : t < 32) :
    ((x >>> n) ||| ((y <<< (32 - n)) % 2 ^ 32)).testBit t =
      if n + t < 32 then x.testBit (n + t) else y.testBit (n + t - 32) := by
  rw [Nat.testBit_or, Nat.testBit_shiftRight, Nat.testBit_mod_two_pow, Nat.testBit_shiftLeft]
  by_cases h : n + t < 32
  · simp [h, ht, show ¬ t ≥ 32 - n by omega]
  · simp [h, ht, show t ≥ 32 - n by omega, testBit_eq_false_of_lt hx (show 32 ≤ n + t by omega),
      show t - (32 - n) = n + t - 32 by omega]

theorem testBit_not32 (x t : Nat) (ht : t < 32) : (not32 x).testBit t = !x.testBit t := by
  rw [not32, Nat.testBit_xor, show (0xFFFFFFFF : Nat) = 2 ^ 32 - 1 by norm_num,
    Nat.testBit_two_pow_sub_one]
  simp [ht]

/-- Bit `t` of key word `j` is bit `32 * j + t` of the key. -/
theorem testBit_load32 (key : List Nat) (j t : Nat) (hk : is_bytes key) (ht : t < 32) :
    (load32 key j).testBit t = key_bit key (32 * j + t) := by
  rw [load32_eq_pack, testBit_pack _ _ _ _ t (getD_lt_of_is_bytes hk _)
    (getD_lt_of_is_bytes hk _) (getD_lt_of_is_bytes hk _), key_bit]
  rcases (by omega : t < 8 ∨ (8 ≤ t ∧ t < 16) ∨ (16 ≤ t ∧ t < 24) ∨ (24 ≤ t ∧ t < 32))
    with h | h | h | h
  · rw [if_pos h, show (32 * j + t) / 8 = 4 * j by omega, show (32 * j + t) % 8 = t by omega]
  · rw [if_neg (by omega), if_pos (by omega), show (32 * j + t) / 8 = 4 * j + 1 by omega,
      show (32 * j + t) % 8 = t - 8 by omega]
  · rw [if_neg (by omega), if_neg (by omega), if_pos (by omega),
      show (32 * j + t) / 8 = 4 * j + 2 by omega, show (32 * j + t) % 8 = t - 16 by omega]
  · rw [if_neg (by omega), if_neg (by omega), if_neg (by omega),
      show (32 * j + t) / 8 = 4 * j + 3 by omega, show (32 * j + t) % 8 = t - 24 by omega]

/-- Bit `t` of the feedback word of a step is the feedback of the bit-serial round on
the register bits `47 + t`, `70 + t`, `85 + t`, `91 + t`. -/
theorem testBit_feedback (a b c d t : Nat) (ha : a < 2 ^ 32) (hb : b < 2 ^ 32)
    (hc : c < 2 ^ 32) (ht : t < 32) :
    (feedback b c d).testBit t =
      xor (xor ((register ⟨a, b, c, d⟩).testBit (47 + t))
        (!((register ⟨a, b, c, d⟩).testBit (70 + t) && (register ⟨a, b, c, d⟩).testBit (85 + t))))
        ((register ⟨a, b, c, d⟩).testBit (91 + t)) := by
  have f1 : ((b >>> 15) ||| ((c <<< 17) % 2 ^ 32)).testBit t =
      if 15 + t < 32 then b.testBit (15 + t) else c.testBit (15 + t - 32) :=
    testBit_funnel b c 15 t hb (by norm_num) ht
  have f2 : ((c >>> 6) ||| ((d <<< 26) % 2 ^ 32)).testBit t =
      if 6 + t < 32 then c.testBit (6 + t) else d.testBit (6 + t - 32) :=
    testBit_funnel c d 6 t hc (by norm_num) ht
  have f3 : ((c >>> 21) ||| ((d <<< 11) % 2 ^ 32)).testBit t =
      if 21 + t < 32 then c.testBit (21 + t) else d.testBit (21 + t - 32) :=
    testBit_funnel c d 21 t hc (by norm_num) ht
  have f4 : ((c >>> 27) ||| ((d <<< 5) % 2 ^ 32)).testBit t =
      if 27 + t < 32 then c.testBit (27 + t) else d.testBit (27 + t - 32) :=
    testBit_funnel c d 27 t hc (by norm_num) ht
  have r1 : (register ⟨a, b, c, d⟩).testBit (47 + t) =
      if 15 + t < 32 then b.testBit (15 + t) else c.testBit (15 + t - 32) := by
    rw [testBit_register a b c d _ ha hb hc, if_neg (by omega)]
    by_cases h : 15 + t < 32
    · rw [if_pos h, if_pos (by omega), show 47 + t - 32 = 15 + t by omega]
    · rw [if_neg h, if_neg (by omega), if_pos (by omega),
        show 47 + t - 64 = 15 + t - 32 by omega]
  have r2 : (register ⟨a, b, c, d⟩).testBit (70 + t) =
      if 6 + t < 32 then c.testBit (6 + t) else d.testBit (6 + t - 32) := by
    rw [testBit_register a b c d _ ha hb hc, if_neg (by omega), if_neg (by omega)]
    by_cases h : 6 + t < 32
    · rw [if_pos h, if_pos (by omega), show 70 + t - 64 = 6 + t by omega]
    · rw [if_neg h, if_neg (by omega), show 70 + t - 96 = 6 + t - 32 by omega]
  have r3 : (register ⟨a, b, c, d⟩).testBit (85 + t) =
      if 21 + t < 32 then c.testBit (21 + t) else d.testBit (21 + t - 32) := by
    rw [testBit_register a b c d _ ha hb hc, if_neg (by omega), if_neg (by omega)]
    by_cases h : 21 + t < 32
    · rw [if_pos h, if_pos (by omega), show 85 + t - 64 = 21 + t by omega]
    · rw [if_neg h, if_neg (by omega), show 85 + t - 96 = 21 + t - 32 by omega]
  have r4 : (register ⟨a, b, c, d⟩).testBit (91 + t) =
      if 27 + t < 32 then c.testBit (27 + t) else d.testBit (27 + t - 32) := by
    rw [testBit_register a b c d _ ha hb hc, if_neg (by omega), if_neg (by omega)]
    by_cases h : 27 + t < 32
    · rw [if_pos h, if_pos (by omega), show 91 + t - 64 = 27 + t by omega]
    · rw [if_neg h, if_neg (by omega), show 91 + t - 96 = 27 + t - 32 by omega]
  rw [feedback, Nat.testBit_xor, Nat.testBit_xor, testBit_not32 _ _ ht, Nat.testBit_and,
    f1, f2, f3, f4, r1, r2, r3, r4]

theorem testBit_toNat (b : Bool) (k : Nat) : b.toNat.testBit k = (decide (k = 0) && b) :=
  Nat.testBit_bool_to_nat b k

/-- The register after `t ≤ 32` rounds from `R`: the bits of `R` moved down by `t`, with
the low `t` bits of `W` on top, when bit `u` of `W` is the feedback of round `u`. -/
theorem bit_rounds_testBit (key : List Nat) (R W i0 : Nat) (hR : R < 2 ^ 128)
    (hW : ∀ u, u < 32 → W.testBit u =
      xor (xor (xor (xor (R.testBit u) (R.testBit (47 + u)))
        (!(R.testBit (70 + u) && R.testBit (85 + u)))) (R.testBit (91 + u)))
        (key_bit key ((i0 + u) % 192)))
    (t : Nat) (ht : t ≤ 32) (q : Nat) :
    (for_loop (bit_round key) t i0 R).testBit q =
      if q + t < 128 then R.testBit (q + t) else (decide (q < 128) && W.testBit (q + t - 128)) := by
  induction t generalizing q with
  | zero =>
    rw [for_loop]
    by_cases h : q < 128
    · rw [Nat.add_zero, if_pos h]
    · rw [Nat.add_zero, if_neg h, testBit_eq_false_of_lt hR (by omega)]
      simp [h]
  | succ t ih =>
    have iht := ih (by omega)
    have e0 : (for_loop (bit_round key) t i0 R).testBit 0 = R.testBit t := by
      rw [iht 0, if_pos (by omega), Nat.zero_add]
    have e47 : (for_loop (bit_round key) t i0 R).testBit 47 = R.testBit (47 + t) := by
      rw [iht 47, if_pos (by omega)]
    have e70 : (for_loop (bit_round key) t i0 R).testBit 70 = R.testBit (70 + t) := by
      rw [iht 70, if_pos (by omega)]
    have e85 : (for_loop (bit_round key) t i0 R).testBit 85 = R.testBit (85 + t) := by
      rw [iht 85, if_pos (by omega)]
    have e91 : (for_loop (bit_round key) t i0 R).testBit 91 = R.testBit (91 + t) := by
      rw [iht 91, if_pos (by omega)]
    rw [for_loop_succ_last, bit_round, Nat.testBit_or, Nat.testBit_shiftRight,
      Nat.testBit_shiftLeft, testBit_toNat, e0, e47, e70, e85, e91, ← hW t (by omega),
      iht (1 + q)]
    by_cases h1 : q + (t + 1) < 128
    · rw [if_pos h1, if_pos (by omega), show 1 + q + t = q + (t + 1) by omega]
      simp [show ¬ q ≥ 127 by omega]
    · rw [if_neg h1, if_neg (by omega)]
      by_cases h2 : q < 127
      · simp [show ¬ q ≥ 127 by omega, show 1 + q < 128 by omega, show q < 128 by omega,
          show 1 + q + t - 128 = q + (t + 1) - 128 by omega]
      · by_cases h3 : q = 127
        · subst h3
          simp [show 127 + (t + 1) - 128 = t by omega]
        · simp [show q ≥ 127 by omega, show ¬ 1 + q < 128 by omega, show ¬ q < 128 by omega,
            show ¬ q - 127 = 0 by omega]

/-- Thirty-two bit-serial rounds that start where the key bits are those of key word `j`
are one word step: the register moves down by one word and the new top word is
`a ^^^ (feedback b c d ^^^ load32 key j)`. -/
theorem bit_rounds_word (key : List Nat) (a b c d i0 j : Nat) (hk : is_bytes key)
    (ha : a < 2 ^ 32) (hb : b < 2 ^ 32) (hc : c < 2 ^ 32) (hd : d < 2 ^ 32)
    (hi : i0 % 192 = 32 * j) :
    for_loop (bit_round key) 32 i0 (register ⟨a, b, c, d⟩) =
      register ⟨b, c, d, a ^^^ (feedback b c d ^^^ load32 key j)⟩ := by
  have hW : ∀ u, u < 32 → (a ^^^ (feedback b c d ^^^ load32 key j)).testBit u =
      xor (xor (xor (xor ((register ⟨a, b, c, d⟩).testBit u)
        ((register ⟨a, b, c, d⟩).testBit (47 + u)))
        (!((register ⟨a, b, c, d⟩).testBit (70 + u) && (register ⟨a, b, c, d⟩).testBit (85 + u))))
        ((register ⟨a, b, c, d⟩).testBit (91 + u)))
        (key_bit key ((i0 + u) % 192)) := by
    intro u hu
    rw [Nat.testBit_xor, Nat.testBit_xor, testBit_feedback a b c d u ha hb hc hu,
      testBit_load32 key j u hk hu, testBit_register a b c d u ha hb hc, if_pos hu,
      show (i0 + u) % 192 = 32 * j + u by omega]
    simp only [Bool.xor_assoc]
  have hlt : a ^^^ (feedback b c d ^^^ load32 key j) < 2 ^ 32 :=
    step_lt _ _ _ _ _ ha hb hc (load32_lt hk _)
  apply Nat.eq_of_testBit_eq
  intro q
  rw [bit_rounds_testBit key _ _ i0 (register_lt ⟨a, b, c, d⟩ ⟨ha, hb, hc, hd⟩) hW 32 (le_refl _) q,
    testBit_register b c d _ q hb hc hd, testBit_register a b c d (q + 32) ha hb hc]
  by_cases h1 : q < 32
  · rw [if_pos (by omega), if_neg (by omega), if_pos (by omega), if_pos h1,
      show q + 32 - 32 = q by omega]
  · by_cases h2 : q < 64
    · rw [if_pos (by omega), if_neg (by omega), if_neg (by omega), if_pos (by omega),
        if_neg h1, if_pos h2, show q + 32 - 64 = q - 32 by omega]
    · by_cases h3 : q < 96
      · rw [if_pos (by omega), if_neg (by omega), if_neg (by omega), if_neg (by omega),
          if_neg h1, if_neg h2, if_pos h3, show q + 32 - 96 = q - 64 by omega]
      · rw [if_neg (by omega), if_neg h1, if_neg h2, if_neg h3,
          show q + 32 - 128 = q - 96 by omega]
        by_cases h4 : q < 128
        · simp [h4]
        · rw [testBit_eq_false_of_lt hlt (by omega)]
          simp

/-- After `t` word steps the code holds the register of the bit-serial cipher after
`32 * t` rounds, with the words rotated by `t` places. -/
theorem bit_rounds_keyed (key : List Nat) (hk : is_bytes key) (s : State) (hs : s.wf)
    (t : Nat) :
    for_loop (bit_round key) (32 * t) 0 (register s) =
      rotated_register t (for_loop (keyed_step key) t 0 s) := by
  induction t with
  | zero => rfl
  | succ t ih =>
    have hwf : (for_loop (keyed_step key) t 0 s).wf :=
      for_loop_inv State.wf (keyed_step key) (fun i x hx => keyed_step_wf key i x hk hx) t 0 s hs
    rw [show 32 * (t + 1) = 32 * t + 32 by omega, for_loop_add, ih,
      for_loop_succ_last (keyed_step key) t 0 s, Nat.zero_add (32 * t), Nat.zero_add t]
    generalize for_loop (keyed_step key) t 0 s = x at hwf
    obtain ⟨w0, w1, w2, w3⟩ := x
    obtain ⟨h0, h1, h2, h3⟩ := hwf
    simp only at h0 h1 h2 h3
    have hc : t % 4 = 0 ∨ t % 4 = 1 ∨ t % 4 = 2 ∨ t % 4 = 3 := by omega
    rcases hc with hc | hc | hc | hc
    · rw [keyed_step_0 key t _ hc, rotated_register, if_pos hc, rotated_register,
        if_neg (by omega), if_pos (by omega),
        bit_rounds_word key w0 w1 w2 w3 (32 * t) (t % 6) hk h0 h1 h2 h3 (by omega)]
      rfl
    · rw [keyed_step_1 key t _ hc, rotated_register, if_neg (by omega), if_pos hc,
        rotated_register, if_neg (by omega), if_neg (by omega), if_pos (by omega),
        bit_rounds_word key w1 w2 w3 w0 (32 * t) (t % 6) hk h1 h2 h3 h0 (by omega)]
      rfl
    · rw [keyed_step_2 key t _ hc, rotated_register, if_neg (by omega), if_neg (by omega),
        if_pos hc, rotated_register, if_neg (by omega), if_neg (by omega), if_neg (by omega),
        bit_rounds_word key w2 w3 w0 w1 (32 * t) (t % 6) hk h2 h3 h0 h1 (by omega)]
      rfl
    · rw [keyed_step_3 key t _ hc, rotated_register, if_neg (by omega), if_neg (by omega),
        if_neg (by omega), rotated_register, if_pos (by omega),
        bit_rounds_word key w3 w0 w1 w2 (32 * t) (t % 6) hk h3 h0 h1 h2 (by omega)]
      rfl

theorem testBit_register_words (a b c d q : Nat) (ha : a < 2 ^ 32) (hb : b < 2 ^ 32)
    (hc : c < 2 ^ 32) (hq : q < 32) :
    (register ⟨a, b, c, d⟩).testBit q = a.testBit q ∧
    (register ⟨a, b, c, d⟩).testBit (q + 32) = b.testBit q ∧
    (register ⟨a, b, c, d⟩).testBit (q + 64) = c.testBit q := by
  refine ⟨?_, ?_, ?_⟩
  · rw [testBit_register a b c d _ ha hb hc, if_pos hq]
  · rw [testBit_register a b c d _ ha hb hc, if_neg (by omega), if_pos (by omega),
      show q + 32 - 32 = q by omega]
  · rw [testBit_register a b c d _ ha hb hc, if_neg (by omega), if_neg (by omega),
      if_pos (by omega), show q + 64 - 64 = q by omega]

theorem testBit_register_top (a b c d q : Nat) (ha : a < 2 ^ 32) (hb : b < 2 ^ 32)
    (hc : c < 2 ^ 32) : (register ⟨a, b, c, d⟩).testBit (q + 96) = d.testBit q := by
  rw [testBit_register a b c d _ ha hb hc, if_neg (by omega), if_neg (by omega),
    if_neg (by omega), show q + 96 - 96 = q by omega]

/-- A state of four 32-bit words is determined by its register. -/
theorem register_injective (s r : State) (hs : s.wf) (hr : r.wf)
    (h : register s = register r) : s = r := by
  obtain ⟨a, b, c, d⟩ := s
  obtain ⟨a', b', c', d'⟩ := r
  obtain ⟨ha, hb, hc, hd⟩ := hs
  obtain ⟨ha', hb', hc', hd'⟩ := hr
  simp only at ha hb hc hd ha' hb' hc' hd'
  have e0 : a = a' := by
    apply Nat.eq_of_testBit_eq
    intro q
    by_cases hlt : q < 32
    · rw [← (testBit_register_words a b c d q ha hb hc hlt).1, h,
        (testBit_register_words a' b' c' d' q ha' hb' hc' hlt).1]
    · rw [testBit_eq_false_of_lt ha (by omega), testBit_eq_false_of_lt ha' (by omega)]
  have e1 : b = b' := by
    apply Nat.eq_of_testBit_eq
    intro q
    by_cases hlt : q < 32
    · rw [← (testBit_register_words a b c d q ha hb hc hlt).2.1, h,
        (testBit_register_words a' b' c' d' q ha' hb' hc' hlt).2.1]
    · rw [testBit_eq_false_of_lt hb (by omega), testBit_eq_false_of_lt hb' (by omega)]
  have e2 : c = c' := by
    apply Nat.eq_of_testBit_eq
    intro q
    by_cases hlt : q < 32
    · rw [← (testBit_register_words a b c d q ha hb hc hlt).2.2, h,
        (testBit_register_words a' b' c' d' q ha' hb' hc' hlt).2.2]
    · rw [testBit_eq_false_of_lt hc (by omega), testBit_eq_false_of_lt hc' (by omega)]
  have e3 : d = d' := by
    apply Nat.eq_of_testBit_eq
    intro q
    rw [← testBit_register_top a b c d q ha hb hc, h,
      testBit_register_top a' b' c' d' q ha' hb' hc']
  rw [e0, e1, e2, e3]

/-- C15: for a state of 32-bit words, a key of bytes and `128 * n < 2 ^ 32`,
`state_update` with `128 * n` steps returns the state whose register
`state[3] || state[2] || state[1] || state[0]` is the result of `128 * n` rounds of the
bit-serial cipher on the register of the input: round `i` computes the feedback
`s0 ^ s47 ^ ~(s70 & s85) ^ s91 ^ keybit (i mod 192)`, moves the register down by one place
and puts the feedback at bit 127. The register determines the state. -/
theorem state_update_bit_serial (s : State) (key : List Nat) (n : Nat) (hs : s.wf)
    (hk : is_bytes key) (h : 128 * n < 2 ^ 32) :
    ∃ r, state_update s key (128 * n) = some r ∧ r.wf ∧
      register r = for_loop (bit_round key) (128 * n) 0 (register s) ∧
      ∀ x : State, x.wf →
        register x = for_loop (bit_round key) (128 * n) 0 (register s) → x = r := by
  have hreg : register (perm key n s) =
      for_loop (bit_round key) (128 * n) 0 (register s) := by
    rw [show 128 * n = 32 * (4 * n) by omega, bit_rounds_keyed key hk s hs (4 * n),
      rotated_register, if_pos (by omega), perm_keyed]
  refine ⟨perm key n s, state_update_mul s key n h, perm_wf key n s hk hs, hreg, ?_⟩
  intro x hx hxr
  exact register_injective x _ hx (perm_wf key n s hk hs) (hxr.trans hreg.symm)

theorem state_update_bit_serial_witness :
    (⟨1, 2, 3, 4⟩ : State).wf ∧ is_bytes (List.replicate 24 7) ∧ 128 * 1 < 2 ^ 32 ∧
    ∃ r, state_update ⟨1, 2, 3, 4⟩ (List.replicate 24 7) (128 * 1) = some r ∧ r.wf ∧
      register r = for_loop (bit_round (List.replicate 24 7)) (128 * 1) 0 (register ⟨1, 2, 3, 4⟩) ∧
      ∀ x : State, x.wf →
        register x = for_loop (bit_round (List.replicate 24 7)) (128 * 1) 0
          (register ⟨1, 2, 3, 4⟩) → x = r :=
  ⟨by decide, by decide, by decide,
    state_update_bit_serial ⟨1, 2, 3, 4⟩ (List.replicate 24 7) 1 (by decide) (by decide)
      (by decide)⟩

/-! ## The ciphertext body -/

/-- The first `mlen` bytes that `crypto_aead_encrypt` outputs are those that the
processing of the plaintext has put at the start of the buffer. -/
theorem crypto_aead_encrypt_body (c m ad nsec npub k : List Nat)
    (hc : m.length + 8 ≤ c.length) :
    ∃ (s0 s1 : State) (sc : State × List Nat) (res : EncryptResult),
      initialization k npub ⟨0, 0, 0, 0⟩ = some s0 ∧
      process_ad k ad s0 = some s1 ∧
      encrypt_message k m (s1, c) = some sc ∧
      crypto_aead_encrypt c m ad nsec npub k = some res ∧
      res.c.take m.length = sc.2.take m.length := by
  obtain ⟨s0, s1, sc, a, b, h0, h1, h2, l2, _, _, h3⟩ :=
    crypto_aead_encrypt_eq c m ad nsec npub k hc
  have hl : (sc.2.take m.length).length = m.length := by
    rw [List.length_take]; omega
  refine ⟨s0, s1, sc, _, h0, h1, h2, h3, ?_⟩
  dsimp only
  rw [List.append_assoc, List.take_left' hl]

/-- The first `mlen` bytes put into the buffer by the processing of the plaintext are
the first `mlen` bytes that `enc_blocks` gives on one block more than the full blocks of
the plaintext followed by zeros. -/
theorem encrypt_message_stream (k m c : List Nat) (s : State) (hk : is_bytes k)
    (hm : is_bytes m) (hs : s.wf) (hc : m.length ≤ c.length) :
    ∃ (sc rp : State × List Nat),
      encrypt_message k m (s, c) = some sc ∧
      enc_blocks k s (take_blocks (m.length / 4 + 1) (m ++ List.replicate 4 0)) = some rp ∧
      sc.2.take m.length = rp.2.take m.length := by
  have hp : ∀ r, enc_blocks k s (full_blocks m) = some r →
      enc_blocks k s (take_blocks (m.length / 4 + 1) (m ++ List.replicate 4 0)) =
        some (xor_w3 (perm k 9 (xor_w1 r.1 0x50)) (load32 m (m.length / 4)),
          r.2 ++ word_bytes ((perm k 9 (xor_w1 r.1 0x50)).w2 ^^^ load32 m (m.length / 4))) := by
    intro r h
    rw [full_blocks] at h
    rw [take_blocks_succ_last, take_blocks_append _ _ _ (by omega),
      enc_blocks_append k s _ _ r h, load32_take, load32_drop_mul, load32_append_zeros,
      Nat.add_zero]
  by_cases hr : m.length % 4 = 0
  · obtain ⟨r, hr1⟩ := enc_blocks_some k s (full_blocks m)
    have hl : r.2.length = m.length := by
      rw [enc_blocks_length k s _ r hr1, full_blocks, take_blocks_length]; omega
    refine ⟨(r.1, r.2 ++ c.drop m.length), _, ?_, hp r hr1, ?_⟩
    · rw [encrypt_message_of_full k m c s hr hc, hr1, Option.map_some']
    · dsimp only
      rw [List.take_left' hl, List.take_left' hl]
  · obtain ⟨r, u, hr1, hl, hu1, hu, he⟩ :=
      encrypt_message_of_remainder k m c s hk hm hs hr hc
    rw [state_update_1152, Option.some.injEq] at hu1
    subst hu1
    refine ⟨_, _, he, hp r hr1, ?_⟩
    dsimp only
    have hz := zipWith_remainder m (perm k 9 (xor_w1 r.1 0x50)).w2 hm hu.2.2.1 hr
    have hzl : (List.zipWith (fun a b => a ^^^ b) (word_bytes (perm k 9 (xor_w1 r.1 0x50)).w2)
        (m.drop (4 * (m.length / 4)))).length = m.length % 4 := by
      rw [List.length_zipWith, word_bytes_length, List.length_drop]; omega
    have hrz : (r.2 ++ List.zipWith (fun a b => a ^^^ b)
        (word_bytes (perm k 9 (xor_w1 r.1 0x50)).w2)
        (m.drop (4 * (m.length / 4)))).length = m.length := by
      rw [List.length_append, hl, hzl]; omega
    rw [List.take_left' hrz, hz, List.take_append_eq_append_take,
      List.take_of_length_le (show r.2.length ≤ m.length by omega), hl,
      show m.length - 4 * (m.length / 4) = m.length % 4 by omega]

/-- The first `L` bytes that `enc_blocks` emits depend only on the first `L` bytes of
the input. -/
theorem enc_blocks_take (k : List Nat) (hk : is_bytes k) (n : Nat) :
    ∀ (n' : Nat) (p p' : List Nat) (s : State) (L : Nat) (r r' : State × List Nat),
      is_bytes p → is_bytes p' → s.wf → L ≤ 4 * n → L ≤ 4 * n' →
      (∀ i, i < L → p.getD i 0 = p'.getD i 0) →
      enc_blocks k s (take_blocks n p) = some r →
      enc_blocks k s (take_blocks n' p') = some r' →
      r.2.take L = r'.2.take L := by
  induction n with
  | zero =>
    intro n' p p' s L r r' _ _ _ hL _ _ _ _
    rw [show L = 0 by omega, List.take_zero, List.take_zero]
  | succ n ih =>
    intro n' p p' s L r r' hp hp' hs hL hL' hag h h'
    by_cases h0 : L = 0
    · rw [h0, List.take_zero, List.take_zero]
    obtain ⟨n', rfl⟩ : ∃ x, n' = x + 1 := ⟨n' - 1, by omega⟩
    have hu : (perm k 9 (xor_w1 s 0x50)).wf := perm_wf k 9 _ hk (xor_w1_wf _ _ hs (by norm_num))
    obtain ⟨r1, hr1⟩ := enc_blocks_some k
      (xor_w3 (perm k 9 (xor_w1 s 0x50)) (load32 p 0)) (take_blocks n (p.drop 4))
    obtain ⟨r1', hr1'⟩ := enc_blocks_some k
      (xor_w3 (perm k 9 (xor_w1 s 0x50)) (load32 p' 0)) (take_blocks n' (p'.drop 4))
    rw [take_blocks, enc_blocks_cons, load32_take, hr1, Option.map_some',
      Option.some.injEq] at h
    rw [take_blocks, enc_blocks_cons, load32_take, hr1', Option.map_some',
      Option.some.injEq] at h'
    rw [← h, ← h']
    dsimp only
    rw [List.take_append_eq_append_take, List.take_append_eq_append_take, word_bytes_length,
      word_bytes_length]
    by_cases h4 : 4 ≤ L
    · have e : load32 p 0 = load32 p' 0 := by
        rw [load32_eq_pack, load32_eq_pack, hag (4 * 0) (by omega), hag (4 * 0 + 1) (by omega),
          hag (4 * 0 + 2) (by omega), hag (4 * 0 + 3) (by omega)]
      rw [← e] at hr1'
      rw [← e, ih n' (p.drop 4) (p'.drop 4) _ (L - 4) r1 r1' (is_bytes_drop hp 4)
        (is_bytes_drop hp' 4) (xor_w3_wf _ _ hu (load32_lt hp 0)) (by omega) (by omega)
        (fun i hi => by rw [getD_drop, getD_drop]; exact hag _ (by omega)) hr1 hr1']
    · rw [show L - 4 = 0 by omega, List.take_zero, List.take_zero, load32_eq_pack,
        load32_eq_pack,
        word_bytes_xor_pack _ _ _ _ _ hu.2.2.1 (getD_lt_of_is_bytes hp _)
          (getD_lt_of_is_bytes hp _) (getD_lt_of_is_bytes hp _) (getD_lt_of_is_bytes hp _),
        word_bytes_xor_pack _ _ _ _ _ hu.2.2.1 (getD_lt_of_is_bytes hp' _)
          (getD_lt_of_is_bytes hp' _) (getD_lt_of_is_bytes hp' _) (getD_lt_of_is_bytes hp' _)]
      rcases (by omega : L = 1 ∨ L = 2 ∨ L = 3) with e | e | e
      · subst e
        rw [hag (4 * 0) (by omega)]; rfl
      · subst e
        rw [hag (4 * 0) (by omega), hag (4 * 0 + 1) (by omega)]; rfl
      · subst e
        rw [hag (4 * 0) (by omega), hag (4 * 0 + 1) (by omega), hag (4 * 0 + 2) (by omega)]
        rfl

theorem is_bytes_append_zeros {p : List Nat} (h : is_bytes p) (n : Nat) :
    is_bytes (p ++ List.replicate n 0) := by
  intro b hb
  rcases List.mem_append.mp hb with hb | hb
  · exact h b hb
  · rw [(List.mem_replicate.mp hb).2]; norm_num

theorem getD_append_of_lt (p z : List Nat) (i : Nat) (h : i < p.length) :
    (p ++ z).getD i 0 = p.getD i 0 := by
  simp only [List.getD_eq_getElem?_getD]
  rw [List.getElem?_append_left h]

/-- C18: for plaintexts `m` and `m'` with `m` a prefix of `m'`, the same key, nonce and
associated data, and output buffers that are large enough, the first `|m|` bytes that
`crypto_aead_encrypt` outputs for `m` are a prefix of the first `|m'|` bytes that it
outputs for `m'`, wherever the full blocks of `m` and of `m'` end. -/
theorem crypto_aead_encrypt_extends (c c' m m' ad nsec nsec' npub k : List Nat)
    (hk : is_bytes k) (hn : is_bytes npub) (had : is_bytes ad) (hm' : is_bytes m')
    (hp : m <+: m') (hc : m.length + 8 ≤ c.length) (hc' : m'.length + 8 ≤ c'.length) :
    ∃ res res' : EncryptResult,
      crypto_aead_encrypt c m ad nsec npub k = some res ∧
      crypto_aead_encrypt c' m' ad nsec' npub k = some res' ∧
      res.c.take m.length <+: res'.c.take m'.length := by
  obtain ⟨z, rfl⟩ := hp
  have hm : is_bytes m := fun b hb => hm' b (List.mem_append_left _ hb)
  obtain ⟨s0, s1, sc, res, h0, h1, h2, h3, h4⟩ := crypto_aead_encrypt_body c m ad nsec npub k hc
  obtain ⟨t0, t1, sc', res', g0, g1, g2, g3, g4⟩ :=
    crypto_aead_encrypt_body c' (m ++ z) ad nsec' npub k hc'
  rw [h0, Option.some.injEq] at g0
  subst g0
  rw [h1, Option.some.injEq] at g1
  subst g1
  have ws1 : s1.wf := process_ad_wf k ad s0 s1 hk had
    (initialization_wf k npub _ s0 hk hn h0) h1
  obtain ⟨sd, rp, e1, e2, e3⟩ := encrypt_message_stream k m c s1 hk hm ws1 (by omega)
  obtain ⟨sd', rp', f1, f2, f3⟩ := encrypt_message_stream k (m ++ z) c' s1 hk hm' ws1 (by omega)
  rw [h2, Option.some.injEq] at e1
  subst e1
  rw [g2, Option.some.injEq] at f1
  subst f1
  have hl : m.length ≤ (m ++ z).length := by rw [List.length_append]; omega
  have t := enc_blocks_take k hk (m.length / 4 + 1) ((m ++ z).length / 4 + 1)
    (m ++ List.replicate 4 0) (m ++ z ++ List.replicate 4 0) s1 m.length rp rp'
    (is_bytes_append_zeros hm 4) (is_bytes_append_zeros hm' 4) ws1 (by omega) (by omega)
    (fun i hi => by
      rw [getD_append_zeros, getD_append_zeros, getD_append_of_lt m z i hi]) e2 f2
  refine ⟨res, res', h3, g3, (res'.c.take (m ++ z).length).drop m.length, ?_⟩
  rw [h4, e3, t, g4, f3]
  nth_rewrite 1 [← Nat.min_eq_left hl]
  rw [← List.take_take, List.take_append_drop]

theorem crypto_aead_encrypt_extends_witness :
    is_bytes (List.replicate 24 7) ∧ is_bytes (List.replicate 12 9) ∧ is_bytes [1, 2, 3] ∧
      is_bytes [1, 2, 3, 4, 5, 6, 7, 8, 9] ∧
      [1, 2, 3, 4, 5, 6] <+: [1, 2, 3, 4, 5, 6, 7, 8, 9] ∧
      ([1, 2, 3, 4, 5, 6] : List Nat).length + 8 ≤ (List.replicate 14 0).length ∧
      ([1, 2, 3, 4, 5, 6, 7, 8, 9] : List Nat).length + 8 ≤ (List.replicate 17 0).length ∧
      ∃ res res' : EncryptResult,
        crypto_aead_encrypt (List.replicate 14 0) [1, 2, 3, 4, 5, 6] [1, 2, 3] []
          (List.replicate 12 9) (List.replicate 24 7) = some res ∧
        crypto_aead_encrypt (List.replicate 17 0) [1, 2, 3, 4, 5, 6, 7, 8, 9] [1, 2, 3] []
          (List.replicate 12 9) (List.replicate 24 7) = some res' ∧
        res.c.take ([1, 2, 3, 4, 5, 6] : List Nat).length <+:
          res'.c.take ([1, 2, 3, 4, 5, 6, 7, 8, 9] : List Nat).length :=
  ⟨by decide, by decide, by decide, by decide, ⟨[7, 8, 9], rfl⟩, by decide, by decide,
    crypto_aead_encrypt_extends _ _ _ _ _ _ _ _ _ (by decide) (by decide) (by decide)
      (by decide) ⟨[7, 8, 9], rfl⟩ (by decide) (by decide)⟩

/-- C19: for the same key, nonce and associated data and output buffers that are large
enough, two plaintexts for which `crypto_aead_encrypt` outputs the same ciphertext body
(the first `mlen` bytes) are equal; bodies that are equal have equal lengths, so the
plaintexts are of the same length. -/
theorem crypto_aead_encrypt_injective (c c' m m' ad nsec nsec' npub k : List Nat)
    (hk : is_bytes k) (hn : is_bytes npub) (had : is_bytes ad) (hm : is_bytes m)
    (hm' : is_bytes m') (hc : m.length + 8 ≤ c.length) (hc' : m'.length + 8 ≤ c'.length) :
    ∃ res res' : EncryptResult,
      crypto_aead_encrypt c m ad nsec npub k = some res ∧
      crypto_aead_encrypt c' m' ad nsec' npub k = some res' ∧
      (res.c.take m.length = res'.c.take m'.length → m = m') := by
  obtain ⟨s0, s1, sc, res, h0, h1, h2, h3, h4⟩ := crypto_aead_encrypt_body c m ad nsec npub k hc
  obtain ⟨t0, t1, sc', res', g0, g1, g2, g3, g4⟩ :=
    crypto_aead_encrypt_body c' m' ad nsec' npub k hc'
  rw [h0, Option.some.injEq] at g0
  subst g0
  rw [h1, Option.some.injEq] at g1
  subst g1
  have ws1 : s1.wf := process_ad_wf k ad s0 s1 hk had
    (initialization_wf k npub _ s0 hk hn h0) h1
  obtain ⟨sd, r, r2, e1, e2, e3, _, e5⟩ :=
    decrypt_message_encrypt_message k m c s1 hk hm ws1 (by omega)
  obtain ⟨sd', r', r2', f1, f2, f3, _, f5⟩ :=
    decrypt_message_encrypt_message k m' c' s1 hk hm' ws1 (by omega)
  rw [h2, Option.some.injEq] at e1
  subst e1
  rw [g2, Option.some.injEq] at f1
  subst f1
  refine ⟨res, res', h3, g3, ?_⟩
  intro hb
  rw [h4, g4] at hb
  rw [hb, f2, Option.some.injEq] at e2
  subst e2
  rw [hb, f3, Option.some.injEq] at e3
  subst e3
  rw [← e5, ← f5]

theorem crypto_aead_encrypt_injective_witness :
    is_bytes (List.replicate 24 7) ∧ is_bytes (List.replicate 12 9) ∧ is_bytes [1, 2, 3] ∧
      is_bytes [1, 2, 3, 4, 5] ∧ is_bytes [1, 2, 3, 4, 6] ∧
      ([1, 2, 3, 4, 5] : List Nat).length + 8 ≤ (List.replicate 13 0).length ∧
      ([1, 2, 3, 4, 6] : List Nat).length + 8 ≤ (List.replicate 13 0).length ∧
      ∃ res res' : EncryptResult,
        crypto_aead_encrypt (List.replicate 13 0) [1, 2, 3, 4, 5] [1, 2, 3] []
          (List.replicate 12 9) (List.replicate 24 7) = some res ∧
        crypto_aead_encrypt (List.replicate 13 0) [1, 2, 3, 4, 6] [1, 2, 3] []
          (List.replicate 12 9) (List.replicate 24 7) = some res' ∧
        (res.c.take ([1, 2, 3, 4, 5] : List Nat).length =
          res'.c.take ([1, 2, 3, 4, 6] : List Nat).length →
            ([1, 2, 3, 4, 5] : List Nat) = [1, 2, 3, 4, 6]) :=
  ⟨by decide, by decide, by decide, by decide, by decide, by decide, by decide,
    crypto_aead_encrypt_injective _ _ _ _ _ _ _ _ _ (by decide) (by decide) (by decide)
      (by decide) (by decide) (by decide) (by decide)⟩

/-! ## The associated data at the zero key -/

theorem initialization_zero :
    initialization (List.replicate 24 0) (List.replicate 12 0) ⟨0, 0, 0, 0⟩ =
      some ⟨3575664338, 2963189183, 905293408, 3267934879⟩ := by decide

theorem process_ad_zero :
    process_ad (List.replicate 24 0) [0, 0, 0, 0]
        ⟨3575664338, 2963189183, 905293408, 3267934879⟩ =
      some ⟨2795643491, 991697372, 3453058531, 1127787351⟩ := by decide

theorem finalize_zero_nil :
    finalize (List.replicate 24 0) ⟨3575664338, 2963189183, 905293408, 3267934879⟩ =
      some [217, 106, 136, 212, 40, 244, 59, 153] := by decide

theorem finalize_zero_ad :
    finalize (List.replicate 24 0) ⟨2795643491, 991697372, 3453058531, 1127787351⟩ =
      some [37, 22, 52, 30, 10, 228, 72, 49] := by decide

/-- With an empty plaintext the output of `crypto_aead_encrypt` is the tag that
`finalize` gives on the state after the associated data. -/
theorem crypto_aead_encrypt_nil (c ad nsec npub k : List Nat) (s0 s1 : State)
    (tag : List Nat) (hc : 8 ≤ c.length)
    (h0 : initialization k npub ⟨0, 0, 0, 0⟩ = some s0) (h1 : process_ad k ad s0 = some s1)
    (hf : finalize k s1 = some tag) :
    ∃ res : EncryptResult, crypto_aead_encrypt c [] ad nsec npub k = some res ∧
      res.ret = 0 ∧ res.clen = 8 ∧ res.c.take res.clen = tag := by
  obtain ⟨t0, t1, sc, a, b, g0, g1, g2, l2, ga, gb, g3⟩ :=
    crypto_aead_encrypt_eq c [] ad nsec npub k (by rw [List.length_nil]; omega)
  rw [h0, Option.some.injEq] at g0
  subst g0
  rw [h1, Option.some.injEq] at g1
  subst g1
  rw [encrypt_message_nil, Option.some.injEq] at g2
  subst g2
  rw [finalize_eq k s1 a b ga gb, Option.some.injEq] at hf
  refine ⟨_, g3, rfl, rfl, ?_⟩
  dsimp only
  rw [List.length_nil, List.take_zero, List.nil_append, hf]
  have hl : tag.length = 0 + 8 := by rw [← hf]; rfl
  exact List.take_left' hl

/-- C12: at the all-zero 24-byte key, the all-zero 12-byte nonce and the empty
plaintext, `crypto_aead_encrypt` with empty associated data outputs the 8 bytes
217, 106, 136, 212, 40, 244, 59, 153 and with the associated data 0, 0, 0, 0 the 8 bytes
37, 22, 52, 30, 10, 228, 72, 49, whatever the output buffers of at least 8 bytes held
before: the two outputs differ. -/
theorem crypto_aead_encrypt_ad_zero (c c' nsec nsec' : List Nat) (hc : 8 ≤ c.length)
    (hc' : 8 ≤ c'.length) :
    ∃ res res' : EncryptResult,
      crypto_aead_encrypt c [] [] nsec (List.replicate 12 0) (List.replicate 24 0) =
        some res ∧
      crypto_aead_encrypt c' [] [0, 0, 0, 0] nsec' (List.replicate 12 0)
        (List.replicate 24 0) = some res' ∧
      res.c.take res.clen = [217, 106, 136, 212, 40, 244, 59, 153] ∧
      res'.c.take res'.clen = [37, 22, 52, 30, 10, 228, 72, 49] ∧
      res.c.take res.clen ≠ res'.c.take res'.clen := by
  obtain ⟨res, h, _, _, ht⟩ := crypto_aead_encrypt_nil c [] nsec (List.replicate 12 0)
    (List.replicate 24 0) _ _ _ hc initialization_zero (process_ad_nil _ _) finalize_zero_nil
  obtain ⟨res', h', _, _, ht'⟩ := crypto_aead_encrypt_nil c' [0, 0, 0, 0] nsec'
    (List.replicate 12 0) (List.replicate 24 0) _ _ _ hc' initialization_zero process_ad_zero
    finalize_zero_ad
  refine ⟨res, res', h, h', ht, ht', ?_⟩
  rw [ht, ht']
  decide

theorem crypto_aead_encrypt_ad_zero_witness :
    8 ≤ (List.replicate 8 0).length ∧ 8 ≤ (List.replicate 8 0).length ∧
    ∃ res res' : EncryptResult,
      crypto_aead_encrypt (List.replicate 8 0) [] [] [] (List.replicate 12 0)
        (List.replicate 24 0) = some res ∧
      crypto_aead_encrypt (List.replicate 8 0) [] [0, 0, 0, 0] [] (List.replicate 12 0)
        (List.replicate 24 0) = some res' ∧
      res.c.take res.clen = [217, 106, 136, 212, 40, 244, 59, 153] ∧
      res'.c.take res'.clen = [37, 22, 52, 30, 10, 228, 72, 49] ∧
      res.c.take res.clen ≠ res'.c.take res'.clen :=
  ⟨by decide, by decide,
    crypto_aead_encrypt_ad_zero (List.replicate 8 0) (List.replicate 8 0) [] [] (by decide)
      (by decide)⟩

end TinyJambu
